import Mathlib

/-!
# Verification of the OrderCache order-matching cache

Shallow embedding of the C++ `OrderCache` (files `OrderCache.h` and the
implementation translation unit): an in-memory cache of buy/sell orders with
per-security greedy volume matching ("unsorted greedy"), a memoized
per-security matched-quantity cache, and four lookup indexes.

Modelling conventions:
* `unsigned int` quantities are `Nat`; additions that can wrap in C++ are
  taken `% 2^32` (`uintSize`).  Subtractions in the source are guarded
  (`fillLots`) and cannot wrap.
* `std::list<Order>` with `push_front` is a `List Order` whose head is the
  most recently added order.  Iterators into the list are replaced by the
  unique `orderId` (ids are unique in every reachable state because
  `addOrder` rejects duplicates).
* `std::unordered_map` is an association list `List (String × α)`;
  `operator[]` creates a default entry when the key is absent (`alTouch`,
  or `alSet` after reading with `alGet`).  Iteration order of the hash maps
  is never observed by the modelled operations, except that batch
  cancellation iterates a snapshot of an `unordered_set` of ids; the model
  iterates that set in its stored (insertion) order, one valid realisation
  of the unspecified hash order (the final state does not depend on it).
* `std::unordered_set<std::string>` is a duplicate-free `List String`.
* Locks (`std::shared_mutex`, the `lockOrder` flags) have no effect on the
  sequential semantics and are omitted; the model is the sequential
  semantics of the code.  The thread-pool branch of the lazy
  `getMatchingSizeForSecurity` is modelled by running its per-buy-order
  tasks sequentially in list order.
-/

/-- Wrap-around modulus of C++ `unsigned int` (32 bits). -/
def uintSize : Nat := 4294967296

/-- The `Order` transfer object: immutable descriptor plus the mutable
`m_workingQty`.  The per-order mutex and `m_locked` flag are omitted (no
effect on sequential semantics). -/
structure Order where
  orderId : String
  securityId : String
  side : String
  qty : Nat
  user : String
  company : String
  workingQty : Nat
deriving DecidableEq

/-- `Order::Order`: the constructor sets `m_workingQty = qty`. -/
def mkOrder (ordId secId side : String) (qty : Nat) (user company : String) : Order :=
  { orderId := ordId, securityId := secId, side := side, qty := qty,
    user := user, company := company, workingQty := qty }

/-- `Order::fillLots`: `if (m_workingQty > qty) m_workingQty -= qty; else
m_workingQty = 0;` — a saturating subtraction. -/
def Order.fillLots (o : Order) (n : Nat) : Order :=
  if o.workingQty > n then { o with workingQty := o.workingQty - n }
  else { o with workingQty := 0 }

/-- `Order::unfillLots`: `m_workingQty += qty;` (wraps modulo 2^32) then
clamp to `m_qty`. -/
def Order.unfillLots (o : Order) (n : Nat) : Order :=
  let w := (o.workingQty + n) % uintSize
  if w > o.qty then { o with workingQty := o.qty } else { o with workingQty := w }

/-- `Order::isFilled`: no working lots remain. -/
def Order.isFilled (o : Order) : Bool := o.workingQty == 0

/-- `Order::filledQty` (`m_qty - m_workingQty`, truncated like unsigned
subtraction; in every reachable state `workingQty ≤ qty`). -/
def Order.filledQty (o : Order) : Nat := o.qty - o.workingQty

/-- `OrderCache::isBuySide`: any side string other than "Sell" is Buy. -/
def isBuySide (o : Order) : Bool := o.side != "Sell"

/-! ## Association-list counterparts of `std::unordered_map` -/

/-- Read through `operator[]`/`at` with a default for an absent key. -/
def alGet {α : Type} (m : List (String × α)) (k : String) (d : α) : α :=
  match m.find? (fun e => e.1 == k) with
  | some e => e.2
  | none => d

/-- Store a value for a key: replace in place when present, append when
absent (the `operator[]`-then-mutate pattern). -/
def alSet {α : Type} (m : List (String × α)) (k : String) (v : α) :
    List (String × α) :=
  if m.any (fun e => e.1 == k) then
    m.map (fun e => if e.1 == k then (k, v) else e)
  else m ++ [(k, v)]

/-- `unordered_map::count(k) > 0`. -/
def alContains {α : Type} (m : List (String × α)) (k : String) : Bool :=
  m.any (fun e => e.1 == k)

/-- A bare `operator[]` access: default-construct the entry when absent. -/
def alTouch {α : Type} (m : List (String × α)) (k : String) (d : α) :
    List (String × α) :=
  if alContains m k then m else m ++ [(k, d)]

/-- `unordered_set<string>::insert`. -/
def keyInsert (s : List String) (k : String) : List String :=
  if s.contains k then s else s ++ [k]

/-- `unordered_set<string>::erase(k)` (also used for erasing the unique
matching element of the per-side `order_list`). -/
def keyErase (s : List String) (k : String) : List String :=
  s.filter (fun x => x != k)

/-! ## The cache state -/

/-- `OrderCache` data members.  `orderIndex` holds the key set of
`_orderIndex` (its values, list iterators, are recovered from `orders` by
the unique id); the two per-side indexes store ids in `push_back` order. -/
structure OrderCache where
  orders : List Order
  orderIndex : List String
  userOrdersIndex : List (String × List String)
  securityOrdersIndex : List (String × List String)
  securityLongOrdersIndex : List (String × List String)
  securityShortOrdersIndex : List (String × List String)
  matchedQuantity : List (String × Nat)
deriving DecidableEq

/-- The freshly constructed cache. -/
def emptyOrderCache : OrderCache :=
  { orders := [], orderIndex := [], userOrdersIndex := [],
    securityOrdersIndex := [], securityLongOrdersIndex := [],
    securityShortOrdersIndex := [], matchedQuantity := [] }

/-- Dereference an order "iterator" (unique id) in the order list. -/
def findOrder (store : List Order) (oid : String) : Option Order :=
  store.find? (fun o => o.orderId == oid)

/-- Mutate the order behind an iterator in place. -/
def updateOrder (store : List Order) (oid : String) (f : Order → Order) :
    List Order :=
  store.map (fun o => if o.orderId == oid then f o else o)

/-- `OrderCache::exists` (`_orderIndex.count(orderId) > 0`). -/
def OrderCache.existsOrder (c : OrderCache) (oid : String) : Bool :=
  c.orderIndex.contains oid

/-- `OrderCache::size` (`_orderIndex.size()`). -/
def OrderCache.size (c : OrderCache) : Nat := c.orderIndex.length

/-- `OrderCache::getMatchedQuantityInCache`: the cached per-security matched
quantity, `0` when the security has no entry. -/
def getMatchedQuantityInCache (c : OrderCache) (securityId : String) : Nat :=
  alGet c.matchedQuantity securityId 0

/-- Compile-time configuration: `eagerMatch` is the
`USE_CACHED_MATCHING_AT_ADD_ORDER` macro (defined in the shipped code),
`multiThread` the `_multiThread` runtime flag (default `true`). -/
structure MatchConfig where
  eagerMatch : Bool
  multiThread : Bool
deriving DecidableEq

/-- The shipped configuration: cached matching at `addOrder`, `_multiThread
= true`. -/
def eagerConfig : MatchConfig := { eagerMatch := true, multiThread := true }

/-- The lazy configuration (`USE_CACHED_MATCHING_AT_ADD_ORDER` not defined),
with a chosen `_multiThread` flag. -/
def lazyConfig (mt : Bool) : MatchConfig := { eagerMatch := false, multiThread := mt }

/-! ## The matcher (`OrderCache::matchOrderInCache`) -/

/-- The counterparty loop of `matchOrderInCache`: scan the snapshot `cps` of
the opposite-side id list in order; skip a filled or same-company candidate;
otherwise fill both sides by `min` of the working quantities (skipping a zero
match), and stop as soon as the subject is filled.  The subject order is the
dereferenced iterator `order` and is threaded separately (its store cell is
written back by the caller); candidates are dereferenced in the current
store.  Returns (accumulated matched quantity, final subject, final store). -/
def matchLoop (store : List Order) (subject : Order) (cps : List String)
    (acc : Nat) : Nat × Order × List Order :=
  match cps with
  | [] => (acc, subject, store)
  | cpid :: rest =>
    match findOrder store cpid with
    | none => matchLoop store subject rest acc
    | some cp =>
      if cp.isFilled || subject.company == cp.company then
        matchLoop store subject rest acc
      else
        let q := min subject.workingQty cp.workingQty
        if q == 0 then matchLoop store subject rest acc
        else
          let subject' := subject.fillLots q
          let store' := updateOrder store cpid (fun o => o.fillLots q)
          let acc' := (acc + q) % uintSize
          if subject'.isFilled then (acc', subject', store')
          else matchLoop store' subject' rest acc'

/-- `OrderCache::matchOrderInCache` for the order behind id `oid`:
early-return 0 when the order is already filled; look up (creating the
entry, per `operator[]`) and snapshot the opposite-side list; early-return 0
when it is empty; otherwise run the counterparty loop and accumulate the
matched quantity into `_matchedQuantity[securityId]` (unsigned `+=`).
Returns (matched quantity, new cache). -/
def matchOrderInCache (c : OrderCache) (oid : String) : Nat × OrderCache :=
  match findOrder c.orders oid with
  | none => (0, c)
  | some order =>
    if order.isFilled then (0, c)
    else
      let isBuy := isBuySide order
      let c1 : OrderCache :=
        if isBuy then
          { c with securityShortOrdersIndex :=
              alTouch c.securityShortOrdersIndex order.securityId [] }
        else
          { c with securityLongOrdersIndex :=
              alTouch c.securityLongOrdersIndex order.securityId [] }
      let cps :=
        if isBuy then alGet c1.securityShortOrdersIndex order.securityId []
        else alGet c1.securityLongOrdersIndex order.securityId []
      if cps.isEmpty then (0, c1)
      else
        let r := matchLoop c1.orders order cps 0
        let c2 : OrderCache :=
          { c1 with
            orders := updateOrder r.2.2 oid (fun _ => r.2.1),
            matchedQuantity := alSet c1.matchedQuantity order.securityId
              ((alGet c1.matchedQuantity order.securityId 0 + r.1) % uintSize) }
        (r.1, c2)

/-! ## The public operations -/

/-- `OrderCache::addOrder`: reject a duplicate id (silent, no exceptions
configured), otherwise `push_front` the order, insert it into the four
indexes, and in eager mode run the matcher on the new order. -/
def addOrder (cfg : MatchConfig) (c : OrderCache) (order : Order) : OrderCache :=
  if c.existsOrder order.orderId then c
  else
    let c1 : OrderCache :=
      { orders := order :: c.orders
        orderIndex := c.orderIndex ++ [order.orderId]
        userOrdersIndex := alSet c.userOrdersIndex order.user
          (keyInsert (alGet c.userOrdersIndex order.user []) order.orderId)
        securityOrdersIndex := alSet c.securityOrdersIndex order.securityId
          (keyInsert (alGet c.securityOrdersIndex order.securityId []) order.orderId)
        securityLongOrdersIndex :=
          if isBuySide order then
            alSet c.securityLongOrdersIndex order.securityId
              (alGet c.securityLongOrdersIndex order.securityId [] ++ [order.orderId])
          else c.securityLongOrdersIndex
        securityShortOrdersIndex :=
          if isBuySide order then c.securityShortOrdersIndex
          else
            alSet c.securityShortOrdersIndex order.securityId
              (alGet c.securityShortOrdersIndex order.securityId [] ++ [order.orderId])
        matchedQuantity := c.matchedQuantity }
    if cfg.eagerMatch then (matchOrderInCache c1 order.orderId).2 else c1

/-- `OrderCache::cancelSingleOrder`: silent no-op for an unknown id; when
`minQty > 0` only cancel an order whose original `qty` reaches `minQty`;
otherwise erase the id from the by-user and by-security sets (through
`operator[]`), erase the unique matching element of the per-side list, erase
the id from `_orderIndex`, and erase the order itself.  The match cache is
not touched. -/
def cancelSingleOrder (c : OrderCache) (oid : String) (minQty : Nat) : OrderCache :=
  if !(c.orderIndex.contains oid) then c
  else
    match findOrder c.orders oid with
    | none => c
    | some o =>
      if minQty > 0 && o.qty < minQty then c
      else
        { orders := c.orders.filter (fun x => x.orderId != oid)
          orderIndex := c.orderIndex.filter (fun k => k != oid)
          userOrdersIndex := alSet c.userOrdersIndex o.user
            (keyErase (alGet c.userOrdersIndex o.user []) oid)
          securityOrdersIndex := alSet c.securityOrdersIndex o.securityId
            (keyErase (alGet c.securityOrdersIndex o.securityId []) oid)
          securityLongOrdersIndex :=
            if isBuySide o then
              alSet c.securityLongOrdersIndex o.securityId
                (keyErase (alGet c.securityLongOrdersIndex o.securityId []) oid)
            else c.securityLongOrdersIndex
          securityShortOrdersIndex :=
            if isBuySide o then c.securityShortOrdersIndex
            else
              alSet c.securityShortOrdersIndex o.securityId
                (keyErase (alGet c.securityShortOrdersIndex o.securityId []) oid)
          matchedQuantity := c.matchedQuantity }

/-- `OrderCache::cancelOrder`. -/
def cancelOrder (c : OrderCache) (oid : String) : OrderCache :=
  cancelSingleOrder c oid 0

/-- `OrderCache::cancelOrders` over a snapshot of an id set (the shipped
code forces the sequential branch: `singleThreadDelete = true`). -/
def cancelOrdersBatch (c : OrderCache) (ids : List String) (minQty : Nat) :
    OrderCache :=
  ids.foldl (fun st oid => cancelSingleOrder st oid minQty) c

/-- `OrderCache::cancelOrdersForUser`: silent no-op for an unknown user,
otherwise cancel a snapshot of the user's id set. -/
def cancelOrdersForUser (c : OrderCache) (user : String) : OrderCache :=
  if !(alContains c.userOrdersIndex user) then c
  else cancelOrdersBatch c (alGet c.userOrdersIndex user []) 0

/-- `OrderCache::cancelOrdersForSecIdWithMinimumQty`: silent no-op for an
unknown security, otherwise cancel a snapshot of the security's id set with
the `minQty` threshold. -/
def cancelOrdersForSecIdWithMinimumQty (c : OrderCache) (securityId : String)
    (minQty : Nat) : OrderCache :=
  if !(alContains c.securityOrdersIndex securityId) then c
  else cancelOrdersBatch c (alGet c.securityOrdersIndex securityId []) minQty

/-- The lazy-mode query loop: `qty += matchOrderInCache(order, ...)` over
the buy-side list of the security (unsigned accumulation). -/
def lazyMatchLoop (c : OrderCache) (ids : List String) (acc : Nat) :
    Nat × OrderCache :=
  match ids with
  | [] => (acc, c)
  | oid :: rest =>
    let r := matchOrderInCache c oid
    lazyMatchLoop r.2 rest ((acc + r.1) % uintSize)

/-- `OrderCache::getMatchingSizeForSecurity`: 0 for a security absent from
the by-security index; in eager mode a read of the match cache; in lazy mode
drive the matcher over every buy-side order of the security — the
deterministic single-thread branch returns the sum it accumulated, the
thread-pool branch (modelled sequentially) returns the cache value
afterwards.  Returns (value, new cache). -/
def getMatchingSizeForSecurity (cfg : MatchConfig) (c : OrderCache)
    (securityId : String) : Nat × OrderCache :=
  if !(alContains c.securityOrdersIndex securityId) then (0, c)
  else if cfg.eagerMatch then (getMatchedQuantityInCache c securityId, c)
  else
    let c1 : OrderCache :=
      { c with securityLongOrdersIndex :=
          alTouch c.securityLongOrdersIndex securityId [] }
    let ids := alGet c1.securityLongOrdersIndex securityId []
    if !cfg.multiThread || c1.size < 2 then lazyMatchLoop c1 ids 0
    else
      let c2 := (lazyMatchLoop c1 ids 0).2
      (getMatchedQuantityInCache c2 securityId, c2)

/-- `OrderCache::getAllOrders`: the order list, front (most recent) first. -/
def getAllOrders (c : OrderCache) : List Order := c.orders

/-! ## Operation sequences -/

/-- One cache operation, for stating sequence-level claims. -/
inductive CacheOp where
  | add (o : Order)
  | cancel (oid : String)
  | query (securityId : String)
deriving DecidableEq

/-- Run a sequence of operations, collecting the value returned by every
`getMatchingSizeForSecurity` query in order. -/
def runOps (cfg : MatchConfig) (c : OrderCache) : List CacheOp → OrderCache × List Nat
  | [] => (c, [])
  | CacheOp.add o :: rest => runOps cfg (addOrder cfg c o) rest
  | CacheOp.cancel oid :: rest => runOps cfg (cancelOrder c oid) rest
  | CacheOp.query s :: rest =>
    let r := getMatchingSizeForSecurity cfg c s
    let t := runOps cfg r.2 rest
    (t.1, r.1 :: t.2)

/-- Add a list of orders to the empty cache. -/
def runAdds (cfg : MatchConfig) (os : List Order) : OrderCache :=
  os.foldl (addOrder cfg) emptyOrderCache

/-! ## Well-formedness

Invariants of every cache state reachable through the public interface:
unique order ids, agreement of the four indexes with the order list, and
the per-order quantity bounds guaranteed by the `Order` constructor
(`unsigned int qty`, `m_workingQty = qty`). -/

/-- Well-formed cache state. -/
def WF (c : OrderCache) : Prop :=
  (c.orders.map Order.orderId).Nodup ∧
  (∀ i ∈ c.orderIndex, i ∈ c.orders.map Order.orderId) ∧
  (∀ o ∈ c.orders, o.orderId ∈ c.orderIndex) ∧
  (∀ e ∈ c.userOrdersIndex, ∀ i ∈ e.2, ∃ o ∈ c.orders, o.orderId = i ∧ o.user = e.1) ∧
  (∀ o ∈ c.orders, o.orderId ∈ alGet c.userOrdersIndex o.user []) ∧
  (∀ e ∈ c.securityOrdersIndex, ∀ i ∈ e.2, ∃ o ∈ c.orders, o.orderId = i ∧ o.securityId = e.1) ∧
  (∀ o ∈ c.orders, o.orderId ∈ alGet c.securityOrdersIndex o.securityId []) ∧
  (∀ e ∈ c.securityLongOrdersIndex, ∀ i ∈ e.2,
    ∃ o ∈ c.orders, o.orderId = i ∧ o.securityId = e.1 ∧ isBuySide o = true) ∧
  (∀ e ∈ c.securityShortOrdersIndex, ∀ i ∈ e.2,
    ∃ o ∈ c.orders, o.orderId = i ∧ o.securityId = e.1 ∧ isBuySide o = false) ∧
  (∀ o ∈ c.orders, isBuySide o = true →
    o.orderId ∈ alGet c.securityLongOrdersIndex o.securityId []) ∧
  (∀ o ∈ c.orders, isBuySide o = false →
    o.orderId ∈ alGet c.securityShortOrdersIndex o.securityId []) ∧
  (∀ o ∈ c.orders, o.workingQty ≤ o.qty ∧ o.qty < uintSize) ∧
  ((c.userOrdersIndex.map Prod.fst).Nodup ∧
   (c.securityOrdersIndex.map Prod.fst).Nodup ∧
   (c.securityLongOrdersIndex.map Prod.fst).Nodup ∧
   (c.securityShortOrdersIndex.map Prod.fst).Nodup)

/-- `new` is `old` after consuming some working lots: all immutable fields
agree and the working quantity has not increased. -/
def onlyConsumed (old new : Order) : Prop :=
  new.orderId = old.orderId ∧ new.securityId = old.securityId ∧
  new.side = old.side ∧ new.qty = old.qty ∧ new.user = old.user ∧
  new.company = old.company ∧ new.workingQty ≤ old.workingQty

/-! ## Spec-side description of the matcher (for the refinement claim)

`specMatchScan` is written from the specification's words (§4.3 and claim
C2), not from the code: walk the opposite-side working list in insertion
order; skip a candidate that is already filled or whose company equals the
subject's; otherwise match `m = min` of the two working quantities, skipping
when `m = 0`; fill both sides by `m`; stop as soon as the subject is filled;
return the plain (unwrapped) sum of all matched amounts. -/

/-- Spec-side matcher scan: returns (sum of matched amounts, final subject,
final store). -/
def specMatchScan (store : List Order) (subject : Order) :
    List String → Nat × Order × List Order
  | [] => (0, subject, store)
  | cpid :: rest =>
    match findOrder store cpid with
    | none => specMatchScan store subject rest
    | some cp =>
      if cp.isFilled || subject.company == cp.company then
        specMatchScan store subject rest
      else
        let m := min subject.workingQty cp.workingQty
        if m == 0 then specMatchScan store subject rest
        else
          let subject' := subject.fillLots m
          let store' := updateOrder store cpid (fun o => o.fillLots m)
          if subject'.isFilled then (m, subject', store')
          else
            let r := specMatchScan store' subject' rest
            (m + r.1, r.2.1, r.2.2)

/-- The opposite-side working list consulted by the matcher for a subject
order: sells for a buy subject, buys for a sell subject, of the subject's
security. -/
def oppositeSideList (c : OrderCache) (o : Order) : List String :=
  if isBuySide o then alGet c.securityShortOrdersIndex o.securityId []
  else alGet c.securityLongOrdersIndex o.securityId []

/-! ## A pure cell model of the per-security greedy matching

The fills produced by the matcher within one security depend only on the
working quantities and companies of that security's buy orders (rows) and
sell orders (columns), each side taken in insertion order.  `scanCells` is
one matcher pass of a subject over the opposite side; `greedyCells` is the
row-major schedule (every buy scanned over the sells in turn), which the
lazy query follows directly and which the eager add-time schedule is proved
equal to, column exchange by column exchange. -/

/-- The amount one matcher step fills between a subject with residual `r`
and a counterparty cell with residual `c`: `min` of the residuals unless
the companies coincide (a filled side contributes `min _ 0 = 0`). -/
def cellFill (r c : Nat) (rcomp ccomp : String) : Nat :=
  if rcomp == ccomp then 0 else min r c

/-- One matcher pass: a subject with residual `r` and company `comp` scans
the cells in order, filling `cellFill` at each.  Returns (total filled,
final subject residual, updated cells). -/
def scanCells (r : Nat) (comp : String) :
    List (Nat × String) → Nat × Nat × List (Nat × String)
  | [] => (0, r, [])
  | (c, cc) :: rest =>
    (cellFill r c comp cc + (scanCells (r - cellFill r c comp cc) comp rest).1,
     (scanCells (r - cellFill r c comp cc) comp rest).2.1,
     (c - cellFill r c comp cc, cc) ::
       (scanCells (r - cellFill r c comp cc) comp rest).2.2)

/-- The row-major greedy schedule: scan each row over the columns in turn.
Returns (total filled, residual rows, residual columns); companies are
carried unchanged. -/
def greedyCells : List (Nat × String) → List (Nat × String) →
    Nat × List (Nat × String) × List (Nat × String)
  | [], cols => (0, [], cols)
  | (r, rc) :: rows, cols =>
    ((scanCells r rc cols).1 + (greedyCells rows (scanCells r rc cols).2.2).1,
     ((scanCells r rc cols).2.1, rc) ::
       (greedyCells rows (scanCells r rc cols).2.2).2.1,
     (greedyCells rows (scanCells r rc cols).2.2).2.2)

/-- The cell of an order: its working quantity and company. -/
def cellOf (o : Order) : Nat × String := (o.workingQty, o.company)

/-- The buy orders of a security, in list order. -/
def buysOf (os : List Order) (s : String) : List Order :=
  os.filter (fun o => o.securityId == s && isBuySide o)

/-- The sell orders of a security, in list order. -/
def sellsOf (os : List Order) (s : String) : List Order :=
  os.filter (fun o => o.securityId == s && !(isBuySide o))

/-- Project a list of order ids to their cells in a store (a dangling id
projects to the immaterial cell `(0, "")`). -/
def colsOf (store : List Order) (ids : List String) : List (Nat × String) :=
  ids.map (fun i =>
    match findOrder store i with
    | some o => (o.workingQty, o.company)
    | none => (0, ""))

/-- The buy-side cells of a security of an order sequence. -/
def rowCellsOf (os : List Order) (s : String) : List (Nat × String) :=
  (buysOf os s).map cellOf

/-- The sell-side cells of a security of an order sequence. -/
def colCellsOf (os : List Order) (s : String) : List (Nat × String) :=
  (sellsOf os s).map cellOf

/-- The simulation invariant between an eager-mode cache built by adding the
sequence `os` from empty and the pure cell model: the indexes list exactly
the ids of the sequence, and for every security the stored working
quantities and the memoized matched total are the residuals and the total of
the row-major greedy schedule on that security's cells. -/
def EagerInv (os : List Order) (c : OrderCache) : Prop :=
  c.orders.map Order.orderId = (os.map Order.orderId).reverse ∧
  c.orderIndex = os.map Order.orderId ∧
  (∀ t, alGet c.securityLongOrdersIndex t [] = (buysOf os t).map Order.orderId) ∧
  (∀ t, alGet c.securityShortOrdersIndex t [] = (sellsOf os t).map Order.orderId) ∧
  (∀ t, alContains c.securityOrdersIndex t = os.any (fun x => x.securityId == t)) ∧
  (∀ t, List.Forall₂ (fun a cell =>
      findOrder c.orders a.orderId = some { a with workingQty := cell.1 } ∧
      cell.2 = a.company)
    (buysOf os t) (greedyCells (rowCellsOf os t) (colCellsOf os t)).2.1) ∧
  (∀ t, List.Forall₂ (fun a cell =>
      findOrder c.orders a.orderId = some { a with workingQty := cell.1 } ∧
      cell.2 = a.company)
    (sellsOf os t) (greedyCells (rowCellsOf os t) (colCellsOf os t)).2.2) ∧
  (∀ t, getMatchedQuantityInCache c t
      = (greedyCells (rowCellsOf os t) (colCellsOf os t)).1 % uintSize)

/-- An operation sequence on which eager and lazy mode give different query
values: a fully matched pair is cancelled before the (first) query. -/
def c3CounterOps : List CacheOp :=
  [ CacheOp.add (mkOrder "B1" "SecA" "Buy" 10 "u1" "CompA"),
    CacheOp.add (mkOrder "S1" "SecA" "Sell" 10 "u2" "CompB"),
    CacheOp.cancel "B1",
    CacheOp.cancel "S1",
    CacheOp.query "SecA" ]

/-! ## Scenario A (README example 1, unit test U6) -/

/-- The eight orders of README example 1. -/
def exampleOneOrders : List Order :=
  [ mkOrder "OrdId1" "SecId1" "Buy" 1000 "User1" "CompanyA",
    mkOrder "OrdId2" "SecId2" "Sell" 3000 "User2" "CompanyB",
    mkOrder "OrdId3" "SecId1" "Sell" 500 "User3" "CompanyA",
    mkOrder "OrdId4" "SecId2" "Buy" 600 "User4" "CompanyC",
    mkOrder "OrdId5" "SecId2" "Buy" 100 "User5" "CompanyB",
    mkOrder "OrdId6" "SecId3" "Buy" 1000 "User6" "CompanyD",
    mkOrder "OrdId7" "SecId2" "Buy" 2000 "User7" "CompanyE",
    mkOrder "OrdId8" "SecId2" "Sell" 5000 "User8" "CompanyE" ]

/-- C1: in eager (default) mode, after adding the eight orders of README
example 1, `getMatchingSizeForSecurity` returns 0 for SecId1, 2700 for
SecId2 and 0 for SecId3. -/
theorem c1_example_one_matching_sizes :
    (getMatchingSizeForSecurity eagerConfig (runAdds eagerConfig exampleOneOrders) "SecId1").1 = 0 ∧
    (getMatchingSizeForSecurity eagerConfig (runAdds eagerConfig exampleOneOrders) "SecId2").1 = 2700 ∧
    (getMatchingSizeForSecurity eagerConfig (runAdds eagerConfig exampleOneOrders) "SecId3").1 = 0 := by
  refine ⟨?_, ?_, ?_⟩ <;> decide

/-! ## Basic lemmas: orders -/

theorem fillLots_eq (o : Order) (n : Nat) :
    o.fillLots n = { o with workingQty := o.workingQty - n } := by
  unfold Order.fillLots
  split
  · rfl
  · have h : o.workingQty - n = 0 := by omega
    rw [h]

theorem fillLots_workingQty (o : Order) (n : Nat) :
    (o.fillLots n).workingQty = o.workingQty - n := by
  rw [fillLots_eq]

theorem unfillLots_workingQty (o : Order) (n : Nat) :
    (o.unfillLots n).workingQty = min o.qty ((o.workingQty + n) % uintSize) := by
  unfold Order.unfillLots
  dsimp only
  split
  · next h => simp only; omega
  · next h => simp only; omega

theorem isFilled_iff (o : Order) : o.isFilled = true ↔ o.workingQty = 0 := by
  simp [Order.isFilled]

/-! ## Basic lemmas: association lists -/

theorem find?_replaceEntry_self {α : Type} (m : List (String × α)) (k : String) (v : α)
    (h : m.any (fun e => e.1 == k) = true) :
    (m.map (fun e => if e.1 == k then (k, v) else e)).find? (fun e => e.1 == k) =
      some (k, v) := by
  induction m with
  | nil => simp at h
  | cons e rest ih =>
    by_cases he : e.1 = k
    · simp [List.find?, he]
    · have h1 : (e.1 == k) = false := by simp [he]
      have h2 : rest.any (fun e => e.1 == k) = true := by
        simpa [List.any_cons, h1] using h
      simpa [List.find?, h1] using ih h2

theorem find?_replaceEntry_ne {α : Type} (m : List (String × α)) (k k' : String) (v : α)
    (h : k' ≠ k) :
    (m.map (fun e => if e.1 == k then (k, v) else e)).find? (fun e => e.1 == k') =
      m.find? (fun e => e.1 == k') := by
  induction m with
  | nil => simp
  | cons e rest ih =>
    by_cases he : e.1 = k
    · have h1 : (e.1 == k') = false := by simp [he]; exact Ne.symm h
      have h2 : (k == k') = false := by simpa using Ne.symm h
      simpa [List.find?, he, h2, h1] using ih
    · have h1 : (e.1 == k) = false := by simp [he]
      by_cases he' : e.1 = k'
      · have h2 : (e.1 == k') = true := by simp [he']
        simp [List.find?, h1, h2]
      · have h2 : (e.1 == k') = false := by simp [he']
        simpa [List.find?, h1, h2] using ih

theorem alContains_eq_isSome {α : Type} (m : List (String × α)) (k : String) :
    alContains m k = (m.find? (fun e => e.1 == k)).isSome := by
  unfold alContains
  induction m with
  | nil => simp
  | cons e rest ih =>
    by_cases he : e.1 = k
    · simp [List.find?, he]
    · have h1 : (e.1 == k) = false := by simp [he]
      simpa [List.find?, h1] using ih

theorem alGet_not_contains {α : Type} (m : List (String × α)) (k : String) (d : α)
    (h : alContains m k = false) : alGet m k d = d := by
  unfold alGet
  rw [alContains_eq_isSome] at h
  rcases hl : m.find? (fun e => e.1 == k) with _ | e
  · rw [hl]
  · rw [hl] at h
    simp at h

theorem alGet_append_not_contains {α : Type} (m : List (String × α)) (k k' : String)
    (d v : α) (h : alContains m k' = false) :
    alGet (m ++ [(k', v)]) k d = if k = k' then v else alGet m k d := by
  induction m with
  | nil =>
    by_cases h1 : k = k'
    · simp [alGet, List.find?, h1]
    · have : (k' == k) = false := by simpa using Ne.symm h1
      simp [alGet, List.find?, this, h1]
  | cons e rest ih =>
    simp only [alContains, List.any_cons, Bool.or_eq_false_iff] at h
    by_cases he : e.1 = k
    · have hkk' : k ≠ k' := by
        intro hk
        exact absurd (by simp [he, hk] : (e.1 == k') = true) (by simp [h.1])
      simp [alGet, List.find?, he, hkk']
    · have h1 : (e.1 == k) = false := by simp [he]
      have ih' := ih (by simpa [alContains] using h.2)
      simp only [List.cons_append]
      simpa [alGet, List.find?, h1] using ih'

theorem alGet_alSet_self {α : Type} (m : List (String × α)) (k : String) (v : α) (d : α) :
    alGet (alSet m k v) k d = v := by
  unfold alSet
  by_cases hmem : m.any (fun e => e.1 == k) = true
  · rw [if_pos hmem]
    unfold alGet
    rw [find?_replaceEntry_self m k v hmem]
  · rw [if_neg hmem]
    rw [alGet_append_not_contains m k k d v (by unfold alContains; exact Bool.eq_false_iff.mpr hmem)]
    simp

theorem alGet_alSet_ne {α : Type} (m : List (String × α)) (k k' : String) (v : α) (d : α)
    (h : k' ≠ k) : alGet (alSet m k v) k' d = alGet m k' d := by
  unfold alSet
  by_cases hmem : m.any (fun e => e.1 == k) = true
  · rw [if_pos hmem]
    unfold alGet
    rw [find?_replaceEntry_ne m k k' v h]
  · rw [if_neg hmem]
    rw [alGet_append_not_contains m k' k d v (by unfold alContains; exact Bool.eq_false_iff.mpr hmem), if_neg h]

theorem alContains_alSet {α : Type} (m : List (String × α)) (k k' : String) (v : α) :
    alContains (alSet m k v) k' = (alContains m k' || (k' == k)) := by
  unfold alSet
  by_cases hmem : m.any (fun e => e.1 == k) = true
  · rw [if_pos hmem]
    by_cases h : k' = k
    · subst h
      rw [alContains_eq_isSome, find?_replaceEntry_self m k' v hmem]
      simp [alContains, hmem]
    · rw [alContains_eq_isSome, find?_replaceEntry_ne m k k' v h,
        ← alContains_eq_isSome]
      simp [h]
  · rw [if_neg hmem]
    unfold alContains
    simp only [List.any_append, List.any_cons, List.any_nil]
    by_cases h : k' = k
    · simp [h]
    · have : (k == k') = false := by simpa using Ne.symm h
      have h2 : (k' == k) = false := by simpa using h
      simp [this, h2]

theorem alTouch_of_contains {α : Type} (m : List (String × α)) (k : String) (d : α)
    (h : alContains m k = true) : alTouch m k d = m := by
  simp [alTouch, h]

theorem alTouch_of_not_contains {α : Type} (m : List (String × α)) (k : String) (d : α)
    (h : alContains m k = false) : alTouch m k d = m ++ [(k, d)] := by
  simp [alTouch, h]

theorem alGet_alTouch_self {α : Type} (m : List (String × α)) (k : String) (d : α) :
    alGet (alTouch m k d) k d = alGet m k d := by
  by_cases h : alContains m k = true
  · rw [alTouch_of_contains _ _ _ h]
  · have h' : alContains m k = false := by simpa using h
    rw [alTouch_of_not_contains _ _ _ h', alGet_append_not_contains _ _ _ _ _ h']
    rw [if_pos rfl, alGet_not_contains _ _ _ h']

theorem alGet_alTouch_ne {α : Type} (m : List (String × α)) (k k' : String) (d d' : α)
    (h : k' ≠ k) : alGet (alTouch m k d) k' d' = alGet m k' d' := by
  by_cases hc : alContains m k = true
  · rw [alTouch_of_contains _ _ _ hc]
  · rw [alTouch_of_not_contains _ _ _ (by simpa using hc),
      alGet_append_not_contains _ _ _ _ _ (by simpa using hc), if_neg h]

theorem alContains_alTouch {α : Type} (m : List (String × α)) (k k' : String) (d : α) :
    alContains (alTouch m k d) k' = (alContains m k' || (k' == k)) := by
  by_cases hc : alContains m k = true
  · rw [alTouch_of_contains _ _ _ hc]
    by_cases h : k' = k
    · simp [h, hc]
    · simp [h]
  · rw [alTouch_of_not_contains _ _ _ (by simpa using hc)]
    unfold alContains
    simp only [List.any_append, List.any_cons, List.any_nil]
    by_cases h : k' = k
    · simp [h]
    · have h1 : (k == k') = false := by simpa using Ne.symm h
      have h2 : (k' == k) = false := by simpa using h
      simp [h1, h2]

/-! ## Basic lemmas: id sets, order lookup and update -/

theorem keyErase_of_not_mem (s : List String) (k : String) (h : ¬ k ∈ s) :
    keyErase s k = s := by
  unfold keyErase
  apply List.filter_eq_self.mpr
  intro a ha
  simp only [bne_iff_ne, ne_eq, decide_eq_true_eq]
  intro hak
  exact h (hak ▸ ha)

theorem keyErase_keyInsert (s : List String) (k : String) (h : ¬ k ∈ s) :
    keyErase (keyInsert s k) k = s := by
  unfold keyInsert
  rw [if_neg (by simpa using h)]
  unfold keyErase
  rw [List.filter_append]
  have h1 : List.filter (fun x => x != k) [k] = [] := by simp
  have h2 : List.filter (fun x => x != k) s = s := keyErase_of_not_mem s k h
  rw [h1, h2, List.append_nil]

theorem mem_keyErase (s : List String) (k i : String) :
    i ∈ keyErase s k ↔ i ∈ s ∧ i ≠ k := by
  unfold keyErase
  simp [List.mem_filter]

theorem mem_keyInsert (s : List String) (k i : String) :
    i ∈ keyInsert s k ↔ i ∈ s ∨ i = k := by
  unfold keyInsert
  by_cases h : s.contains k
  · rw [if_pos h]
    constructor
    · exact Or.inl
    · rintro (h1 | h1)
      · exact h1
      · exact h1 ▸ (by simpa using h)
  · rw [if_neg h]
    simp

theorem findOrder_mem {st : List Order} {i : String} {o : Order}
    (h : findOrder st i = some o) : o ∈ st :=
  List.mem_of_find?_eq_some h

theorem findOrder_id {st : List Order} {i : String} {o : Order}
    (h : findOrder st i = some o) : o.orderId = i := by
  have := List.find?_some h
  simpa using this

theorem findOrder_map {st : List Order} {i : String} (g : Order → Order)
    (hg : ∀ o, (g o).orderId = o.orderId) :
    findOrder (st.map g) i = (findOrder st i).map g := by
  induction st with
  | nil => simp [findOrder]
  | cons o rest ih =>
    unfold findOrder at *
    by_cases h : o.orderId = i
    · rw [List.map_cons, List.find?_cons_of_pos _ (by simp [hg, h]),
        List.find?_cons_of_pos _ (by simp [h])]
      rfl
    · rw [List.map_cons, List.find?_cons_of_neg _ (by simp [hg, h]),
        List.find?_cons_of_neg _ (by simp [h])]
      exact ih

theorem findOrder_eq_none {st : List Order} {i : String} :
    findOrder st i = none ↔ ∀ o ∈ st, o.orderId ≠ i := by
  unfold findOrder
  rw [List.find?_eq_none]
  simp

theorem updateOrder_map_orderId (st : List Order) (i : String) (f : Order → Order)
    (hf : ∀ o, o.orderId = i → (f o).orderId = o.orderId) :
    (updateOrder st i f).map Order.orderId = st.map Order.orderId := by
  unfold updateOrder
  rw [List.map_map]
  apply List.map_congr_left
  intro o _
  by_cases h : o.orderId = i
  · simp [Function.comp, h, hf o h]
  · simp [Function.comp, h]

theorem findOrder_updateOrder_ne (st : List Order) (i j : String) (f : Order → Order)
    (hf : ∀ o, o.orderId = i → (f o).orderId = o.orderId) (hij : j ≠ i) :
    findOrder (updateOrder st i f) j = findOrder st j := by
  unfold updateOrder
  rw [findOrder_map (fun o => if o.orderId == i then f o else o)
    (by intro o; by_cases h : o.orderId = i <;> simp [h, hf o])]
  rcases hfo : findOrder st j with _ | o
  · rfl
  · have hid := findOrder_id hfo
    have hne : ¬ ((o.orderId == i) = true) := by simp [hid]; exact hij
    simp only [Option.map_some']
    rw [if_neg hne]

theorem findOrder_updateOrder_self (st : List Order) (i : String) (f : Order → Order)
    (hf : ∀ o, o.orderId = i → (f o).orderId = o.orderId) :
    findOrder (updateOrder st i f) i = (findOrder st i).map f := by
  unfold updateOrder
  rw [findOrder_map (fun o => if o.orderId == i then f o else o)
    (by intro o; by_cases h : o.orderId = i <;> simp [h, hf o])]
  rcases hfo : findOrder st i with _ | o
  · rfl
  · have hid := findOrder_id hfo
    simp [hid]

theorem updateOrder_of_findOrder_none (st : List Order) (i : String) (f : Order → Order)
    (h : findOrder st i = none) : updateOrder st i f = st := by
  unfold updateOrder
  rw [findOrder_eq_none] at h
  conv_rhs => rw [← List.map_id st]
  apply List.map_congr_left
  intro o ho
  have h1 : o.orderId ≠ i := h o ho
  simp [h1]

/-! ## Structural lemmas about the matcher loop -/

theorem onlyConsumed_refl (o : Order) : onlyConsumed o o :=
  ⟨rfl, rfl, rfl, rfl, rfl, rfl, le_refl _⟩

theorem onlyConsumed_trans {a b c : Order} (h1 : onlyConsumed a b)
    (h2 : onlyConsumed b c) : onlyConsumed a c := by
  obtain ⟨i1, s1, d1, q1, u1, c1, w1⟩ := h1
  obtain ⟨i2, s2, d2, q2, u2, c2, w2⟩ := h2
  exact ⟨i2.trans i1, s2.trans s1, d2.trans d1, q2.trans q1, u2.trans u1,
    c2.trans c1, w2.trans w1⟩

theorem onlyConsumed_fillLots (o : Order) (q : Nat) :
    onlyConsumed o (o.fillLots q) := by
  rw [fillLots_eq]
  exact ⟨rfl, rfl, rfl, rfl, rfl, rfl, by simp⟩

theorem forallConsumed_trans {l1 l2 l3 : List Order}
    (h1 : List.Forall₂ onlyConsumed l1 l2) (h2 : List.Forall₂ onlyConsumed l2 l3) :
    List.Forall₂ onlyConsumed l1 l3 := by
  induction h1 generalizing l3 with
  | nil => cases h2; exact List.Forall₂.nil
  | cons hab htail ih =>
    cases h2 with
    | cons hbc htail2 => exact List.Forall₂.cons (onlyConsumed_trans hab hbc) (ih htail2)

theorem updateOrder_consumed (st : List Order) (i : String) (q : Nat) :
    List.Forall₂ onlyConsumed st (updateOrder st i (fun o => o.fillLots q)) := by
  unfold updateOrder
  rw [List.forall₂_map_right_iff]
  rw [List.forall₂_same]
  intro o _
  by_cases h : o.orderId = i
  · have heq : (o.orderId == i) = true := by simp [h]
    rw [if_pos heq]
    exact onlyConsumed_fillLots o q
  · have hne : ¬ ((o.orderId == i) = true) := by simp [h]
    rw [if_neg hne]
    exact onlyConsumed_refl o

theorem matchLoop_store_consumed (cps : List String) (st : List Order) (subj : Order)
    (acc : Nat) : List.Forall₂ onlyConsumed st (matchLoop st subj cps acc).2.2 := by
  induction cps generalizing st subj acc with
  | nil =>
    rw [matchLoop]
    exact List.forall₂_same.mpr (fun o _ => onlyConsumed_refl o)
  | cons cpid rest ih =>
    rw [matchLoop]
    rcases h : findOrder st cpid with _ | cp
    · exact ih st subj acc
    · dsimp only
      by_cases hskip : (cp.isFilled || subj.company == cp.company) = true
      · rw [if_pos hskip]
        exact ih st subj acc
      · rw [if_neg hskip]
        by_cases hq : (min subj.workingQty cp.workingQty == 0) = true
        · rw [if_pos hq]
          exact ih st subj acc
        · rw [if_neg hq]
          by_cases hfill : ((subj.fillLots (min subj.workingQty cp.workingQty)).isFilled) = true
          · rw [if_pos hfill]
            exact updateOrder_consumed st cpid _
          · rw [if_neg hfill]
            exact forallConsumed_trans (updateOrder_consumed st cpid _) (ih _ _ _)

theorem matchLoop_subject_consumed (cps : List String) (st : List Order) (subj : Order)
    (acc : Nat) : onlyConsumed subj (matchLoop st subj cps acc).2.1 := by
  induction cps generalizing st subj acc with
  | nil =>
    rw [matchLoop]
    exact onlyConsumed_refl subj
  | cons cpid rest ih =>
    rw [matchLoop]
    rcases h : findOrder st cpid with _ | cp
    · exact ih st subj acc
    · dsimp only
      by_cases hskip : (cp.isFilled || subj.company == cp.company) = true
      · rw [if_pos hskip]
        exact ih st subj acc
      · rw [if_neg hskip]
        by_cases hq : (min subj.workingQty cp.workingQty == 0) = true
        · rw [if_pos hq]
          exact ih st subj acc
        · rw [if_neg hq]
          by_cases hfill : ((subj.fillLots (min subj.workingQty cp.workingQty)).isFilled) = true
          · rw [if_pos hfill]
            exact onlyConsumed_fillLots subj _
          · rw [if_neg hfill]
            exact onlyConsumed_trans (onlyConsumed_fillLots subj _) (ih _ _ _)

theorem matchLoop_store_ids (cps : List String) (st : List Order) (subj : Order)
    (acc : Nat) :
    ((matchLoop st subj cps acc).2.2).map Order.orderId = st.map Order.orderId := by
  induction cps generalizing st subj acc with
  | nil => rw [matchLoop]
  | cons cpid rest ih =>
    rw [matchLoop]
    rcases h : findOrder st cpid with _ | cp
    · exact ih st subj acc
    · dsimp only
      by_cases hskip : (cp.isFilled || subj.company == cp.company) = true
      · rw [if_pos hskip]
        exact ih st subj acc
      · rw [if_neg hskip]
        by_cases hq : (min subj.workingQty cp.workingQty == 0) = true
        · rw [if_pos hq]
          exact ih st subj acc
        · rw [if_neg hq]
          by_cases hfill : ((subj.fillLots (min subj.workingQty cp.workingQty)).isFilled) = true
          · rw [if_pos hfill]
            exact updateOrder_map_orderId st cpid _ (fun o _ => by rw [fillLots_eq])
          · rw [if_neg hfill]
            rw [ih _ _ _]
            exact updateOrder_map_orderId st cpid _ (fun o _ => by rw [fillLots_eq])

theorem matchLoop_acc_eq (cps : List String) (st : List Order) (subj : Order)
    (acc : Nat) (h : acc + subj.workingQty < uintSize) :
    (matchLoop st subj cps acc).1 + (matchLoop st subj cps acc).2.1.workingQty
      = acc + subj.workingQty := by
  induction cps generalizing st subj acc with
  | nil => rw [matchLoop]
  | cons cpid rest ih =>
    rw [matchLoop]
    rcases hcp : findOrder st cpid with _ | cp
    · exact ih st subj acc h
    · dsimp only
      by_cases hskip : (cp.isFilled || subj.company == cp.company) = true
      · rw [if_pos hskip]
        exact ih st subj acc h
      · rw [if_neg hskip]
        by_cases hq : (min subj.workingQty cp.workingQty == 0) = true
        · rw [if_pos hq]
          exact ih st subj acc h
        · rw [if_neg hq]
          have hqle : min subj.workingQty cp.workingQty ≤ subj.workingQty :=
            Nat.min_le_left _ _
          have hmod : (acc + min subj.workingQty cp.workingQty) % uintSize
              = acc + min subj.workingQty cp.workingQty :=
            Nat.mod_eq_of_lt (by omega)
          by_cases hfill : ((subj.fillLots (min subj.workingQty cp.workingQty)).isFilled) = true
          · rw [if_pos hfill]
            dsimp only
            rw [hmod, fillLots_workingQty]
            omega
          · rw [if_neg hfill]
            rw [ih _ _ _ (by rw [hmod, fillLots_workingQty]; omega)]
            rw [hmod, fillLots_workingQty]
            omega

theorem matchLoop_findOrder_company (cps : List String) (st : List Order) (subj : Order)
    (acc : Nat) (j : String)
    (h : ∀ o, findOrder st j = some o → o.company = subj.company) :
    findOrder (matchLoop st subj cps acc).2.2 j = findOrder st j := by
  induction cps generalizing st subj acc with
  | nil => rw [matchLoop]
  | cons cpid rest ih =>
    rw [matchLoop]
    rcases hcp : findOrder st cpid with _ | cp
    · exact ih st subj acc h
    · dsimp only
      by_cases hskip : (cp.isFilled || subj.company == cp.company) = true
      · rw [if_pos hskip]
        exact ih st subj acc h
      · rw [if_neg hskip]
        by_cases hq : (min subj.workingQty cp.workingQty == 0) = true
        · rw [if_pos hq]
          exact ih st subj acc h
        · rw [if_neg hq]
          have hcomp : ¬ (subj.company == cp.company) = true := by
            intro hc
            exact hskip (by simp [hc])
          have hne : j ≠ cpid := by
            intro hj
            subst hj
            have hco := h cp hcp
            exact hcomp (by simp [hco])
          have hupd : findOrder
              (updateOrder st cpid (fun o => o.fillLots (min subj.workingQty cp.workingQty))) j
                = findOrder st j :=
            findOrder_updateOrder_ne st cpid j _ (fun o _ => by rw [fillLots_eq]) hne
          by_cases hfill : ((subj.fillLots (min subj.workingQty cp.workingQty)).isFilled) = true
          · rw [if_pos hfill]
            exact hupd
          · rw [if_neg hfill]
            have harg : ∀ o, findOrder
                (updateOrder st cpid (fun o => o.fillLots (min subj.workingQty cp.workingQty))) j
                  = some o →
                o.company = (subj.fillLots (min subj.workingQty cp.workingQty)).company := by
              intro o ho
              rw [hupd] at ho
              rw [fillLots_eq]
              exact h o ho
            rw [ih _ _ _ harg, hupd]

theorem findOrder_eq_of_mem_nodup {st : List Order}
    (h : (st.map Order.orderId).Nodup) {o : Order} (ho : o ∈ st) :
    findOrder st o.orderId = some o := by
  induction st with
  | nil => simp at ho
  | cons a rest ih =>
    rcases List.mem_cons.mp ho with h1 | h1
    · subst h1
      unfold findOrder
      rw [List.find?_cons_of_pos _ (by simp)]
    · have hna : a.orderId ≠ o.orderId := by
        intro he
        have hmem : o.orderId ∈ rest.map Order.orderId := List.mem_map_of_mem _ h1
        rw [List.map_cons] at h
        exact (List.nodup_cons.mp h).1 (he ▸ hmem)
      unfold findOrder
      rw [List.find?_cons_of_neg _ (by simp [hna])]
      have h2 : (rest.map Order.orderId).Nodup := by
        rw [List.map_cons] at h
        exact (List.nodup_cons.mp h).2
      exact ih h2 h1

theorem updateOrder_consumed_const (st : List Order) (i : String) (v : Order)
    (h : ∀ o ∈ st, o.orderId = i → onlyConsumed o v) :
    List.Forall₂ onlyConsumed st (updateOrder st i (fun _ => v)) := by
  unfold updateOrder
  rw [List.forall₂_map_right_iff, List.forall₂_same]
  intro o ho
  by_cases hid : o.orderId = i
  · rw [if_pos (by simp [hid] : (o.orderId == i) = true)]
    exact h o ho hid
  · rw [if_neg (by simp [hid] : ¬ ((o.orderId == i) = true))]
    exact onlyConsumed_refl o

/-! ## Structural lemmas about `matchOrderInCache` -/

theorem matchOrderInCache_indexFrame (c : OrderCache) (oid : String) :
    (matchOrderInCache c oid).2.orderIndex = c.orderIndex ∧
    (matchOrderInCache c oid).2.userOrdersIndex = c.userOrdersIndex ∧
    (matchOrderInCache c oid).2.securityOrdersIndex = c.securityOrdersIndex := by
  unfold matchOrderInCache
  rcases hfo : findOrder c.orders oid with _ | order
  · exact ⟨rfl, rfl, rfl⟩
  · dsimp only
    by_cases hfil : order.isFilled = true
    · rw [if_pos hfil]
      exact ⟨rfl, rfl, rfl⟩
    · rw [if_neg hfil]
      by_cases hbuy : isBuySide order = true
      · simp only [hbuy, if_true]
        split
        · exact ⟨rfl, rfl, rfl⟩
        · exact ⟨rfl, rfl, rfl⟩
      · have hb2 : isBuySide order = false := by simpa using hbuy
        simp only [hb2, Bool.false_eq_true, if_false]
        split
        · exact ⟨rfl, rfl, rfl⟩
        · exact ⟨rfl, rfl, rfl⟩

theorem writeback_ids (st : List Order) (subj : Order) (cps : List String) (oid : String)
    (hid : subj.orderId = oid) :
    (updateOrder (matchLoop st subj cps 0).2.2 oid
      (fun _ => (matchLoop st subj cps 0).2.1)).map Order.orderId
        = st.map Order.orderId := by
  have hpres : ∀ o : Order, o.orderId = oid →
      ((matchLoop st subj cps 0).2.1).orderId = o.orderId := by
    intro o ho
    rw [(matchLoop_subject_consumed cps st subj 0).1, hid, ho]
  rw [updateOrder_map_orderId _ _ _ hpres, matchLoop_store_ids]

theorem writeback_consumed (st : List Order) (subj : Order) (cps : List String)
    (oid : String) (hnodup : (st.map Order.orderId).Nodup)
    (hfo : findOrder st oid = some subj) :
    List.Forall₂ onlyConsumed st
      (updateOrder (matchLoop st subj cps 0).2.2 oid
        (fun _ => (matchLoop st subj cps 0).2.1)) := by
  refine forallConsumed_trans (matchLoop_store_consumed cps st subj 0) ?_
  apply updateOrder_consumed_const
  intro o ho hoid
  have hfr : findOrder (matchLoop st subj cps 0).2.2 oid = findOrder st oid := by
    apply matchLoop_findOrder_company
    intro o' ho'
    rw [hfo] at ho'
    cases ho'
    rfl
  have hnodup0 : ((matchLoop st subj cps 0).2.2.map Order.orderId).Nodup := by
    rw [matchLoop_store_ids]
    exact hnodup
  have hself : findOrder (matchLoop st subj cps 0).2.2 o.orderId = some o :=
    findOrder_eq_of_mem_nodup hnodup0 ho
  rw [hoid, hfr, hfo] at hself
  have heq : subj = o := by injection hself
  subst heq
  exact matchLoop_subject_consumed cps st subj 0

theorem matchOrderInCache_orders_ids (c : OrderCache) (oid : String) :
    (matchOrderInCache c oid).2.orders.map Order.orderId
      = c.orders.map Order.orderId := by
  unfold matchOrderInCache
  rcases hfo : findOrder c.orders oid with _ | order
  · rfl
  · dsimp only
    by_cases hfil : order.isFilled = true
    · rw [if_pos hfil]
    · rw [if_neg hfil]
      by_cases hbuy : isBuySide order = true
      · simp only [hbuy, if_true]
        split
        · rfl
        · exact writeback_ids c.orders order _ oid (findOrder_id hfo)
      · have hb2 : isBuySide order = false := by simpa using hbuy
        simp only [hb2, Bool.false_eq_true, if_false]
        split
        · rfl
        · exact writeback_ids c.orders order _ oid (findOrder_id hfo)

theorem matchOrderInCache_consumed (c : OrderCache) (oid : String)
    (hnodup : (c.orders.map Order.orderId).Nodup) :
    List.Forall₂ onlyConsumed c.orders (matchOrderInCache c oid).2.orders := by
  unfold matchOrderInCache
  rcases hfo : findOrder c.orders oid with _ | order
  · exact List.forall₂_same.mpr (fun o _ => onlyConsumed_refl o)
  · dsimp only
    by_cases hfil : order.isFilled = true
    · rw [if_pos hfil]
      exact List.forall₂_same.mpr (fun o _ => onlyConsumed_refl o)
    · rw [if_neg hfil]
      by_cases hbuy : isBuySide order = true
      · simp only [hbuy, if_true]
        split
        · exact List.forall₂_same.mpr (fun o _ => onlyConsumed_refl o)
        · exact writeback_consumed c.orders order _ oid hnodup hfo
      · have hb2 : isBuySide order = false := by simpa using hbuy
        simp only [hb2, Bool.false_eq_true, if_false]
        split
        · exact List.forall₂_same.mpr (fun o _ => onlyConsumed_refl o)
        · exact writeback_consumed c.orders order _ oid hnodup hfo

theorem matchOrderInCache_matched (c : OrderCache) (oid : String) :
    ((matchOrderInCache c oid).2.matchedQuantity = c.matchedQuantity ∧
      (matchOrderInCache c oid).1 = 0) ∨
    (∃ o, findOrder c.orders oid = some o ∧
      (∀ q, getMatchedQuantityInCache (matchOrderInCache c oid).2 q =
        if q = o.securityId
        then (getMatchedQuantityInCache c o.securityId
          + (matchOrderInCache c oid).1) % uintSize
        else getMatchedQuantityInCache c q)) := by
  unfold matchOrderInCache
  rcases hfo : findOrder c.orders oid with _ | order
  · left
    exact ⟨rfl, rfl⟩
  · dsimp only
    by_cases hfil : order.isFilled = true
    · rw [if_pos hfil]
      left
      exact ⟨rfl, rfl⟩
    · rw [if_neg hfil]
      by_cases hbuy : isBuySide order = true
      · simp only [hbuy, if_true]
        split
        · left
          exact ⟨rfl, rfl⟩
        · right
          refine ⟨order, rfl, ?_⟩
          intro q
          unfold getMatchedQuantityInCache
          by_cases hq : q = order.securityId
          · subst hq
            rw [if_pos rfl]
            exact alGet_alSet_self _ _ _ _
          · rw [if_neg hq]
            exact alGet_alSet_ne _ _ _ _ _ hq
      · have hb2 : isBuySide order = false := by simpa using hbuy
        simp only [hb2, Bool.false_eq_true, if_false]
        split
        · left
          exact ⟨rfl, rfl⟩
        · right
          refine ⟨order, rfl, ?_⟩
          intro q
          unfold getMatchedQuantityInCache
          by_cases hq : q = order.securityId
          · subst hq
            rw [if_pos rfl]
            exact alGet_alSet_self _ _ _ _
          · rw [if_neg hq]
            exact alGet_alSet_ne _ _ _ _ _ hq

theorem matchOrderInCache_sideIdx (c : OrderCache) (oid : String) :
    ((matchOrderInCache c oid).2.securityLongOrdersIndex = c.securityLongOrdersIndex ∨
      ∃ s, (matchOrderInCache c oid).2.securityLongOrdersIndex
        = alTouch c.securityLongOrdersIndex s []) ∧
    ((matchOrderInCache c oid).2.securityShortOrdersIndex = c.securityShortOrdersIndex ∨
      ∃ s, (matchOrderInCache c oid).2.securityShortOrdersIndex
        = alTouch c.securityShortOrdersIndex s []) := by
  unfold matchOrderInCache
  rcases hfo : findOrder c.orders oid with _ | order
  · exact ⟨Or.inl rfl, Or.inl rfl⟩
  · dsimp only
    by_cases hfil : order.isFilled = true
    · rw [if_pos hfil]
      exact ⟨Or.inl rfl, Or.inl rfl⟩
    · rw [if_neg hfil]
      by_cases hbuy : isBuySide order = true
      · simp only [hbuy, if_true]
        split
        · exact ⟨Or.inl rfl, Or.inr ⟨order.securityId, rfl⟩⟩
        · exact ⟨Or.inl rfl, Or.inr ⟨order.securityId, rfl⟩⟩
      · have hb2 : isBuySide order = false := by simpa using hbuy
        simp only [hb2, Bool.false_eq_true, if_false]
        split
        · exact ⟨Or.inr ⟨order.securityId, rfl⟩, Or.inl rfl⟩
        · exact ⟨Or.inr ⟨order.securityId, rfl⟩, Or.inl rfl⟩

/-! ## C8: duplicate-id `addOrder` is a no-op -/

/-- C8: adding an order whose id is already present leaves the cache state
completely unchanged (lenient mode, the compiled default: no
`THROW_EXCEPTIONS`): nothing is inserted, no matching runs, the existing
order is untouched. -/
theorem c8_duplicate_add_noop (cfg : MatchConfig) (c : OrderCache) (o : Order)
    (h : c.existsOrder o.orderId = true) : addOrder cfg c o = c := by
  unfold addOrder
  rw [if_pos h]

/-- Witness for C8 at a concrete cache: re-adding id "OrdId1" (even with
entirely different fields) is a no-op. -/
theorem c8_duplicate_add_noop_witness :
    (addOrder eagerConfig emptyOrderCache
      (mkOrder "OrdId1" "SecId1" "Buy" 100 "User1" "CompanyA")).existsOrder "OrdId1" = true ∧
    addOrder eagerConfig
      (addOrder eagerConfig emptyOrderCache
        (mkOrder "OrdId1" "SecId1" "Buy" 100 "User1" "CompanyA"))
      (mkOrder "OrdId1" "SecId2" "Sell" 7 "User2" "CompanyB")
      = addOrder eagerConfig emptyOrderCache
          (mkOrder "OrdId1" "SecId1" "Buy" 100 "User1" "CompanyA") :=
  ⟨by decide, c8_duplicate_add_noop eagerConfig _ _ (by decide)⟩

/-! ## C10: `addOrder` prepends; `getAllOrders` is most-recent-first -/

/-- C10: an accepted order is pushed to the front of the internal order
list, so the `getAllOrders` snapshot lists ids in reverse insertion order
(most recently added first); a rejected duplicate leaves the snapshot
unchanged; and `getAllOrders` is exactly the internal list (a stable
snapshot). -/
theorem c10_addOrder_prepends (cfg : MatchConfig) (c : OrderCache) (o : Order) :
    (c.existsOrder o.orderId = false →
      (getAllOrders (addOrder cfg c o)).map Order.orderId
        = o.orderId :: (getAllOrders c).map Order.orderId) ∧
    (c.existsOrder o.orderId = true →
      getAllOrders (addOrder cfg c o) = getAllOrders c) ∧
    getAllOrders c = c.orders := by
  refine ⟨?_, ?_, rfl⟩
  · intro h
    unfold addOrder
    rw [if_neg (by simp [h] : ¬ (c.existsOrder o.orderId = true))]
    dsimp only
    by_cases he : cfg.eagerMatch = true
    · rw [if_pos he]
      unfold getAllOrders
      rw [matchOrderInCache_orders_ids]
      rfl
    · rw [if_neg he]
      rfl
  · intro h
    unfold addOrder getAllOrders
    rw [if_pos h]

/-- Witness for C10 at a concrete cache: adding "OrdId2" on top of a
one-order cache puts it at the head of the snapshot. -/
theorem c10_addOrder_prepends_witness :
    (getAllOrders (addOrder eagerConfig
      (addOrder eagerConfig emptyOrderCache
        (mkOrder "OrdId1" "SecId1" "Buy" 100 "User1" "CompanyA"))
      (mkOrder "OrdId2" "SecId1" "Sell" 40 "User2" "CompanyB"))).map Order.orderId
      = "OrdId2" :: (getAllOrders (addOrder eagerConfig emptyOrderCache
          (mkOrder "OrdId1" "SecId1" "Buy" 100 "User1" "CompanyA"))).map Order.orderId :=
  (c10_addOrder_prepends eagerConfig _ _).1 (by decide)

/-! ## Bounds preservation (towards C9) -/

theorem forallConsumed_mem_right {l1 l2 : List Order}
    (h : List.Forall₂ onlyConsumed l1 l2) :
    ∀ b ∈ l2, ∃ a ∈ l1, onlyConsumed a b := by
  induction h with
  | nil => intro b hb; simp at hb
  | cons hab htail ih =>
    intro b hb
    rcases List.mem_cons.mp hb with h1 | h1
    · exact ⟨_, List.mem_cons_self _ _, h1 ▸ hab⟩
    · obtain ⟨a, ha, hr⟩ := ih b h1
      exact ⟨a, List.mem_cons_of_mem _ ha, hr⟩

/-- All orders of the cache respect `working_qty ≤ qty`. -/
def ordersBounded (c : OrderCache) : Prop :=
  ∀ o ∈ c.orders, o.workingQty ≤ o.qty

theorem onlyConsumed_bounded {a b : Order} (h : onlyConsumed a b)
    (ha : a.workingQty ≤ a.qty) : b.workingQty ≤ b.qty := by
  obtain ⟨_, _, _, hq, _, _, hw⟩ := h
  omega

theorem matchOrderInCache_bounded (c : OrderCache) (oid : String)
    (hnodup : (c.orders.map Order.orderId).Nodup) (hb : ordersBounded c) :
    ordersBounded (matchOrderInCache c oid).2 := by
  intro o' ho'
  obtain ⟨a, ha, hr⟩ := forallConsumed_mem_right (matchOrderInCache_consumed c oid hnodup) o' ho'
  exact onlyConsumed_bounded hr (hb a ha)

theorem matchOrderInCache_nodup (c : OrderCache) (oid : String)
    (hnodup : (c.orders.map Order.orderId).Nodup) :
    ((matchOrderInCache c oid).2.orders.map Order.orderId).Nodup := by
  rw [matchOrderInCache_orders_ids]
  exact hnodup

theorem cancelSingleOrder_orders (c : OrderCache) (i : String) (m : Nat) :
    (cancelSingleOrder c i m).orders = c.orders ∨
    (cancelSingleOrder c i m).orders = c.orders.filter (fun x => x.orderId != i) := by
  unfold cancelSingleOrder
  by_cases h1 : (!(c.orderIndex.contains i)) = true
  · rw [if_pos h1]
    exact Or.inl rfl
  · rw [if_neg h1]
    rcases hfo : findOrder c.orders i with _ | o
    · exact Or.inl rfl
    · dsimp only
      by_cases h2 : (decide (m > 0) && decide (o.qty < m)) = true
      · rw [if_pos h2]
        exact Or.inl rfl
      · rw [if_neg h2]
        exact Or.inr rfl

theorem cancelSingleOrder_bounded (c : OrderCache) (i : String) (m : Nat)
    (hb : ordersBounded c) : ordersBounded (cancelSingleOrder c i m) := by
  rcases cancelSingleOrder_orders c i m with h | h <;> intro o ho <;> rw [h] at ho
  · exact hb o ho
  · exact hb o (List.mem_of_mem_filter ho)

theorem cancelSingleOrder_nodup (c : OrderCache) (i : String) (m : Nat)
    (hnodup : (c.orders.map Order.orderId).Nodup) :
    ((cancelSingleOrder c i m).orders.map Order.orderId).Nodup := by
  rcases cancelSingleOrder_orders c i m with h | h <;> rw [h]
  · exact hnodup
  · exact List.Nodup.sublist ((List.filter_sublist _).map Order.orderId) hnodup

theorem cancelOrdersBatch_bounded (ids : List String) (c : OrderCache) (m : Nat)
    (hb : ordersBounded c) : ordersBounded (cancelOrdersBatch c ids m) := by
  induction ids generalizing c with
  | nil => exact hb
  | cons i rest ih => exact ih _ (cancelSingleOrder_bounded c i m hb)

theorem cancelOrdersBatch_nodup (ids : List String) (c : OrderCache) (m : Nat)
    (hnodup : (c.orders.map Order.orderId).Nodup) :
    ((cancelOrdersBatch c ids m).orders.map Order.orderId).Nodup := by
  induction ids generalizing c with
  | nil => exact hnodup
  | cons i rest ih => exact ih _ (cancelSingleOrder_nodup c i m hnodup)

theorem lazyMatchLoop_bounded (ids : List String) (c : OrderCache) (acc : Nat)
    (hnodup : (c.orders.map Order.orderId).Nodup) (hb : ordersBounded c) :
    ordersBounded (lazyMatchLoop c ids acc).2 := by
  induction ids generalizing c acc with
  | nil => exact hb
  | cons i rest ih =>
    rw [lazyMatchLoop]
    exact ih _ _ (matchOrderInCache_nodup c i hnodup) (matchOrderInCache_bounded c i hnodup hb)

theorem lazyMatchLoop_nodup (ids : List String) (c : OrderCache) (acc : Nat)
    (hnodup : (c.orders.map Order.orderId).Nodup) :
    ((lazyMatchLoop c ids acc).2.orders.map Order.orderId).Nodup := by
  induction ids generalizing c acc with
  | nil => exact hnodup
  | cons i rest ih =>
    rw [lazyMatchLoop]
    exact ih _ _ (matchOrderInCache_nodup c i hnodup)

theorem addOrder_bounded (cfg : MatchConfig) (c : OrderCache) (o : Order)
    (hnodup : (c.orders.map Order.orderId).Nodup)
    (hids : ∀ x ∈ c.orders, x.orderId ∈ c.orderIndex)
    (ho : o.workingQty ≤ o.qty) (hb : ordersBounded c) :
    ordersBounded (addOrder cfg c o) := by
  unfold addOrder
  by_cases hdup : c.existsOrder o.orderId = true
  · rw [if_pos hdup]
    exact hb
  · rw [if_neg hdup]
    dsimp only
    have hfresh : ¬ o.orderId ∈ c.orders.map Order.orderId := by
      intro hmem
      obtain ⟨x, hx, hxid⟩ := List.mem_map.mp hmem
      have := hids x hx
      rw [hxid] at this
      exact hdup (by simpa [OrderCache.existsOrder] using this)
    have hb1 : ordersBounded
        { orders := o :: c.orders
          orderIndex := c.orderIndex ++ [o.orderId]
          userOrdersIndex := alSet c.userOrdersIndex o.user
            (keyInsert (alGet c.userOrdersIndex o.user []) o.orderId)
          securityOrdersIndex := alSet c.securityOrdersIndex o.securityId
            (keyInsert (alGet c.securityOrdersIndex o.securityId []) o.orderId)
          securityLongOrdersIndex :=
            if isBuySide o then
              alSet c.securityLongOrdersIndex o.securityId
                (alGet c.securityLongOrdersIndex o.securityId [] ++ [o.orderId])
            else c.securityLongOrdersIndex
          securityShortOrdersIndex :=
            if isBuySide o then c.securityShortOrdersIndex
            else
              alSet c.securityShortOrdersIndex o.securityId
                (alGet c.securityShortOrdersIndex o.securityId [] ++ [o.orderId])
          matchedQuantity := c.matchedQuantity } := by
      intro x hx
      rcases List.mem_cons.mp hx with h1 | h1
      · exact h1 ▸ ho
      · exact hb x h1
    by_cases he : cfg.eagerMatch = true
    · rw [if_pos he]
      apply matchOrderInCache_bounded _ _ _ hb1
      simpa using List.Nodup.cons hfresh hnodup
    · rw [if_neg he]
      exact hb1

theorem cancelOrder_bounded (c : OrderCache) (i : String) (hb : ordersBounded c) :
    ordersBounded (cancelOrder c i) :=
  cancelSingleOrder_bounded c i 0 hb

theorem cancelOrdersForUser_bounded (c : OrderCache) (u : String)
    (hb : ordersBounded c) : ordersBounded (cancelOrdersForUser c u) := by
  unfold cancelOrdersForUser
  split
  · exact hb
  · exact cancelOrdersBatch_bounded _ c 0 hb

theorem cancelOrdersForSecIdWithMinimumQty_bounded (c : OrderCache) (s : String)
    (m : Nat) (hb : ordersBounded c) :
    ordersBounded (cancelOrdersForSecIdWithMinimumQty c s m) := by
  unfold cancelOrdersForSecIdWithMinimumQty
  split
  · exact hb
  · exact cancelOrdersBatch_bounded _ c m hb

theorem getMatchingSizeForSecurity_bounded (cfg : MatchConfig) (c : OrderCache)
    (s : String) (hnodup : (c.orders.map Order.orderId).Nodup)
    (hb : ordersBounded c) :
    ordersBounded (getMatchingSizeForSecurity cfg c s).2 := by
  unfold getMatchingSizeForSecurity
  split
  · exact hb
  · split
    · exact hb
    · dsimp only
      split
      · exact lazyMatchLoop_bounded _ _ _ hnodup hb
      · exact lazyMatchLoop_bounded _ _ _ hnodup hb

/-! ## C9 (amended): working-quantity arithmetic and invariant preservation -/

/-- C9 (amended): `fillLots` is the saturating subtraction
`working := working − n` (`max(0, working − n)`, Nat subtraction);
`unfillLots` computes `working := min(qty, (working + n) mod 2^32)` — which
equals the claimed `min(qty, working + n)` exactly when `working + n`
does not overflow the 32-bit unsigned counter; both keep
`0 ≤ working ≤ qty` unconditionally (`0 ≤` holds by the Nat embedding, and
the operations never fail, being total functions); and every cache
operation — `addOrder` in either mode, `cancelOrder`,
`cancelOrdersForUser`, `cancelOrdersForSecIdWithMinimumQty`, and
`getMatchingSizeForSecurity` (which mutates fills in lazy mode) — preserves
the per-order bounds. -/
theorem c9_working_qty_bounds :
    (∀ (o : Order) (n : Nat), (o.fillLots n).workingQty = o.workingQty - n) ∧
    (∀ (o : Order) (n : Nat),
      (o.unfillLots n).workingQty = min o.qty ((o.workingQty + n) % uintSize)) ∧
    (∀ (o : Order) (n : Nat), o.workingQty + n < uintSize →
      (o.unfillLots n).workingQty = min o.qty (o.workingQty + n)) ∧
    (∀ (o : Order) (n : Nat), o.workingQty ≤ o.qty →
      (o.fillLots n).workingQty ≤ (o.fillLots n).qty ∧
      (o.unfillLots n).workingQty ≤ (o.unfillLots n).qty) ∧
    (∀ (cfg : MatchConfig) (c : OrderCache) (o : Order),
      (c.orders.map Order.orderId).Nodup →
      (∀ x ∈ c.orders, x.orderId ∈ c.orderIndex) →
      o.workingQty ≤ o.qty → ordersBounded c →
      ordersBounded (addOrder cfg c o)) ∧
    (∀ (c : OrderCache) (i : String),
      ordersBounded c → ordersBounded (cancelOrder c i)) ∧
    (∀ (c : OrderCache) (u : String),
      ordersBounded c → ordersBounded (cancelOrdersForUser c u)) ∧
    (∀ (c : OrderCache) (s : String) (m : Nat),
      ordersBounded c → ordersBounded (cancelOrdersForSecIdWithMinimumQty c s m)) ∧
    (∀ (cfg : MatchConfig) (c : OrderCache) (s : String),
      (c.orders.map Order.orderId).Nodup → ordersBounded c →
      ordersBounded (getMatchingSizeForSecurity cfg c s).2) := by
  refine ⟨fillLots_workingQty, unfillLots_workingQty, ?_, ?_, addOrder_bounded,
    cancelOrder_bounded, cancelOrdersForUser_bounded,
    cancelOrdersForSecIdWithMinimumQty_bounded, getMatchingSizeForSecurity_bounded⟩
  · intro o n h
    rw [unfillLots_workingQty, Nat.mod_eq_of_lt h]
  · intro o n h
    constructor
    · rw [fillLots_workingQty, fillLots_eq]
      simp only
      omega
    · rw [unfillLots_workingQty]
      unfold Order.unfillLots
      dsimp only
      split <;> simp only <;> omega

/-- Counterexample to C9 as stated: `unfillLots` is not
`working := min(qty, working + n)` — with `qty = working = 5` and
`n = 2^32 − 3` the unsigned `+=` wraps to 2, below the claimed value 5. -/
theorem c9_unfill_overflow_counterexample :
    ((mkOrder "OrdId1" "SecId1" "Buy" 5 "User1" "CompanyA").unfillLots 4294967293).workingQty
      ≠ min (mkOrder "OrdId1" "SecId1" "Buy" 5 "User1" "CompanyA").qty
        ((mkOrder "OrdId1" "SecId1" "Buy" 5 "User1" "CompanyA").workingQty + 4294967293) := by
  decide

/-- Witness for C9 at concrete inputs: the no-overflow unfill equation at
`working = 4, n = 3, qty = 10`, and bound preservation of an eager add on
the empty cache. -/
theorem c9_working_qty_bounds_witness :
    (((mkOrder "OrdId1" "SecId1" "Buy" 10 "User1" "CompanyA").fillLots 6).unfillLots 3).workingQty
      = min 10 (4 + 3) ∧
    ordersBounded (addOrder eagerConfig emptyOrderCache
      (mkOrder "OrdId1" "SecId1" "Buy" 10 "User1" "CompanyA")) := by
  constructor
  · have h := c9_working_qty_bounds.2.2.1
      ((mkOrder "OrdId1" "SecId1" "Buy" 10 "User1" "CompanyA").fillLots 6) 3 (by decide)
    rw [h]
    decide
  · exact c9_working_qty_bounds.2.2.2.2.1 eagerConfig emptyOrderCache
      (mkOrder "OrdId1" "SecId1" "Buy" 10 "User1" "CompanyA")
      (by decide) (by intro x hx; simp [emptyOrderCache] at hx) (by decide)
      (by intro x hx; simp [emptyOrderCache] at hx)

/-! ## C5 (corrected): index entries are created on add but never pruned -/

theorem keyErase_contains_self (s : List String) (k : String) :
    (keyErase s k).contains k = false := by
  have h : ¬ k ∈ keyErase s k := by
    rw [mem_keyErase]
    rintro ⟨_, hne⟩
    exact hne rfl
  exact Bool.eq_false_iff.mpr (fun hc => h (by simpa using hc))

/-- Counterexample to C5 as stated: add one order for User1 / SecId1 and
cancel it — the last live order for both keys — yet the by-user and
by-security maps still contain entries for "User1" and "SecId1" (holding
empty id sets); `cancelSingleOrder` only erases the id from each key's set
and never erases the map entry. -/
theorem c5_no_pruning_counterexample :
    (cancelOrder (addOrder eagerConfig emptyOrderCache
        (mkOrder "OrdId1" "SecId1" "Buy" 100 "User1" "CompanyA")) "OrdId1").orders = [] ∧
    alContains (cancelOrder (addOrder eagerConfig emptyOrderCache
        (mkOrder "OrdId1" "SecId1" "Buy" 100 "User1" "CompanyA")) "OrdId1").userOrdersIndex
      "User1" = true ∧
    alContains (cancelOrder (addOrder eagerConfig emptyOrderCache
        (mkOrder "OrdId1" "SecId1" "Buy" 100 "User1" "CompanyA")) "OrdId1").securityOrdersIndex
      "SecId1" = true := by
  refine ⟨?_, ?_, ?_⟩ <;> decide

/-- C5 (amended): by-user and by-security entries are created when the
first order for the key is accepted, and cancellation removes the order id
from the key's set but never removes the entry itself: after cancelling
the last live order of a user (security), the map still contains the key,
holding a set without that id. -/
theorem c5_entries_created_never_pruned :
    (∀ (cfg : MatchConfig) (c : OrderCache) (o : Order),
      c.existsOrder o.orderId = false →
      alContains (addOrder cfg c o).userOrdersIndex o.user = true ∧
      alContains (addOrder cfg c o).securityOrdersIndex o.securityId = true) ∧
    (∀ (c : OrderCache) (i : String) (o : Order),
      c.orderIndex.contains i = true → findOrder c.orders i = some o →
      alContains (cancelOrder c i).userOrdersIndex o.user = true ∧
      (alGet (cancelOrder c i).userOrdersIndex o.user []).contains i = false ∧
      alContains (cancelOrder c i).securityOrdersIndex o.securityId = true ∧
      (alGet (cancelOrder c i).securityOrdersIndex o.securityId []).contains i = false) := by
  constructor
  · intro cfg c o h
    unfold addOrder
    rw [if_neg (by simp [h] : ¬ (c.existsOrder o.orderId = true))]
    dsimp only
    by_cases he : cfg.eagerMatch = true
    · rw [if_pos he]
      rw [(matchOrderInCache_indexFrame _ _).2.1, (matchOrderInCache_indexFrame _ _).2.2]
      dsimp only
      constructor <;> rw [alContains_alSet] <;> simp
    · rw [if_neg he]
      dsimp only
      constructor <;> rw [alContains_alSet] <;> simp
  · intro c i o hc hfo
    unfold cancelOrder cancelSingleOrder
    rw [if_neg (by rw [hc]; decide : ¬ ((!(c.orderIndex.contains i)) = true))]
    rw [hfo]
    dsimp only
    rw [if_neg (by simp : ¬ ((decide (0 > 0) && decide (o.qty < 0)) = true))]
    refine ⟨?_, ?_, ?_, ?_⟩
    · rw [alContains_alSet]
      simp
    · rw [alGet_alSet_self]
      exact keyErase_contains_self _ _
    · rw [alContains_alSet]
      simp
    · rw [alGet_alSet_self]
      exact keyErase_contains_self _ _

/-- Witness for the amended C5 at a concrete cache: the entries survive the
last cancel with the id removed. -/
theorem c5_entries_created_never_pruned_witness :
    (alContains (addOrder eagerConfig emptyOrderCache
      (mkOrder "OrdId1" "SecId1" "Buy" 100 "User1" "CompanyA")).userOrdersIndex "User1" = true ∧
     alContains (addOrder eagerConfig emptyOrderCache
      (mkOrder "OrdId1" "SecId1" "Buy" 100 "User1" "CompanyA")).securityOrdersIndex "SecId1" = true) ∧
    alContains (cancelOrder (addOrder eagerConfig emptyOrderCache
      (mkOrder "OrdId1" "SecId1" "Buy" 100 "User1" "CompanyA")) "OrdId1").userOrdersIndex
        "User1" = true :=
  ⟨c5_entries_created_never_pruned.1 eagerConfig emptyOrderCache
      (mkOrder "OrdId1" "SecId1" "Buy" 100 "User1" "CompanyA") (by decide),
   (c5_entries_created_never_pruned.2 (addOrder eagerConfig emptyOrderCache
      (mkOrder "OrdId1" "SecId1" "Buy" 100 "User1" "CompanyA")) "OrdId1"
      (mkOrder "OrdId1" "SecId1" "Buy" 100 "User1" "CompanyA")
      (by decide) (by decide)).1⟩

/-! ## C6: cancellation removes from all indexes, match cache untouched -/

theorem mem_alGet_entry {m : List (String × List String)} {k i : String}
    (h : i ∈ alGet m k []) : ∃ e ∈ m, e.1 = k ∧ i ∈ e.2 := by
  unfold alGet at h
  rcases hf : m.find? (fun e => e.1 == k) with _ | e
  · rw [hf] at h
    simp at h
  · rw [hf] at h
    exact ⟨e, List.mem_of_find?_eq_some hf, by simpa using List.find?_some hf, h⟩

theorem alContains_of_mem_alGet {m : List (String × List String)} {k i : String}
    (h : i ∈ alGet m k []) : alContains m k = true := by
  obtain ⟨e, he, hk, _⟩ := mem_alGet_entry h
  unfold alContains
  exact List.any_eq_true.mpr ⟨e, he, by simp [hk]⟩

theorem mem_orders_unique {l : List Order} (hnodup : (l.map Order.orderId).Nodup)
    {a b : Order} (ha : a ∈ l) (hb : b ∈ l) (hid : a.orderId = b.orderId) : a = b := by
  have h1 := findOrder_eq_of_mem_nodup hnodup ha
  have h2 := findOrder_eq_of_mem_nodup hnodup hb
  rw [hid, h2] at h1
  injection h1
  exact (by assumption : b = a).symm

theorem getMatchingSize_eager_val (c : OrderCache) (q : String) :
    (getMatchingSizeForSecurity eagerConfig c q).1
      = if alContains c.securityOrdersIndex q then getMatchedQuantityInCache c q else 0 := by
  unfold getMatchingSizeForSecurity
  by_cases h : alContains c.securityOrdersIndex q = true
  · rw [if_neg (by rw [h]; decide : ¬ ((!alContains c.securityOrdersIndex q) = true)),
      if_pos h]
    simp only [eagerConfig, if_true]
  · have h2 : alContains c.securityOrdersIndex q = false := by simpa using h
    rw [if_pos (by rw [h2]; decide : (!alContains c.securityOrdersIndex q) = true),
      if_neg (by rw [h2]; decide : ¬ (alContains c.securityOrdersIndex q = true))]

/-- C6: cancelling a present order removes it from the by-id index, the
by-user and by-security sets, the per-side lists, and the order list; the
per-security match cache is not decremented (it is untouched), and the
eager-mode `getMatchingSizeForSecurity` value of every security is
unchanged. -/
theorem c6_cancel_removes_everywhere (c : OrderCache) (i : String) (hwf : WF c)
    (hex : c.existsOrder i = true) :
    (∀ o ∈ (cancelOrder c i).orders, o.orderId ≠ i) ∧
    ((cancelOrder c i).orderIndex.contains i = false) ∧
    (∀ u, ((alGet (cancelOrder c i).userOrdersIndex u []).contains i) = false) ∧
    (∀ s, ((alGet (cancelOrder c i).securityOrdersIndex s []).contains i) = false) ∧
    (∀ s, ((alGet (cancelOrder c i).securityLongOrdersIndex s []).contains i) = false) ∧
    (∀ s, ((alGet (cancelOrder c i).securityShortOrdersIndex s []).contains i) = false) ∧
    (cancelOrder c i).matchedQuantity = c.matchedQuantity ∧
    (∀ q, (getMatchingSizeForSecurity eagerConfig (cancelOrder c i) q).1
        = (getMatchingSizeForSecurity eagerConfig c q).1) := by
  obtain ⟨hnodup, hidx1, hidx2, huAcc, huCom, hsAcc, hsCom, hlAcc, hshAcc,
    hlCom, hshCom, hbnd, hkeys⟩ := hwf
  -- the cancelled order
  have hmemid : i ∈ c.orders.map Order.orderId := by
    apply hidx1
    simpa [OrderCache.existsOrder] using hex
  obtain ⟨o, ho, hoid⟩ := List.mem_map.mp hmemid
  have hfo : findOrder c.orders i = some o := by
    rw [← hoid]
    exact findOrder_eq_of_mem_nodup hnodup ho
  have hcontains : c.orderIndex.contains i = true := by
    simpa [OrderCache.existsOrder] using hex
  -- any order in the cache with id i is o itself
  have huniq : ∀ x ∈ c.orders, x.orderId = i → x = o := by
    intro x hx hxid
    exact mem_orders_unique hnodup hx ho (by rw [hxid, hoid])
  unfold cancelOrder cancelSingleOrder
  rw [if_neg (by rw [hcontains]; decide : ¬ ((!(c.orderIndex.contains i)) = true))]
  rw [hfo]
  dsimp only
  rw [if_neg (by simp : ¬ ((decide (0 > 0) && decide (o.qty < 0)) = true))]
  refine ⟨?_, ?_, ?_, ?_, ?_, ?_, rfl, ?_⟩
  · intro x hx
    have := List.of_mem_filter hx
    simpa using this
  · exact keyErase_contains_self _ _
  · intro u
    by_cases hu : u = o.user
    · subst hu
      rw [alGet_alSet_self]
      exact keyErase_contains_self _ _
    · rw [alGet_alSet_ne _ _ _ _ _ hu]
      apply Bool.eq_false_iff.mpr
      intro hcont
      have hmem : i ∈ alGet c.userOrdersIndex u [] := by simpa using hcont
      obtain ⟨e, he, hek, hie⟩ := mem_alGet_entry hmem
      obtain ⟨x, hx, hxid, hxu⟩ := huAcc e he i hie
      have hxo := huniq x hx hxid
      subst hxo
      exact hu ((hxu.trans hek).symm)
  · intro s
    by_cases hs : s = o.securityId
    · subst hs
      rw [alGet_alSet_self]
      exact keyErase_contains_self _ _
    · rw [alGet_alSet_ne _ _ _ _ _ hs]
      apply Bool.eq_false_iff.mpr
      intro hcont
      have hmem : i ∈ alGet c.securityOrdersIndex s [] := by simpa using hcont
      obtain ⟨e, he, hek, hie⟩ := mem_alGet_entry hmem
      obtain ⟨x, hx, hxid, hxs⟩ := hsAcc e he i hie
      have hxo := huniq x hx hxid
      subst hxo
      exact hs ((hxs.trans hek).symm)
  · intro s
    by_cases hbuy : isBuySide o = true
    · simp only [hbuy, if_true]
      by_cases hs : s = o.securityId
      · subst hs
        rw [alGet_alSet_self]
        exact keyErase_contains_self _ _
      · rw [alGet_alSet_ne _ _ _ _ _ hs]
        apply Bool.eq_false_iff.mpr
        intro hcont
        have hmem : i ∈ alGet c.securityLongOrdersIndex s [] := by simpa using hcont
        obtain ⟨e, he, hek, hie⟩ := mem_alGet_entry hmem
        obtain ⟨x, hx, hxid, hxs, _⟩ := hlAcc e he i hie
        have hxo := huniq x hx hxid
        subst hxo
        exact hs ((hxs.trans hek).symm)
    · have hb2 : isBuySide o = false := by simpa using hbuy
      simp only [hb2, Bool.false_eq_true, if_false]
      apply Bool.eq_false_iff.mpr
      intro hcont
      have hmem : i ∈ alGet c.securityLongOrdersIndex s [] := by simpa using hcont
      obtain ⟨e, he, hek, hie⟩ := mem_alGet_entry hmem
      obtain ⟨x, hx, hxid, _, hxbuy⟩ := hlAcc e he i hie
      have hxo := huniq x hx hxid
      subst hxo
      rw [hxbuy] at hb2
      exact absurd hb2 (by simp)
  · intro s
    by_cases hbuy : isBuySide o = true
    · simp only [hbuy, if_true]
      apply Bool.eq_false_iff.mpr
      intro hcont
      have hmem : i ∈ alGet c.securityShortOrdersIndex s [] := by simpa using hcont
      obtain ⟨e, he, hek, hie⟩ := mem_alGet_entry hmem
      obtain ⟨x, hx, hxid, _, hxbuy⟩ := hshAcc e he i hie
      have hxo := huniq x hx hxid
      subst hxo
      rw [hxbuy] at hbuy
      exact absurd hbuy (by simp)
    · have hb2 : isBuySide o = false := by simpa using hbuy
      simp only [hb2, Bool.false_eq_true, if_false]
      by_cases hs : s = o.securityId
      · subst hs
        rw [alGet_alSet_self]
        exact keyErase_contains_self _ _
      · rw [alGet_alSet_ne _ _ _ _ _ hs]
        apply Bool.eq_false_iff.mpr
        intro hcont
        have hmem : i ∈ alGet c.securityShortOrdersIndex s [] := by simpa using hcont
        obtain ⟨e, he, hek, hie⟩ := mem_alGet_entry hmem
        obtain ⟨x, hx, hxid, hxs, _⟩ := hshAcc e he i hie
        have hxo := huniq x hx hxid
        subst hxo
        exact hs ((hxs.trans hek).symm)
  · intro q
    have hsecq : alContains (alSet c.securityOrdersIndex o.securityId
        (keyErase (alGet c.securityOrdersIndex o.securityId []) i)) q
          = alContains c.securityOrdersIndex q := by
      rw [alContains_alSet]
      by_cases hq : q = o.securityId
      · subst hq
        have hctn : alContains c.securityOrdersIndex o.securityId = true :=
          alContains_of_mem_alGet (hsCom o ho)
        simp [hctn]
      · simp [hq]
    rw [getMatchingSize_eager_val, getMatchingSize_eager_val]
    dsimp only
    rw [hsecq]
    rfl

/-- Witness for C6: cancel the only order of a concrete eager cache. -/
theorem c6_cancel_removes_everywhere_witness :
    (∀ o ∈ (cancelOrder (addOrder eagerConfig emptyOrderCache
        (mkOrder "OrdId1" "SecId1" "Buy" 100 "User1" "CompanyA")) "OrdId1").orders,
      o.orderId ≠ "OrdId1") ∧
    (cancelOrder (addOrder eagerConfig emptyOrderCache
        (mkOrder "OrdId1" "SecId1" "Buy" 100 "User1" "CompanyA")) "OrdId1").matchedQuantity
      = (addOrder eagerConfig emptyOrderCache
          (mkOrder "OrdId1" "SecId1" "Buy" 100 "User1" "CompanyA")).matchedQuantity :=
  ⟨(c6_cancel_removes_everywhere (addOrder eagerConfig emptyOrderCache
      (mkOrder "OrdId1" "SecId1" "Buy" 100 "User1" "CompanyA")) "OrdId1"
      (by unfold WF; decide) (by decide)).1,
   (c6_cancel_removes_everywhere (addOrder eagerConfig emptyOrderCache
      (mkOrder "OrdId1" "SecId1" "Buy" 100 "User1" "CompanyA")) "OrdId1"
      (by unfold WF; decide) (by decide)).2.2.2.2.2.2.1⟩

/-! ## C7: cancel-by-security-with-minimum-qty -/

/-- The id bookkeeping needed to reason about batched cancellation. -/
def IdsOk (c : OrderCache) : Prop :=
  (c.orders.map Order.orderId).Nodup ∧
  (∀ i ∈ c.orderIndex, i ∈ c.orders.map Order.orderId) ∧
  (∀ o ∈ c.orders, o.orderId ∈ c.orderIndex)

theorem cancelSingleOrder_orders_formula (c : OrderCache) (i : String) (m : Nat)
    (hids : IdsOk c) :
    (cancelSingleOrder c i m).orders
      = c.orders.filter (fun o => !(o.orderId == i && decide (m ≤ o.qty))) := by
  obtain ⟨hnodup, hidx1, hidx2⟩ := hids
  by_cases hc : c.orderIndex.contains i = true
  case neg =>
    have hc2 : c.orderIndex.contains i = false := by simpa using hc
    unfold cancelSingleOrder
    rw [if_pos (by rw [hc2]; decide : (!(c.orderIndex.contains i)) = true)]
    symm
    apply List.filter_eq_self.mpr
    intro x hx
    have hxi : x.orderId ≠ i := by
      intro he
      have hm := hidx2 x hx
      rw [he] at hm
      have : c.orderIndex.contains i = true := by simpa using hm
      rw [this] at hc2
      exact absurd hc2 (by simp)
    have h1 : (x.orderId == i) = false := by simp [hxi]
    simp [h1]
  case pos =>
    have hmemid : i ∈ c.orders.map Order.orderId := hidx1 i (by simpa using hc)
    obtain ⟨o, ho, hoid⟩ := List.mem_map.mp hmemid
    have hfo : findOrder c.orders i = some o := by
      rw [← hoid]
      exact findOrder_eq_of_mem_nodup hnodup ho
    have huniq : ∀ x ∈ c.orders, x.orderId = i → x = o := fun x hx hxid =>
      mem_orders_unique hnodup hx ho (by rw [hxid, hoid])
    unfold cancelSingleOrder
    rw [if_neg (by rw [hc]; decide : ¬ ((!(c.orderIndex.contains i)) = true)), hfo]
    dsimp only
    by_cases hskip : (decide (m > 0) && decide (o.qty < m)) = true
    · rw [if_pos hskip]
      have hqty : o.qty < m := by
        have := (Bool.and_eq_true _ _).mp hskip
        simpa using this.2
      symm
      apply List.filter_eq_self.mpr
      intro x hx
      by_cases hxid : x.orderId = i
      · have hxo := huniq x hx hxid
        subst hxo
        have hnle : ¬ m ≤ x.qty := by omega
        simp [hxid, hnle]
      · have h1 : (x.orderId == i) = false := by simp [hxid]
        simp [h1]
    · rw [if_neg hskip]
      have hqty : m ≤ o.qty := by
        rcases Nat.lt_or_ge o.qty m with h1 | h1
        · exfalso
          apply hskip
          have hm : 0 < m := Nat.lt_of_le_of_lt (Nat.zero_le _) h1
          simp [hm, h1]
        · exact h1
      dsimp only
      apply List.filter_congr
      intro x hx
      by_cases hxid : x.orderId = i
      · have hxo := huniq x hx hxid
        subst hxo
        simp [hxid, hqty]
      · have h1 : (x.orderId == i) = false := by simp [hxid]
        simp [h1]
        exact hxid

theorem cancelSingleOrder_orders_formula_no_id (c : OrderCache) (i : String) (m : Nat)
    (hc : c.orderIndex.contains i = false) :
    (cancelSingleOrder c i m).orders = c.orders := by
  unfold cancelSingleOrder
  rw [if_pos (by rw [hc]; decide : (!(c.orderIndex.contains i)) = true)]

theorem cancelSingleOrder_IdsOk (c : OrderCache) (i : String) (m : Nat)
    (hids : IdsOk c) : IdsOk (cancelSingleOrder c i m) := by
  obtain ⟨hnodup, hidx1, hidx2⟩ := hids
  have horders := cancelSingleOrder_orders c i m
  have hindex : (cancelSingleOrder c i m).orderIndex = c.orderIndex ∨
      (cancelSingleOrder c i m).orderIndex = c.orderIndex.filter (fun k => k != i) := by
    unfold cancelSingleOrder
    by_cases h1 : (!(c.orderIndex.contains i)) = true
    · rw [if_pos h1]
      exact Or.inl rfl
    · rw [if_neg h1]
      rcases hfo : findOrder c.orders i with _ | o
      · exact Or.inl rfl
      · dsimp only
        by_cases h2 : (decide (m > 0) && decide (o.qty < m)) = true
        · rw [if_pos h2]
          exact Or.inl rfl
        · rw [if_neg h2]
          exact Or.inr rfl
  -- the orders and index are filtered consistently, or both unchanged
  have hsame : ((cancelSingleOrder c i m).orders = c.orders ∧
      (cancelSingleOrder c i m).orderIndex = c.orderIndex) ∨
      ((cancelSingleOrder c i m).orders = c.orders.filter (fun x => x.orderId != i) ∧
      (cancelSingleOrder c i m).orderIndex = c.orderIndex.filter (fun k => k != i)) := by
    unfold cancelSingleOrder
    by_cases h1 : (!(c.orderIndex.contains i)) = true
    · rw [if_pos h1]
      exact Or.inl ⟨rfl, rfl⟩
    · rw [if_neg h1]
      rcases hfo : findOrder c.orders i with _ | o
      · exact Or.inl ⟨rfl, rfl⟩
      · dsimp only
        by_cases h2 : (decide (m > 0) && decide (o.qty < m)) = true
        · rw [if_pos h2]
          exact Or.inl ⟨rfl, rfl⟩
        · rw [if_neg h2]
          exact Or.inr ⟨rfl, rfl⟩
  rcases hsame with ⟨ha, hb⟩ | ⟨ha, hb⟩
  · rw [IdsOk, ha, hb]
    exact ⟨hnodup, hidx1, hidx2⟩
  · rw [IdsOk, ha, hb]
    refine ⟨List.Nodup.sublist ((List.filter_sublist _).map Order.orderId) hnodup, ?_, ?_⟩
    · intro k hk
      have hk1 := List.mem_of_mem_filter hk
      have hk2 : k ≠ i := by simpa using List.of_mem_filter hk
      have hk3 := hidx1 k hk1
      obtain ⟨x, hx, hxk⟩ := List.mem_map.mp hk3
      apply List.mem_map.mpr
      refine ⟨x, List.mem_filter.mpr ⟨hx, by simp [hxk, hk2]⟩, hxk⟩
    · intro o ho
      have ho1 := List.mem_of_mem_filter ho
      have ho2 : o.orderId ≠ i := by simpa using List.of_mem_filter ho
      exact List.mem_filter.mpr ⟨hidx2 o ho1, by simp [ho2]⟩

theorem cancelOrdersBatch_orders_formula (K : List String) (c : OrderCache) (m : Nat)
    (hids : IdsOk c) :
    (cancelOrdersBatch c K m).orders
      = c.orders.filter (fun o => !(K.contains o.orderId && decide (m ≤ o.qty))) := by
  induction K generalizing c with
  | nil =>
    symm
    apply List.filter_eq_self.mpr
    intro x _
    simp
  | cons i rest ih =>
    show (cancelOrdersBatch (cancelSingleOrder c i m) rest m).orders = _
    rw [ih _ (cancelSingleOrder_IdsOk c i m hids),
      cancelSingleOrder_orders_formula c i m hids, List.filter_filter]
    apply List.filter_congr
    intro x _
    by_cases hxi : x.orderId = i
    · by_cases hq : m ≤ x.qty
      · simp [hxi, hq]
      · simp [hxi, hq]
    · by_cases hr : rest.contains x.orderId = true
      · by_cases hq : m ≤ x.qty
        · simp [hxi, hr, hq]
        · simp [hxi, hr, hq]
      · have hr2 : rest.contains x.orderId = false := by simpa using hr
        simp [hxi, hr2]

/-- C7: `cancelOrdersForSecIdWithMinimumQty(s, m)` cancels exactly the live
orders of security `s` whose original `qty` is at least `m` (the threshold
compares against the order's constructor `qty`, never `working_qty`); every
order of `s` below the threshold and every order of any other security
survives unchanged (same record, same working quantity). -/
theorem c7_cancel_by_min_qty (c : OrderCache) (s : String) (m : Nat) (hwf : WF c) :
    (cancelOrdersForSecIdWithMinimumQty c s m).orders
      = c.orders.filter (fun o => !(o.securityId == s && decide (m ≤ o.qty))) := by
  obtain ⟨hnodup, hidx1, hidx2, huAcc, huCom, hsAcc, hsCom, hlAcc, hshAcc,
    hlCom, hshCom, hbnd, hkeys⟩ := hwf
  unfold cancelOrdersForSecIdWithMinimumQty
  by_cases hc : alContains c.securityOrdersIndex s = true
  case neg =>
    have hc2 : alContains c.securityOrdersIndex s = false := by simpa using hc
    rw [if_pos (by rw [hc2]; decide : (!alContains c.securityOrdersIndex s) = true)]
    symm
    apply List.filter_eq_self.mpr
    intro x hx
    have hxs : x.securityId ≠ s := by
      intro he
      have h1 : alContains c.securityOrdersIndex x.securityId = true :=
        alContains_of_mem_alGet (hsCom x hx)
      rw [he, hc2] at h1
      exact absurd h1 (by simp)
    have h2 : (x.securityId == s) = false := by simp [hxs]
    simp [h2]
  case pos =>
    rw [if_neg (by rw [hc]; decide : ¬ ((!alContains c.securityOrdersIndex s) = true))]
    rw [cancelOrdersBatch_orders_formula _ _ _ ⟨hnodup, hidx1, hidx2⟩]
    apply List.filter_congr
    intro x hx
    by_cases hxs : x.securityId = s
    · have hxk : x.orderId ∈ alGet c.securityOrdersIndex s [] := hxs ▸ hsCom x hx
      have hcon : (alGet c.securityOrdersIndex s []).contains x.orderId = true := by
        simpa using hxk
      have h2 : (x.securityId == s) = true := by simp [hxs]
      rw [hcon, h2]
    · have hcon : (alGet c.securityOrdersIndex s []).contains x.orderId = false := by
        apply Bool.eq_false_iff.mpr
        intro hcc
        have hmem : x.orderId ∈ alGet c.securityOrdersIndex s [] := by simpa using hcc
        obtain ⟨e, he, hek, hie⟩ := mem_alGet_entry hmem
        obtain ⟨y, hy, hyid, hys⟩ := hsAcc e he _ hie
        have hyx : y = x := mem_orders_unique hnodup hy hx hyid
        subst hyx
        exact hxs (hys.trans hek)
      have h2 : (x.securityId == s) = false := by simp [hxs]
      rw [hcon, h2]

/-- Witness for C7 at Scenario F: orders of qty 200/500/300 on SecId1;
cancelling with threshold 300 leaves exactly the qty-200 order. -/
theorem c7_cancel_by_min_qty_witness :
    (cancelOrdersForSecIdWithMinimumQty (runAdds eagerConfig
      [ mkOrder "1" "SecId1" "Buy" 200 "User1" "Company1",
        mkOrder "2" "SecId1" "Sell" 500 "User2" "Company1",
        mkOrder "3" "SecId1" "Buy" 300 "User3" "Company2" ]) "SecId1" 300).orders.map
          Order.orderId = ["1"] := by
  rw [c7_cancel_by_min_qty _ _ _ (by unfold WF; decide)]
  decide

/-! ## C2: the matcher agrees with the spec-side scan -/

theorem specMatchScan_filled (cps : List String) (st : List Order) (subj : Order)
    (h : subj.isFilled = true) : specMatchScan st subj cps = (0, subj, st) := by
  induction cps with
  | nil => rw [specMatchScan]
  | cons cpid rest ih =>
    rw [specMatchScan]
    rcases hcp : findOrder st cpid with _ | cp
    · exact ih
    · dsimp only
      by_cases hskip : (cp.isFilled || subj.company == cp.company) = true
      · rw [if_pos hskip]
        exact ih
      · rw [if_neg hskip]
        have hw : subj.workingQty = 0 := (isFilled_iff subj).mp h
        rw [if_pos (by simp [hw] : (min subj.workingQty cp.workingQty == 0) = true)]
        exact ih

theorem matchLoop_eq_spec (cps : List String) (st : List Order) (subj : Order)
    (acc : Nat) (h : acc + subj.workingQty < uintSize) :
    matchLoop st subj cps acc
      = (acc + (specMatchScan st subj cps).1, (specMatchScan st subj cps).2) := by
  induction cps generalizing st subj acc with
  | nil =>
    rw [matchLoop, specMatchScan]
    simp
  | cons cpid rest ih =>
    rw [matchLoop, specMatchScan]
    rcases hcp : findOrder st cpid with _ | cp
    · exact ih st subj acc h
    · dsimp only
      by_cases hskip : (cp.isFilled || subj.company == cp.company) = true
      · rw [if_pos hskip, if_pos hskip]
        exact ih st subj acc h
      · rw [if_neg hskip, if_neg hskip]
        by_cases hq : (min subj.workingQty cp.workingQty == 0) = true
        · rw [if_pos hq, if_pos hq]
          exact ih st subj acc h
        · rw [if_neg hq, if_neg hq]
          have hqle : min subj.workingQty cp.workingQty ≤ subj.workingQty :=
            Nat.min_le_left _ _
          have hmod : (acc + min subj.workingQty cp.workingQty) % uintSize
              = acc + min subj.workingQty cp.workingQty :=
            Nat.mod_eq_of_lt (by omega)
          by_cases hfill : ((subj.fillLots (min subj.workingQty cp.workingQty)).isFilled) = true
          · rw [if_pos hfill, if_pos hfill]
            rw [hmod]
          · rw [if_neg hfill, if_neg hfill]
            dsimp only
            rw [hmod]
            rw [ih _ _ _ (by rw [fillLots_workingQty]; omega)]
            rw [Nat.add_assoc]

theorem updateOrder_const_self (st : List Order) (i : String) (o : Order)
    (hnodup : (st.map Order.orderId).Nodup) (hfo : findOrder st i = some o) :
    updateOrder st i (fun _ => o) = st := by
  unfold updateOrder
  conv_rhs => rw [← List.map_id st]
  apply List.map_congr_left
  intro x hx
  by_cases hxi : x.orderId = i
  · have hxo : x = o := by
      have h1 := findOrder_eq_of_mem_nodup hnodup hx
      rw [hxi, hfo] at h1
      exact (Option.some.inj h1).symm
    simp [hxi, hxo]
  · simp [hxi]

theorem getMatchedQuantityInCache_lt (c : OrderCache)
    (hmb : ∀ e ∈ c.matchedQuantity, e.2 < uintSize) (q : String) :
    getMatchedQuantityInCache c q < uintSize := by
  unfold getMatchedQuantityInCache alGet
  rcases hf : c.matchedQuantity.find? (fun e => e.1 == q) with _ | e
  · rw [hf]
    decide
  · rw [hf]
    exact hmb e (List.mem_of_find?_eq_some hf)

/-- C2: for every well-formed cache state and every order present in it, the
matcher consults exactly the opposite-side working list of the order's
security (in insertion order) and behaves as the spec-side scan
`specMatchScan` describes: same returned total, the final store is the
scan's store with the scan's final subject written back at the subject's id,
and the per-security match cache gains exactly the returned total (as a
32-bit unsigned addition) at the subject's security, all other securities
unchanged. -/
theorem c2_matcher_follows_spec (c : OrderCache) (oid : String) (order : Order)
    (hwf : WF c) (hmb : ∀ e ∈ c.matchedQuantity, e.2 < uintSize)
    (hfo : findOrder c.orders oid = some order) :
    (matchOrderInCache c oid).1
      = (specMatchScan c.orders order (oppositeSideList c order)).1 ∧
    (matchOrderInCache c oid).2.orders
      = updateOrder (specMatchScan c.orders order (oppositeSideList c order)).2.2 oid
          (fun _ => (specMatchScan c.orders order (oppositeSideList c order)).2.1) ∧
    (∀ q, getMatchedQuantityInCache (matchOrderInCache c oid).2 q
        = if q = order.securityId
          then (getMatchedQuantityInCache c order.securityId
            + (matchOrderInCache c oid).1) % uintSize
          else getMatchedQuantityInCache c q) := by
  obtain ⟨hnodup, hidx1, hidx2, huAcc, huCom, hsAcc, hsCom, hlAcc, hshAcc,
    hlCom, hshCom, hbnd, hkeys⟩ := hwf
  have hwlt : order.workingQty < uintSize := by
    have := hbnd order (findOrder_mem hfo)
    omega
  have hvlt : ∀ q, getMatchedQuantityInCache c q < uintSize :=
    getMatchedQuantityInCache_lt c hmb
  unfold matchOrderInCache
  rw [hfo]
  dsimp only
  by_cases hfil : order.isFilled = true
  · rw [if_pos hfil]
    rw [specMatchScan_filled _ _ _ hfil]
    refine ⟨rfl, ?_, ?_⟩
    · exact (updateOrder_const_self c.orders oid order hnodup hfo).symm
    · intro q
      by_cases hq : q = order.securityId
      · subst hq
        rw [if_pos rfl, Nat.add_zero, Nat.mod_eq_of_lt (hvlt _)]
      · rw [if_neg hq]
  · rw [if_neg hfil]
    by_cases hbuy : isBuySide order = true
    · simp only [hbuy, if_true]
      rw [show alGet (alTouch c.securityShortOrdersIndex order.securityId [])
            order.securityId [] = alGet c.securityShortOrdersIndex order.securityId []
          from alGet_alTouch_self _ _ _]
      have hopp : oppositeSideList c order
          = alGet c.securityShortOrdersIndex order.securityId [] := by
        unfold oppositeSideList
        rw [if_pos hbuy]
      rw [← hopp]
      by_cases hemp : (oppositeSideList c order).isEmpty = true
      · rw [if_pos hemp]
        have hnil : oppositeSideList c order = [] := by
          cases hl : oppositeSideList c order
          · rfl
          · rw [hl] at hemp
            simp [List.isEmpty] at hemp
        rw [hnil, specMatchScan]
        refine ⟨rfl, ?_, ?_⟩
        · exact (updateOrder_const_self c.orders oid order hnodup hfo).symm
        · intro q
          by_cases hq : q = order.securityId
          · subst hq
            rw [if_pos rfl, Nat.add_zero, Nat.mod_eq_of_lt (hvlt _)]
            rfl
          · rw [if_neg hq]
            rfl
      · rw [if_neg hemp]
        have heq := matchLoop_eq_spec (oppositeSideList c order) c.orders order 0
          (by omega)
        rw [heq, Nat.zero_add]
        refine ⟨rfl, rfl, ?_⟩
        intro q
        dsimp only
        unfold getMatchedQuantityInCache
        by_cases hq : q = order.securityId
        · subst hq
          rw [if_pos rfl, alGet_alSet_self]
        · rw [if_neg hq, alGet_alSet_ne _ _ _ _ _ hq]
    · have hb2 : isBuySide order = false := by simpa using hbuy
      simp only [hb2, Bool.false_eq_true, if_false]
      rw [show alGet (alTouch c.securityLongOrdersIndex order.securityId [])
            order.securityId [] = alGet c.securityLongOrdersIndex order.securityId []
          from alGet_alTouch_self _ _ _]
      have hopp : oppositeSideList c order
          = alGet c.securityLongOrdersIndex order.securityId [] := by
        unfold oppositeSideList
        rw [hb2]
        simp
      rw [← hopp]
      by_cases hemp : (oppositeSideList c order).isEmpty = true
      · rw [if_pos hemp]
        have hnil : oppositeSideList c order = [] := by
          cases hl : oppositeSideList c order
          · rfl
          · rw [hl] at hemp
            simp [List.isEmpty] at hemp
        rw [hnil, specMatchScan]
        refine ⟨rfl, ?_, ?_⟩
        · exact (updateOrder_const_self c.orders oid order hnodup hfo).symm
        · intro q
          by_cases hq : q = order.securityId
          · subst hq
            rw [if_pos rfl, Nat.add_zero, Nat.mod_eq_of_lt (hvlt _)]
            rfl
          · rw [if_neg hq]
            rfl
      · rw [if_neg hemp]
        have heq := matchLoop_eq_spec (oppositeSideList c order) c.orders order 0
          (by omega)
        rw [heq, Nat.zero_add]
        refine ⟨rfl, rfl, ?_⟩
        intro q
        dsimp only
        unfold getMatchedQuantityInCache
        by_cases hq : q = order.securityId
        · subst hq
          rw [if_pos rfl, alGet_alSet_self]
        · rw [if_neg hq, alGet_alSet_ne _ _ _ _ _ hq]

/-- Witness for C2 at a concrete state: one live buy of SecId1 and a sell
subject; the matcher's return value agrees with the spec-side scan. -/
theorem c2_matcher_follows_spec_witness :
    (matchOrderInCache (addOrder (lazyConfig true) (addOrder (lazyConfig true)
        emptyOrderCache (mkOrder "B1" "SecId1" "Buy" 100 "User1" "CompanyA"))
        (mkOrder "S1" "SecId1" "Sell" 60 "User2" "CompanyB")) "S1").1
      = (specMatchScan (addOrder (lazyConfig true) (addOrder (lazyConfig true)
          emptyOrderCache (mkOrder "B1" "SecId1" "Buy" 100 "User1" "CompanyA"))
          (mkOrder "S1" "SecId1" "Sell" 60 "User2" "CompanyB")).orders
          (mkOrder "S1" "SecId1" "Sell" 60 "User2" "CompanyB")
          (oppositeSideList (addOrder (lazyConfig true) (addOrder (lazyConfig true)
            emptyOrderCache (mkOrder "B1" "SecId1" "Buy" 100 "User1" "CompanyA"))
            (mkOrder "S1" "SecId1" "Sell" 60 "User2" "CompanyB"))
            (mkOrder "S1" "SecId1" "Sell" 60 "User2" "CompanyB"))).1 :=
  (c2_matcher_follows_spec _ "S1" (mkOrder "S1" "SecId1" "Sell" 60 "User2" "CompanyB")
    (by unfold WF; decide) (by decide) (by decide)).1

/-! ## Towards C4: precise effects of `addOrder` followed by `cancelOrder` -/

theorem findOrder_cons_self (o : Order) (rest : List Order) :
    findOrder (o :: rest) o.orderId = some o := by
  unfold findOrder
  rw [List.find?_cons_of_pos _ (by simp)]

theorem alSet_alSet {α : Type} (m : List (String × α)) (k : String) (v1 v2 : α) :
    alSet (alSet m k v1) k v2 = alSet m k v2 := by
  unfold alSet
  by_cases h : m.any (fun e => e.1 == k) = true
  · rw [if_pos h]
    have h2 : (m.map (fun e => if e.1 == k then (k, v1) else e)).any (fun e => e.1 == k)
        = true := by
      rcases List.any_eq_true.mp h with ⟨e, he, hek⟩
      apply List.any_eq_true.mpr
      refine ⟨(k, v1), List.mem_map.mpr ⟨e, he, by rw [if_pos hek]⟩, by simp⟩
    rw [if_pos h2, if_pos h, List.map_map]
    apply List.map_congr_left
    intro e _
    by_cases hek : e.1 = k
    · simp [Function.comp, hek]
    · simp [Function.comp, hek]
  · rw [if_neg h]
    have h2 : (m ++ [(k, v1)]).any (fun e => e.1 == k) = true := by
      apply List.any_eq_true.mpr
      exact ⟨(k, v1), by simp, by simp⟩
    rw [if_pos h2, if_neg h, List.map_append]
    have h3 : m.map (fun e => if e.1 == k then (k, v2) else e) = m := by
      conv_rhs => rw [← List.map_id m]
      apply List.map_congr_left
      intro e he
      have : ¬ (e.1 = k) := by
        intro hek
        have hmem : (m.any fun x => x.1 == k) = true :=
          List.any_eq_true.mpr ⟨e, he, by simp [hek]⟩
        exact absurd hmem h
      simp [this]
    rw [h3]
    simp

theorem find?_entry_of_mem_keys_nodup {α : Type} {m : List (String × α)}
    (hkeys : (m.map Prod.fst).Nodup) {e : String × α} (he : e ∈ m) :
    m.find? (fun x => x.1 == e.1) = some e := by
  induction m with
  | nil => simp at he
  | cons a rest ih =>
    rcases List.mem_cons.mp he with h1 | h1
    · subst h1
      rw [List.find?_cons_of_pos _ (by simp)]
    · have hne : a.1 ≠ e.1 := by
        intro hh
        have hmem : e.1 ∈ rest.map Prod.fst := List.mem_map_of_mem _ h1
        rw [List.map_cons] at hkeys
        exact (List.nodup_cons.mp hkeys).1 (hh ▸ hmem)
      rw [List.find?_cons_of_neg _ (by simp [hne])]
      have h2 : (rest.map Prod.fst).Nodup := by
        rw [List.map_cons] at hkeys
        exact (List.nodup_cons.mp hkeys).2
      exact ih h2 h1

theorem alSet_alGet_self {α : Type} (m : List (String × α)) (k : String) (d : α)
    (hkeys : (m.map Prod.fst).Nodup) :
    alSet m k (alGet m k d) = if alContains m k then m else m ++ [(k, d)] := by
  by_cases h : alContains m k = true
  · rw [if_pos h]
    unfold alSet
    have h1 : (m.any fun e => e.1 == k) = true := h
    rw [if_pos h1]
    conv_rhs => rw [← List.map_id m]
    apply List.map_congr_left
    intro e he
    by_cases hek : e.1 = k
    · have hfind : m.find? (fun x => x.1 == k) = some e := by
        rw [← hek]
        exact find?_entry_of_mem_keys_nodup hkeys he
      have hget : alGet m k d = e.2 := by
        unfold alGet
        rw [hfind]
      rw [if_pos (by simp [hek]), hget, ← hek]
      exact Prod.mk.eta
    · rw [if_neg (by simp [hek])]
      rfl
  · rw [if_neg h]
    unfold alSet
    have h1 : ¬((m.any fun e => e.1 == k) = true) := h
    rw [if_neg h1]
    have hget : alGet m k d = d :=
      alGet_not_contains m k d (Bool.eq_false_iff.mpr h)
    rw [hget]

/-! ## Lemmas about the pure cell model -/

theorem beq_comm_str (a b : String) : (a == b) = (b == a) := by
  by_cases h : a = b
  · simp [h]
  · simp [h, Ne.symm h]

theorem cellFill_le_left (r c : Nat) (a b : String) : cellFill r c a b ≤ r := by
  unfold cellFill
  split
  · exact Nat.zero_le r
  · exact Nat.min_le_left r c

theorem cellFill_le_right (r c : Nat) (a b : String) : cellFill r c a b ≤ c := by
  unfold cellFill
  split
  · exact Nat.zero_le c
  · exact Nat.min_le_right r c

theorem cellFill_comm (r c : Nat) (a b : String) :
    cellFill r c a b = cellFill c r b a := by
  by_cases h : a = b
  · simp [cellFill, h]
  · have h1 : (a == b) = false := by simp [h]
    have h2 : (b == a) = false := by simp [Ne.symm h]
    simp [cellFill, h1, h2, Nat.min_comm]

theorem scanCells_nil (r : Nat) (comp : String) :
    scanCells r comp [] = (0, r, []) := rfl

theorem scanCells_zero (comp : String) (cells : List (Nat × String)) :
    scanCells 0 comp cells = (0, 0, cells) := by
  induction cells with
  | nil => rfl
  | cons hd rest ih =>
    obtain ⟨c, cc⟩ := hd
    have h0 : cellFill 0 c comp cc = 0 := by
      unfold cellFill
      split
      · rfl
      · exact Nat.zero_min c
    simp only [scanCells, h0, Nat.sub_zero, Nat.zero_add, Nat.add_zero, ih]

theorem scanCells_resid (r : Nat) (comp : String) (cells : List (Nat × String)) :
    (scanCells r comp cells).1 ≤ r ∧
    (scanCells r comp cells).2.1 = r - (scanCells r comp cells).1 := by
  induction cells generalizing r with
  | nil => simp [scanCells_nil]
  | cons hd rest ih =>
    obtain ⟨c, cc⟩ := hd
    have hq := cellFill_le_left r c comp cc
    obtain ⟨h1, h2⟩ := ih (r - cellFill r c comp cc)
    simp only [scanCells]
    constructor
    · omega
    · omega

theorem scanCells_append (r : Nat) (comp : String) (cells : List (Nat × String))
    (c : Nat) (cc : String) :
    scanCells r comp (cells ++ [(c, cc)]) =
      ((scanCells r comp cells).1
          + cellFill (scanCells r comp cells).2.1 c comp cc,
       (scanCells r comp cells).2.1
          - cellFill (scanCells r comp cells).2.1 c comp cc,
       (scanCells r comp cells).2.2
          ++ [(c - cellFill (scanCells r comp cells).2.1 c comp cc, cc)]) := by
  induction cells generalizing r with
  | nil =>
    simp [scanCells]
  | cons hd rest ih =>
    obtain ⟨c0, cc0⟩ := hd
    rw [List.cons_append]
    simp only [scanCells]
    rw [ih]
    simp [Nat.add_assoc]

theorem greedyCells_snoc_row (rows : List (Nat × String)) (cols : List (Nat × String))
    (r : Nat) (rc : String) :
    greedyCells (rows ++ [(r, rc)]) cols =
      ((greedyCells rows cols).1
          + (scanCells r rc (greedyCells rows cols).2.2).1,
       (greedyCells rows cols).2.1
          ++ [((scanCells r rc (greedyCells rows cols).2.2).2.1, rc)],
       (scanCells r rc (greedyCells rows cols).2.2).2.2) := by
  induction rows generalizing cols with
  | nil => simp [greedyCells]
  | cons hd rows ih =>
    obtain ⟨r0, rc0⟩ := hd
    rw [List.cons_append]
    simp only [greedyCells]
    rw [ih]
    simp [Nat.add_assoc]

theorem greedyCells_snoc_col (rows : List (Nat × String)) (cols : List (Nat × String))
    (c : Nat) (cc : String) :
    greedyCells rows (cols ++ [(c, cc)]) =
      ((greedyCells rows cols).1
          + (scanCells c cc (greedyCells rows cols).2.1).1,
       (scanCells c cc (greedyCells rows cols).2.1).2.2,
       (greedyCells rows cols).2.2
          ++ [((scanCells c cc (greedyCells rows cols).2.1).2.1, cc)]) := by
  induction rows generalizing cols c with
  | nil => simp [greedyCells, scanCells]
  | cons hd rows ih =>
    obtain ⟨r0, rc0⟩ := hd
    simp only [greedyCells]
    rw [scanCells_append]
    simp only []
    rw [ih]
    simp only [greedyCells, scanCells]
    rw [cellFill_comm c ((scanCells r0 rc0 cols).2.1) cc rc0]
    simp only [Prod.mk.injEq]
    exact ⟨by ring, trivial⟩

/-! ## Bridging the matcher loop to the cell model -/

theorem colsOf_nil (store : List Order) : colsOf store [] = [] := rfl

theorem colsOf_cons_none {store : List Order} {i : String} (ids : List String)
    (h : findOrder store i = none) :
    colsOf store (i :: ids) = (0, "") :: colsOf store ids := by
  unfold colsOf
  rw [List.map_cons, h]

theorem colsOf_cons_some {store : List Order} {i : String} {o : Order}
    (ids : List String) (h : findOrder store i = some o) :
    colsOf store (i :: ids) = (o.workingQty, o.company) :: colsOf store ids := by
  unfold colsOf
  rw [List.map_cons, h]

theorem colsOf_congr {st st' : List Order} (ids : List String)
    (h : ∀ i ∈ ids, findOrder st' i = findOrder st i) :
    colsOf st' ids = colsOf st ids := by
  unfold colsOf
  apply List.map_congr_left
  intro i hi
  rw [h i hi]

theorem uintSize_pos : 0 < uintSize := by decide

theorem matchLoop_cells (cps : List String) (store : List Order) (subject : Order)
    (acc : Nat) (hnd : cps.Nodup) (hs : subject.orderId ∉ cps)
    (hacc : acc < uintSize) :
    (matchLoop store subject cps acc).1
        = (acc + (scanCells subject.workingQty subject.company
            (colsOf store cps)).1) % uintSize ∧
    (matchLoop store subject cps acc).2.1
        = { subject with workingQty :=
              (scanCells subject.workingQty subject.company
                (colsOf store cps)).2.1 } ∧
    (∀ x, x ∉ cps →
        findOrder (matchLoop store subject cps acc).2.2 x = findOrder store x) ∧
    colsOf (matchLoop store subject cps acc).2.2 cps
        = (scanCells subject.workingQty subject.company (colsOf store cps)).2.2 := by
  induction cps generalizing store subject acc with
  | nil =>
    rw [matchLoop, colsOf_nil, scanCells_nil]
    refine ⟨?_, rfl, fun x _ => rfl, rfl⟩
    simp [Nat.mod_eq_of_lt hacc]
  | cons cpid rest ih =>
    have hnd' : rest.Nodup := (List.nodup_cons.mp hnd).2
    have hcpid : cpid ∉ rest := (List.nodup_cons.mp hnd).1
    have hsub : subject.orderId ≠ cpid := fun h => hs (h ▸ List.mem_cons_self cpid rest)
    have hsrest : subject.orderId ∉ rest := fun h => hs (List.mem_cons_of_mem _ h)
    rw [matchLoop]
    rcases hcp : findOrder store cpid with _ | cp
    · -- dangling id: the code skips, the model fills 0 against the cell (0, "")
      rw [colsOf_cons_none rest hcp]
      simp only [scanCells]
      have h0 : cellFill subject.workingQty 0 subject.company "" = 0 := by
        unfold cellFill
        split
        · rfl
        · exact Nat.min_zero _
      rw [h0]
      obtain ⟨ih1, ih2, ih3, ih4⟩ := ih store subject acc hnd' hsrest hacc
      refine ⟨?_, ?_, ?_, ?_⟩
      · rw [ih1, Nat.sub_zero, Nat.zero_add]
      · rw [ih2, Nat.sub_zero]
      · intro x hx
        exact ih3 x (fun h => hx (List.mem_cons_of_mem _ h))
      · rw [colsOf_cons_none rest (by rw [ih3 cpid hcpid]; exact hcp), ih4,
          Nat.sub_zero, Nat.sub_zero]
    · dsimp only
      rw [colsOf_cons_some rest hcp]
      simp only [scanCells]
      by_cases hskip : (cp.isFilled || subject.company == cp.company) = true
      · -- filled or same-company counterparty: both sides fill 0
        rw [if_pos hskip]
        have h0 : cellFill subject.workingQty cp.workingQty
            subject.company cp.company = 0 := by
          have hor : cp.isFilled = true ∨ (subject.company == cp.company) = true := by
            simpa using hskip
          rcases hor with h | h
          · have hw0 : cp.workingQty = 0 := (isFilled_iff cp).mp h
            unfold cellFill
            rw [hw0]
            split
            · rfl
            · exact Nat.min_zero _
          · unfold cellFill
            rw [if_pos h]
        rw [h0]
        obtain ⟨ih1, ih2, ih3, ih4⟩ := ih store subject acc hnd' hsrest hacc
        refine ⟨?_, ?_, ?_, ?_⟩
        · rw [ih1, Nat.sub_zero, Nat.zero_add]
        · rw [ih2, Nat.sub_zero]
        · intro x hx
          exact ih3 x (fun h => hx (List.mem_cons_of_mem _ h))
        · rw [colsOf_cons_some rest (by rw [ih3 cpid hcpid]; exact hcp), ih4,
            Nat.sub_zero, Nat.sub_zero]
      · rw [if_neg hskip]
        have hco : (subject.company == cp.company) = false := by
          have h2 : ¬ ((subject.company == cp.company) = true) := fun h => hskip (by simp [h])
          exact Bool.eq_false_iff.mpr h2
        have hcf : cellFill subject.workingQty cp.workingQty
            subject.company cp.company = min subject.workingQty cp.workingQty := by
          unfold cellFill
          rw [if_neg (by rw [hco]; decide : ¬ ((subject.company == cp.company) = true))]
        by_cases hq : (min subject.workingQty cp.workingQty == 0) = true
        · -- zero match: both sides fill 0
          rw [if_pos hq]
          have hq0 : min subject.workingQty cp.workingQty = 0 := by simpa using hq
          have h0 : cellFill subject.workingQty cp.workingQty
              subject.company cp.company = 0 := by rw [hcf, hq0]
          rw [h0]
          obtain ⟨ih1, ih2, ih3, ih4⟩ := ih store subject acc hnd' hsrest hacc
          refine ⟨?_, ?_, ?_, ?_⟩
          · rw [ih1, Nat.sub_zero, Nat.zero_add]
          · rw [ih2, Nat.sub_zero]
          · intro x hx
            exact ih3 x (fun h => hx (List.mem_cons_of_mem _ h))
          · rw [colsOf_cons_some rest (by rw [ih3 cpid hcpid]; exact hcp), ih4,
              Nat.sub_zero, Nat.sub_zero]
        · rw [if_neg hq]
          rw [hcf]
          have hffill : ∀ o : Order, o.orderId = cpid →
              (o.fillLots (min subject.workingQty cp.workingQty)).orderId = o.orderId := by
            intro o _
            rw [fillLots_eq]
          have hcols' : colsOf (updateOrder store cpid
              (fun o => o.fillLots (min subject.workingQty cp.workingQty))) rest
                = colsOf store rest := by
            apply colsOf_congr
            intro i hi
            exact findOrder_updateOrder_ne store cpid i _ hffill
              (fun h => hcpid (h ▸ hi))
          have hfcp : findOrder (updateOrder store cpid
              (fun o => o.fillLots (min subject.workingQty cp.workingQty))) cpid
                = some (cp.fillLots (min subject.workingQty cp.workingQty)) := by
            rw [findOrder_updateOrder_self store cpid _ hffill, hcp]
            rfl
          by_cases hfill : ((subject.fillLots (min subject.workingQty cp.workingQty)).isFilled) = true
          · -- the subject is exhausted by this match: the code stops, the
            -- model keeps scanning with residual 0 and changes nothing more
            rw [if_pos hfill]
            dsimp only
            have hw0 : subject.workingQty - min subject.workingQty cp.workingQty = 0 := by
              have := (isFilled_iff _).mp hfill
              rw [fillLots_workingQty] at this
              exact this
            rw [hw0, scanCells_zero]
            refine ⟨rfl, ?_, ?_, ?_⟩
            · rw [fillLots_eq, hw0]
            · intro x hx
              have hxne : x ≠ cpid := fun h => hx (h ▸ List.mem_cons_self cpid rest)
              exact findOrder_updateOrder_ne store cpid x _ hffill hxne
            · rw [colsOf_cons_some rest hfcp, hcols']
              rw [fillLots_eq]
          · rw [if_neg hfill]
            have hacc' : (acc + min subject.workingQty cp.workingQty) % uintSize < uintSize :=
              Nat.mod_lt _ uintSize_pos
            have hsub' : (subject.fillLots (min subject.workingQty cp.workingQty)).orderId ∉ rest := by
              rw [fillLots_eq]
              exact hsrest
            obtain ⟨ih1, ih2, ih3, ih4⟩ := ih
              (updateOrder store cpid (fun o => o.fillLots (min subject.workingQty cp.workingQty)))
              (subject.fillLots (min subject.workingQty cp.workingQty))
              ((acc + min subject.workingQty cp.workingQty) % uintSize)
              hnd' hsub' hacc'
            have hw' : (subject.fillLots (min subject.workingQty cp.workingQty)).workingQty
                = subject.workingQty - min subject.workingQty cp.workingQty :=
              fillLots_workingQty subject _
            have hc' : (subject.fillLots (min subject.workingQty cp.workingQty)).company
                = subject.company := by
              rw [fillLots_eq]
            rw [hw', hc', hcols'] at ih1 ih2 ih4
            refine ⟨?_, ?_, ?_, ?_⟩
            · rw [ih1, Nat.mod_add_mod, Nat.add_assoc]
            · rw [ih2, fillLots_eq]
            · intro x hx
              have hxr : x ∉ rest := fun h => hx (List.mem_cons_of_mem _ h)
              have hxne : x ≠ cpid := fun h => hx (h ▸ List.mem_cons_self cpid rest)
              rw [ih3 x hxr]
              exact findOrder_updateOrder_ne store cpid x _ hffill hxne
            · have hfcp2 : findOrder (matchLoop
                  (updateOrder store cpid (fun o => o.fillLots (min subject.workingQty cp.workingQty)))
                  (subject.fillLots (min subject.workingQty cp.workingQty)) rest
                  ((acc + min subject.workingQty cp.workingQty) % uintSize)).2.2 cpid
                    = some (cp.fillLots (min subject.workingQty cp.workingQty)) := by
                rw [ih3 cpid hcpid]
                exact hfcp
              rw [colsOf_cons_some rest hfcp2, ih4]
              rw [fillLots_eq]

/-! ## Further structural lemmas for the add-then-cancel analysis -/

theorem onlyConsumed_record {a b : Order} (h : onlyConsumed a b) :
    b = { a with workingQty := b.workingQty } := by
  obtain ⟨hi, hs, hd, hq, hu, hc, _⟩ := h
  cases a
  cases b
  simp_all

theorem findOrder_rel {store store' : List Order}
    (h : List.Forall₂ onlyConsumed store store') (x : String) :
    (findOrder store x = none ∧ findOrder store' x = none) ∨
    (∃ a b, findOrder store x = some a ∧ findOrder store' x = some b ∧
      onlyConsumed a b) := by
  induction h with
  | nil => exact Or.inl ⟨rfl, rfl⟩
  | @cons a b l1 l2 hab htail ih =>
    by_cases hx : a.orderId = x
    · right
      refine ⟨a, b, ?_, ?_, hab⟩
      · unfold findOrder
        rw [List.find?_cons_of_pos _ (by simp [hx])]
      · unfold findOrder
        rw [List.find?_cons_of_pos _ (by simp [hab.1, hx])]
    · have hbx : b.orderId ≠ x := by rw [hab.1]; exact hx
      unfold findOrder
      rw [List.find?_cons_of_neg _ (by simp [hx]),
        List.find?_cons_of_neg _ (by simp [hbx])]
      exact ih

theorem matchLoop_val_le (cps : List String) (st : List Order) (subj : Order)
    (acc : Nat) : (matchLoop st subj cps acc).1 ≤ acc + subj.workingQty := by
  induction cps generalizing st subj acc with
  | nil => rw [matchLoop]; omega
  | cons cpid rest ih =>
    rw [matchLoop]
    rcases hcp : findOrder st cpid with _ | cp
    · exact ih st subj acc
    · dsimp only
      by_cases hskip : (cp.isFilled || subj.company == cp.company) = true
      · rw [if_pos hskip]
        exact ih st subj acc
      · rw [if_neg hskip]
        by_cases hq : (min subj.workingQty cp.workingQty == 0) = true
        · rw [if_pos hq]
          exact ih st subj acc
        · rw [if_neg hq]
          have hqle : min subj.workingQty cp.workingQty ≤ subj.workingQty :=
            Nat.min_le_left _ _
          have hmle : (acc + min subj.workingQty cp.workingQty) % uintSize
              ≤ acc + min subj.workingQty cp.workingQty := Nat.mod_le _ _
          by_cases hfill : ((subj.fillLots (min subj.workingQty cp.workingQty)).isFilled) = true
          · rw [if_pos hfill]
            dsimp only
            omega
          · rw [if_neg hfill]
            have h2 := ih
              (updateOrder st cpid (fun o => o.fillLots (min subj.workingQty cp.workingQty)))
              (subj.fillLots (min subj.workingQty cp.workingQty))
              ((acc + min subj.workingQty cp.workingQty) % uintSize)
            rw [fillLots_workingQty] at h2
            omega

theorem matchOrderInCache_val_le (c : OrderCache) (oid : String) (ord : Order)
    (hfo : findOrder c.orders oid = some ord) :
    (matchOrderInCache c oid).1 ≤ ord.workingQty := by
  unfold matchOrderInCache
  rw [hfo]
  dsimp only
  by_cases hfil : ord.isFilled = true
  · rw [if_pos hfil]
    exact Nat.zero_le _
  · rw [if_neg hfil]
    by_cases hbuy : isBuySide ord = true
    · simp only [hbuy, if_true]
      split
      · exact Nat.zero_le _
      · simpa using matchLoop_val_le _ _ ord 0
    · have hb2 : isBuySide ord = false := by simpa using hbuy
      simp only [hb2, Bool.false_eq_true, if_false]
      split
      · exact Nat.zero_le _
      · simpa using matchLoop_val_le _ _ ord 0

theorem matchOrderInCache_sideIdx_precise (c : OrderCache) (oid : String) (ord : Order)
    (hfo : findOrder c.orders oid = some ord) :
    (isBuySide ord = true →
      (matchOrderInCache c oid).2.securityLongOrdersIndex = c.securityLongOrdersIndex ∧
      ((matchOrderInCache c oid).2.securityShortOrdersIndex = c.securityShortOrdersIndex ∨
       (matchOrderInCache c oid).2.securityShortOrdersIndex
          = c.securityShortOrdersIndex ++ [(ord.securityId, [])])) ∧
    (isBuySide ord = false →
      (matchOrderInCache c oid).2.securityShortOrdersIndex = c.securityShortOrdersIndex ∧
      ((matchOrderInCache c oid).2.securityLongOrdersIndex = c.securityLongOrdersIndex ∨
       (matchOrderInCache c oid).2.securityLongOrdersIndex
          = c.securityLongOrdersIndex ++ [(ord.securityId, [])])) := by
  have haltS : alTouch c.securityShortOrdersIndex ord.securityId []
      = c.securityShortOrdersIndex ∨
      alTouch c.securityShortOrdersIndex ord.securityId []
        = c.securityShortOrdersIndex ++ [(ord.securityId, [])] := by
    unfold alTouch
    split
    · exact Or.inl rfl
    · exact Or.inr rfl
  have haltL : alTouch c.securityLongOrdersIndex ord.securityId []
      = c.securityLongOrdersIndex ∨
      alTouch c.securityLongOrdersIndex ord.securityId []
        = c.securityLongOrdersIndex ++ [(ord.securityId, [])] := by
    unfold alTouch
    split
    · exact Or.inl rfl
    · exact Or.inr rfl
  constructor
  · intro hbuy
    unfold matchOrderInCache
    rw [hfo]
    dsimp only
    by_cases hfil : ord.isFilled = true
    · rw [if_pos hfil]
      exact ⟨rfl, Or.inl rfl⟩
    · rw [if_neg hfil]
      simp only [hbuy, if_true]
      split
      · exact ⟨rfl, haltS⟩
      · exact ⟨rfl, haltS⟩
  · intro hb2
    unfold matchOrderInCache
    rw [hfo]
    dsimp only
    by_cases hfil : ord.isFilled = true
    · rw [if_pos hfil]
      exact ⟨rfl, Or.inl rfl⟩
    · rw [if_neg hfil]
      simp only [hb2, Bool.false_eq_true, if_false]
      split
      · exact ⟨rfl, haltL⟩
      · exact ⟨rfl, haltL⟩

theorem forall₂_cons_filter {a : Order} {l1 l2 : List Order}
    (h : List.Forall₂ onlyConsumed (a :: l1) l2)
    (hfr : ∀ x ∈ l1, x.orderId ≠ a.orderId) :
    List.Forall₂ onlyConsumed l1 (l2.filter (fun x => x.orderId != a.orderId)) := by
  rcases h with _ | ⟨hb, ht⟩
  rename_i b t
  have hbid : (b.orderId != a.orderId) = false := by simp [hb.1]
  rw [List.filter_cons_of_neg (by rw [hbid]; decide)]
  have hkeep : ∀ x ∈ t, (x.orderId != a.orderId) = true := by
    intro x hx
    obtain ⟨y, hy, hr⟩ := forallConsumed_mem_right ht x hx
    have : x.orderId = y.orderId := hr.1
    simp [this, hfr y hy]
  rw [List.filter_eq_self.mpr hkeep]
  exact ht

theorem cancel_after_add (A c : OrderCache) (o : Order)
    (hord : List.Forall₂ onlyConsumed (o :: c.orders) A.orders)
    (hix : A.orderIndex = c.orderIndex ++ [o.orderId])
    (huser : A.userOrdersIndex = alSet c.userOrdersIndex o.user
      (keyInsert (alGet c.userOrdersIndex o.user []) o.orderId))
    (hsec : A.securityOrdersIndex = alSet c.securityOrdersIndex o.securityId
      (keyInsert (alGet c.securityOrdersIndex o.securityId []) o.orderId))
    (hlong : (isBuySide o = true ∧
        A.securityLongOrdersIndex = alSet c.securityLongOrdersIndex o.securityId
          (alGet c.securityLongOrdersIndex o.securityId [] ++ [o.orderId])) ∨
      (isBuySide o = false ∧
        (A.securityLongOrdersIndex = c.securityLongOrdersIndex ∨
         A.securityLongOrdersIndex = c.securityLongOrdersIndex ++ [(o.securityId, [])])))
    (hshort : (isBuySide o = false ∧
        A.securityShortOrdersIndex = alSet c.securityShortOrdersIndex o.securityId
          (alGet c.securityShortOrdersIndex o.securityId [] ++ [o.orderId])) ∨
      (isBuySide o = true ∧
        (A.securityShortOrdersIndex = c.securityShortOrdersIndex ∨
         A.securityShortOrdersIndex = c.securityShortOrdersIndex ++ [(o.securityId, [])])))
    (hmq : A.matchedQuantity = c.matchedQuantity ∨
      ∃ m, m ≤ o.workingQty ∧
        ∀ t, getMatchedQuantityInCache A t
          = if t = o.securityId
            then (getMatchedQuantityInCache c t + m) % uintSize
            else getMatchedQuantityInCache c t)
    (hfrOrd : ∀ x ∈ c.orders, x.orderId ≠ o.orderId)
    (hfrIdx : ∀ k ∈ c.orderIndex, k ≠ o.orderId)
    (hfrU : o.orderId ∉ alGet c.userOrdersIndex o.user [])
    (hfrS : o.orderId ∉ alGet c.securityOrdersIndex o.securityId [])
    (hfrL : o.orderId ∉ alGet c.securityLongOrdersIndex o.securityId [])
    (hfrSh : o.orderId ∉ alGet c.securityShortOrdersIndex o.securityId [])
    (hkU : (c.userOrdersIndex.map Prod.fst).Nodup)
    (hkS : (c.securityOrdersIndex.map Prod.fst).Nodup)
    (hkL : (c.securityLongOrdersIndex.map Prod.fst).Nodup)
    (hkSh : (c.securityShortOrdersIndex.map Prod.fst).Nodup) :
    List.Forall₂ onlyConsumed c.orders (cancelOrder A o.orderId).orders ∧
    (cancelOrder A o.orderId).orderIndex = c.orderIndex ∧
    ((cancelOrder A o.orderId).userOrdersIndex = c.userOrdersIndex ∨
      (cancelOrder A o.orderId).userOrdersIndex
        = c.userOrdersIndex ++ [(o.user, [])]) ∧
    ((cancelOrder A o.orderId).securityOrdersIndex = c.securityOrdersIndex ∨
      (cancelOrder A o.orderId).securityOrdersIndex
        = c.securityOrdersIndex ++ [(o.securityId, [])]) ∧
    ((cancelOrder A o.orderId).securityLongOrdersIndex = c.securityLongOrdersIndex ∨
      (cancelOrder A o.orderId).securityLongOrdersIndex
        = c.securityLongOrdersIndex ++ [(o.securityId, [])]) ∧
    ((cancelOrder A o.orderId).securityShortOrdersIndex = c.securityShortOrdersIndex ∨
      (cancelOrder A o.orderId).securityShortOrdersIndex
        = c.securityShortOrdersIndex ++ [(o.securityId, [])]) ∧
    ((cancelOrder A o.orderId).matchedQuantity = c.matchedQuantity ∨
      ∃ m, m ≤ o.workingQty ∧
        ∀ t, getMatchedQuantityInCache (cancelOrder A o.orderId) t
          = if t = o.securityId
            then (getMatchedQuantityInCache c t + m) % uintSize
            else getMatchedQuantityInCache c t) := by
  -- the cancel finds the (possibly partially consumed) added order
  have hfA : ∃ b, findOrder A.orders o.orderId = some b ∧ onlyConsumed o b := by
    rcases findOrder_rel hord o.orderId with ⟨h1, _⟩ | ⟨a, b, ha, hb, hr⟩
    · rw [findOrder_cons_self] at h1
      cases h1
    · rw [findOrder_cons_self] at ha
      cases ha
      exact ⟨b, hb, hr⟩
  obtain ⟨b0, hfb0, hcons0⟩ := hfA
  obtain ⟨hbId, hbSec, hbSide, hbQty, hbUser, hbComp, hbW⟩ := hcons0
  have hcont : A.orderIndex.contains o.orderId = true := by
    rw [hix]
    simp
  unfold cancelOrder cancelSingleOrder
  rw [if_neg (by rw [hcont]; decide), hfb0]
  dsimp only
  rw [if_neg (by simp : ¬ ((decide (0 > 0) && decide (b0.qty < 0)) = true))]
  dsimp only
  refine ⟨?_, ?_, ?_, ?_, ?_, ?_, ?_⟩
  · exact forall₂_cons_filter hord hfrOrd
  · rw [hix, List.filter_append]
    have h1 : c.orderIndex.filter (fun k => k != o.orderId) = c.orderIndex := by
      rw [List.filter_eq_self]
      intro k hk
      simpa using hfrIdx k hk
    have h2 : [o.orderId].filter (fun k => k != o.orderId) = [] := by simp
    rw [h1, h2, List.append_nil]
  · rw [hbUser, huser, alGet_alSet_self, keyErase_keyInsert _ _ hfrU, alSet_alSet,
      alSet_alGet_self _ _ _ hkU]
    split
    · exact Or.inl rfl
    · exact Or.inr rfl
  · rw [hbSec, hsec, alGet_alSet_self, keyErase_keyInsert _ _ hfrS, alSet_alSet,
      alSet_alGet_self _ _ _ hkS]
    split
    · exact Or.inl rfl
    · exact Or.inr rfl
  · have hbside : isBuySide b0 = isBuySide o := by
      unfold isBuySide
      rw [hbSide]
    rcases hlong with ⟨hbuy, hA⟩ | ⟨hsell, hA⟩
    · -- buy order: the long index gained the id and the cancel erases it
      rw [hbside, hbuy] at *
      rw [if_pos rfl]
      rw [hbSec, hA, alGet_alSet_self]
      have hkeL : keyErase (alGet c.securityLongOrdersIndex o.securityId [] ++ [o.orderId])
          o.orderId = alGet c.securityLongOrdersIndex o.securityId [] := by
        unfold keyErase
        rw [List.filter_append]
        have h1 : (alGet c.securityLongOrdersIndex o.securityId []).filter
            (fun x => x != o.orderId) = alGet c.securityLongOrdersIndex o.securityId [] := by
          rw [List.filter_eq_self]
          intro k hk
          simp
          intro he
          exact hfrL (he ▸ hk)
        have h2 : [o.orderId].filter (fun x => x != o.orderId) = [] := by simp
        rw [h1, h2, List.append_nil]
      rw [hkeL, alSet_alSet, alSet_alGet_self _ _ _ hkL]
      split
      · exact Or.inl rfl
      · exact Or.inr rfl
    · -- sell order: the long index was never written for this id
      rw [hbside, hsell] at *
      rw [if_neg (by decide : ¬ (false = true))]
      exact hA
  · have hbside : isBuySide b0 = isBuySide o := by
      unfold isBuySide
      rw [hbSide]
    rcases hshort with ⟨hsell, hA⟩ | ⟨hbuy, hA⟩
    · rw [hbside, hsell] at *
      rw [if_neg (by decide : ¬ (false = true))]
      rw [hbSec, hA, alGet_alSet_self]
      have hkeS : keyErase (alGet c.securityShortOrdersIndex o.securityId [] ++ [o.orderId])
          o.orderId = alGet c.securityShortOrdersIndex o.securityId [] := by
        unfold keyErase
        rw [List.filter_append]
        have h1 : (alGet c.securityShortOrdersIndex o.securityId []).filter
            (fun x => x != o.orderId) = alGet c.securityShortOrdersIndex o.securityId [] := by
          rw [List.filter_eq_self]
          intro k hk
          simp
          intro he
          exact hfrSh (he ▸ hk)
        have h2 : [o.orderId].filter (fun x => x != o.orderId) = [] := by simp
        rw [h1, h2, List.append_nil]
      rw [hkeS, alSet_alSet, alSet_alGet_self _ _ _ hkSh]
      split
      · exact Or.inl rfl
      · exact Or.inr rfl
    · rw [hbside, hbuy] at *
      rw [if_pos rfl]
      exact hA
  · rcases hmq with h | ⟨m, hm, hval⟩
    · exact Or.inl h
    · refine Or.inr ⟨m, hm, ?_⟩
      intro t
      exact hval t

/-- C4 counterexample: with the default eager matching, adding a sell order
that matches a resident buy order and then cancelling it does not restore the
buy order's working quantity (100 before, 60 after add-then-cancel), so the
cache is not returned to the pre-add state. -/
theorem c4_add_cancel_not_restored_counterexample :
    (findOrder (cancelOrder (addOrder eagerConfig
        (addOrder eagerConfig emptyOrderCache (mkOrder "B1" "S" "Buy" 100 "u1" "CompA"))
        (mkOrder "X" "S" "Sell" 40 "u2" "CompB")) "X").orders "B1").map Order.workingQty
      = some 60 ∧
    (findOrder (addOrder eagerConfig emptyOrderCache
        (mkOrder "B1" "S" "Buy" 100 "u1" "CompA")).orders "B1").map Order.workingQty
      = some 100 ∧
    cancelOrder (addOrder eagerConfig
        (addOrder eagerConfig emptyOrderCache (mkOrder "B1" "S" "Buy" 100 "u1" "CompA"))
        (mkOrder "X" "S" "Sell" 40 "u2" "CompB")) "X"
      ≠ addOrder eagerConfig emptyOrderCache (mkOrder "B1" "S" "Buy" 100 "u1" "CompA") := by
  refine ⟨by decide, by decide, by decide⟩

/-- C4 (amended): in any well-formed state, adding an order with a fresh id
and then cancelling that id removes the order from the order list and every
index again: the order index is restored exactly; the by-user, by-security
and per-side index maps are restored except that the add may leave behind a
new, empty entry for the order's user or security key; the other orders keep
all their immutable fields but their working quantities may have been
consumed by eager matching during the add (they are not restored); and the
match cache either is untouched or gains exactly the matched amount
m ≤ working quantity of the added order at the order's security (a 32-bit
unsigned addition), all other securities unchanged. -/
theorem c4_add_cancel_effects (cfg : MatchConfig) (c : OrderCache) (o : Order)
    (hwf : WF c) (hnew : c.existsOrder o.orderId = false) :
    List.Forall₂ onlyConsumed c.orders
      (cancelOrder (addOrder cfg c o) o.orderId).orders ∧
    (cancelOrder (addOrder cfg c o) o.orderId).orderIndex = c.orderIndex ∧
    ((cancelOrder (addOrder cfg c o) o.orderId).userOrdersIndex = c.userOrdersIndex ∨
      (cancelOrder (addOrder cfg c o) o.orderId).userOrdersIndex
        = c.userOrdersIndex ++ [(o.user, [])]) ∧
    ((cancelOrder (addOrder cfg c o) o.orderId).securityOrdersIndex = c.securityOrdersIndex ∨
      (cancelOrder (addOrder cfg c o) o.orderId).securityOrdersIndex
        = c.securityOrdersIndex ++ [(o.securityId, [])]) ∧
    ((cancelOrder (addOrder cfg c o) o.orderId).securityLongOrdersIndex
        = c.securityLongOrdersIndex ∨
      (cancelOrder (addOrder cfg c o) o.orderId).securityLongOrdersIndex
        = c.securityLongOrdersIndex ++ [(o.securityId, [])]) ∧
    ((cancelOrder (addOrder cfg c o) o.orderId).securityShortOrdersIndex
        = c.securityShortOrdersIndex ∨
      (cancelOrder (addOrder cfg c o) o.orderId).securityShortOrdersIndex
        = c.securityShortOrdersIndex ++ [(o.securityId, [])]) ∧
    ((cancelOrder (addOrder cfg c o) o.orderId).matchedQuantity = c.matchedQuantity ∨
      ∃ m, m ≤ o.workingQty ∧
        ∀ t, getMatchedQuantityInCache (cancelOrder (addOrder cfg c o) o.orderId) t
          = if t = o.securityId
            then (getMatchedQuantityInCache c t + m) % uintSize
            else getMatchedQuantityInCache c t) := by
  obtain ⟨hnd, hix1, hix2, huA, huC, hsA, hsC, hlA, hshA, hlC, hshC, hbdd,
    hkU, hkS, hkL, hkSh⟩ := hwf
  have hnotmem : o.orderId ∉ c.orderIndex := by
    unfold OrderCache.existsOrder at hnew
    simpa using hnew
  have hfrIdx : ∀ k ∈ c.orderIndex, k ≠ o.orderId := fun k hk he => hnotmem (he ▸ hk)
  have hfrOrd : ∀ x ∈ c.orders, x.orderId ≠ o.orderId :=
    fun x hx he => hnotmem (he ▸ hix2 x hx)
  have hfrU : o.orderId ∉ alGet c.userOrdersIndex o.user [] := by
    intro hm
    obtain ⟨e, he, hek, hie⟩ := mem_alGet_entry hm
    obtain ⟨x, hx, hxid, _⟩ := huA e he _ hie
    exact hfrOrd x hx hxid
  have hfrS : o.orderId ∉ alGet c.securityOrdersIndex o.securityId [] := by
    intro hm
    obtain ⟨e, he, hek, hie⟩ := mem_alGet_entry hm
    obtain ⟨x, hx, hxid, _⟩ := hsA e he _ hie
    exact hfrOrd x hx hxid
  have hfrL : o.orderId ∉ alGet c.securityLongOrdersIndex o.securityId [] := by
    intro hm
    obtain ⟨e, he, hek, hie⟩ := mem_alGet_entry hm
    obtain ⟨x, hx, hxid, _, _⟩ := hlA e he _ hie
    exact hfrOrd x hx hxid
  have hfrSh : o.orderId ∉ alGet c.securityShortOrdersIndex o.securityId [] := by
    intro hm
    obtain ⟨e, he, hek, hie⟩ := mem_alGet_entry hm
    obtain ⟨x, hx, hxid, _, _⟩ := hshA e he _ hie
    exact hfrOrd x hx hxid
  have hnotdup : ¬ (c.existsOrder o.orderId = true) := by rw [hnew]; decide
  have hLord : (addOrder (lazyConfig true) c o).orders = o :: c.orders := by
    unfold addOrder
    rw [if_neg hnotdup]
    dsimp only
    rw [if_neg (by decide : ¬ ((lazyConfig true).eagerMatch = true))]
  have hLidx : (addOrder (lazyConfig true) c o).orderIndex
      = c.orderIndex ++ [o.orderId] := by
    unfold addOrder
    rw [if_neg hnotdup]
    dsimp only
    rw [if_neg (by decide : ¬ ((lazyConfig true).eagerMatch = true))]
  have hLuser : (addOrder (lazyConfig true) c o).userOrdersIndex
      = alSet c.userOrdersIndex o.user
          (keyInsert (alGet c.userOrdersIndex o.user []) o.orderId) := by
    unfold addOrder
    rw [if_neg hnotdup]
    dsimp only
    rw [if_neg (by decide : ¬ ((lazyConfig true).eagerMatch = true))]
  have hLsec : (addOrder (lazyConfig true) c o).securityOrdersIndex
      = alSet c.securityOrdersIndex o.securityId
          (keyInsert (alGet c.securityOrdersIndex o.securityId []) o.orderId) := by
    unfold addOrder
    rw [if_neg hnotdup]
    dsimp only
    rw [if_neg (by decide : ¬ ((lazyConfig true).eagerMatch = true))]
  have hLmq : (addOrder (lazyConfig true) c o).matchedQuantity = c.matchedQuantity := by
    unfold addOrder
    rw [if_neg hnotdup]
    dsimp only
    rw [if_neg (by decide : ¬ ((lazyConfig true).eagerMatch = true))]
  have hLbuy : isBuySide o = true →
      (addOrder (lazyConfig true) c o).securityLongOrdersIndex
        = alSet c.securityLongOrdersIndex o.securityId
            (alGet c.securityLongOrdersIndex o.securityId [] ++ [o.orderId]) ∧
      (addOrder (lazyConfig true) c o).securityShortOrdersIndex
        = c.securityShortOrdersIndex := by
    intro hbuy
    unfold addOrder
    rw [if_neg hnotdup]
    dsimp only
    rw [if_neg (by decide : ¬ ((lazyConfig true).eagerMatch = true))]
    constructor
    · dsimp only
      rw [if_pos hbuy]
    · dsimp only
      rw [if_pos hbuy]
  have hLsell : isBuySide o = false →
      (addOrder (lazyConfig true) c o).securityLongOrdersIndex
        = c.securityLongOrdersIndex ∧
      (addOrder (lazyConfig true) c o).securityShortOrdersIndex
        = alSet c.securityShortOrdersIndex o.securityId
            (alGet c.securityShortOrdersIndex o.securityId [] ++ [o.orderId]) := by
    intro hsell
    unfold addOrder
    rw [if_neg hnotdup]
    dsimp only
    rw [if_neg (by decide : ¬ ((lazyConfig true).eagerMatch = true))]
    constructor
    · dsimp only
      rw [if_neg (by rw [hsell]; decide : ¬ (isBuySide o = true))]
    · dsimp only
      rw [if_neg (by rw [hsell]; decide : ¬ (isBuySide o = true))]
  have hndL : ((addOrder (lazyConfig true) c o).orders.map Order.orderId).Nodup := by
    rw [hLord]
    simp only [List.map_cons]
    refine List.nodup_cons.mpr ⟨?_, hnd⟩
    intro hmem
    obtain ⟨x, hx, hxid⟩ := List.mem_map.mp hmem
    exact hfrOrd x hx hxid
  have hfoL : findOrder (addOrder (lazyConfig true) c o).orders o.orderId = some o := by
    rw [hLord]
    exact findOrder_cons_self o c.orders
  have hgm : ∀ x, getMatchedQuantityInCache (addOrder (lazyConfig true) c o) x
      = getMatchedQuantityInCache c x := by
    intro x
    unfold getMatchedQuantityInCache
    rw [hLmq]
  by_cases hcfg : cfg.eagerMatch = true
  · have hlink : addOrder cfg c o
        = (matchOrderInCache (addOrder (lazyConfig true) c o) o.orderId).2 := by
      unfold addOrder
      rw [if_neg hnotdup, if_neg hnotdup]
      dsimp only
      rw [if_pos hcfg, if_neg (by decide : ¬ ((lazyConfig true).eagerMatch = true))]
    rw [hlink]
    refine cancel_after_add _ c o ?_ ?_ ?_ ?_ ?_ ?_ ?_
      hfrOrd hfrIdx hfrU hfrS hfrL hfrSh hkU hkS hkL hkSh
    · have h := matchOrderInCache_consumed (addOrder (lazyConfig true) c o) o.orderId hndL
      rw [hLord] at h
      exact h
    · rw [(matchOrderInCache_indexFrame _ o.orderId).1, hLidx]
    · rw [(matchOrderInCache_indexFrame _ o.orderId).2.1, hLuser]
    · rw [(matchOrderInCache_indexFrame _ o.orderId).2.2, hLsec]
    · by_cases hbuy : isBuySide o = true
      · refine Or.inl ⟨hbuy, ?_⟩
        rw [((matchOrderInCache_sideIdx_precise _ o.orderId o hfoL).1 hbuy).1]
        exact (hLbuy hbuy).1
      · have hb2 : isBuySide o = false := by simpa using hbuy
        refine Or.inr ⟨hb2, ?_⟩
        rcases ((matchOrderInCache_sideIdx_precise _ o.orderId o hfoL).2 hb2).2 with h | h
        · exact Or.inl (by rw [h, (hLsell hb2).1])
        · exact Or.inr (by rw [h, (hLsell hb2).1])
    · by_cases hbuy : isBuySide o = true
      · refine Or.inr ⟨hbuy, ?_⟩
        rcases ((matchOrderInCache_sideIdx_precise _ o.orderId o hfoL).1 hbuy).2 with h | h
        · exact Or.inl (by rw [h, (hLbuy hbuy).2])
        · exact Or.inr (by rw [h, (hLbuy hbuy).2])
      · have hb2 : isBuySide o = false := by simpa using hbuy
        refine Or.inl ⟨hb2, ?_⟩
        rw [((matchOrderInCache_sideIdx_precise _ o.orderId o hfoL).2 hb2).1]
        exact (hLsell hb2).2
    · rcases matchOrderInCache_matched (addOrder (lazyConfig true) c o) o.orderId with
        ⟨h1, _⟩ | ⟨ord, hfo2, hform⟩
      · exact Or.inl (by rw [h1, hLmq])
      · right
        rw [hfoL] at hfo2
        have hoeq : o = ord := Option.some.inj hfo2
        subst hoeq
        refine ⟨(matchOrderInCache (addOrder (lazyConfig true) c o) o.orderId).1,
          matchOrderInCache_val_le _ o.orderId o hfoL, ?_⟩
        intro t
        by_cases ht : t = o.securityId
        · subst ht
          rw [if_pos rfl]
          have h2 := hform o.securityId
          rw [if_pos rfl] at h2
          rw [h2, hgm]
        · rw [if_neg ht]
          have h2 := hform t
          rw [if_neg ht] at h2
          rw [h2, hgm]
  · have hcfg2 : cfg.eagerMatch = false := by simpa using hcfg
    have hlink2 : addOrder cfg c o = addOrder (lazyConfig true) c o := by
      unfold addOrder
      rw [if_neg hnotdup, if_neg hnotdup]
      dsimp only
      rw [if_neg (by rw [hcfg2]; decide : ¬ (cfg.eagerMatch = true)),
        if_neg (by decide : ¬ ((lazyConfig true).eagerMatch = true))]
    rw [hlink2]
    refine cancel_after_add _ c o ?_ hLidx hLuser hLsec ?_ ?_ (Or.inl hLmq)
      hfrOrd hfrIdx hfrU hfrS hfrL hfrSh hkU hkS hkL hkSh
    · rw [hLord]
      exact List.forall₂_same.mpr (fun x _ => onlyConsumed_refl x)
    · by_cases hbuy : isBuySide o = true
      · exact Or.inl ⟨hbuy, (hLbuy hbuy).1⟩
      · have hb2 : isBuySide o = false := by simpa using hbuy
        exact Or.inr ⟨hb2, Or.inl (hLsell hb2).1⟩
    · by_cases hbuy : isBuySide o = true
      · exact Or.inr ⟨hbuy, Or.inl (hLbuy hbuy).2⟩
      · have hb2 : isBuySide o = false := by simpa using hbuy
        exact Or.inl ⟨hb2, (hLsell hb2).2⟩

/-- C4 witness: the amended add-then-cancel theorem applied in eager mode to
a one-order cache and a matching sell order, with the hypotheses checked by
evaluation. -/
theorem c4_add_cancel_effects_witness :
    WF (runAdds eagerConfig [mkOrder "B1" "S" "Buy" 100 "u1" "CompA"]) ∧
    (runAdds eagerConfig [mkOrder "B1" "S" "Buy" 100 "u1" "CompA"]).existsOrder
      (mkOrder "X" "S" "Sell" 40 "u2" "CompB").orderId = false ∧
    List.Forall₂ onlyConsumed
      (runAdds eagerConfig [mkOrder "B1" "S" "Buy" 100 "u1" "CompA"]).orders
      (cancelOrder (addOrder eagerConfig
          (runAdds eagerConfig [mkOrder "B1" "S" "Buy" 100 "u1" "CompA"])
          (mkOrder "X" "S" "Sell" 40 "u2" "CompB"))
        (mkOrder "X" "S" "Sell" 40 "u2" "CompB").orderId).orders :=
  ⟨by unfold WF; decide, by decide,
    (c4_add_cancel_effects eagerConfig
      (runAdds eagerConfig [mkOrder "B1" "S" "Buy" 100 "u1" "CompA"])
      (mkOrder "X" "S" "Sell" 40 "u2" "CompB")
      (by unfold WF; decide) (by decide)).1⟩

/-! ## Projection lemmas for operation sequences -/

theorem runAdds_snoc (cfg : MatchConfig) (os : List Order) (o : Order) :
    runAdds cfg (os ++ [o]) = addOrder cfg (runAdds cfg os) o := by
  unfold runAdds
  rw [List.foldl_append]
  rfl

theorem findOrder_cons_ne (o : Order) (rest : List Order) (x : String)
    (h : x ≠ o.orderId) : findOrder (o :: rest) x = findOrder rest x := by
  unfold findOrder
  rw [List.find?_cons_of_neg _ (by simp; exact fun he => h he.symm)]

theorem order_eta (o : Order) (w : Nat) (h : w = o.workingQty) :
    { o with workingQty := w } = o := by
  subst h
  rfl

theorem buysOf_append (os : List Order) (o : Order) (t : String) :
    buysOf (os ++ [o]) t
      = buysOf os t ++ (if (o.securityId == t && isBuySide o) = true then [o] else []) := by
  unfold buysOf
  rw [List.filter_append]
  congr 1
  cases hp : o.securityId == t && isBuySide o
  · simp [hp]
  · simp [hp]

theorem sellsOf_append (os : List Order) (o : Order) (t : String) :
    sellsOf (os ++ [o]) t
      = sellsOf os t ++ (if (o.securityId == t && !(isBuySide o)) = true then [o] else []) := by
  unfold sellsOf
  rw [List.filter_append]
  congr 1
  cases hp : o.securityId == t && !(isBuySide o)
  · simp [hp]
  · simp [hp]

theorem buysOf_mem {os : List Order} {t : String} {a : Order} (h : a ∈ buysOf os t) :
    a ∈ os ∧ a.securityId = t ∧ isBuySide a = true := by
  unfold buysOf at h
  rw [List.mem_filter] at h
  obtain ⟨h1, h2⟩ := h
  rw [Bool.and_eq_true] at h2
  exact ⟨h1, by simpa using h2.1, h2.2⟩

theorem sellsOf_mem {os : List Order} {t : String} {a : Order} (h : a ∈ sellsOf os t) :
    a ∈ os ∧ a.securityId = t ∧ isBuySide a = false := by
  unfold sellsOf at h
  rw [List.mem_filter] at h
  obtain ⟨h1, h2⟩ := h
  rw [Bool.and_eq_true] at h2
  exact ⟨h1, by simpa using h2.1, by simpa using h2.2⟩

theorem ids_nodup_filter {os : List Order} (hnd : (os.map Order.orderId).Nodup)
    (p : Order → Bool) : ((os.filter p).map Order.orderId).Nodup :=
  List.Nodup.sublist (List.Sublist.map Order.orderId (List.filter_sublist os)) hnd

theorem ids_disjoint {os : List Order} (hnd : (os.map Order.orderId).Nodup)
    {a b : Order} (ha : a ∈ os) (hb : b ∈ os) (hid : a.orderId = b.orderId) : a = b :=
  List.inj_on_of_nodup_map hnd ha hb hid

theorem forall₂_append_single {R : Order → Nat × String → Prop}
    {l1 : List Order} {l2 : List (Nat × String)} {a : Order} {b : Nat × String}
    (h : List.Forall₂ R l1 l2) (hab : R a b) :
    List.Forall₂ R (l1 ++ [a]) (l2 ++ [b]) := by
  induction h with
  | nil => exact List.Forall₂.cons hab List.Forall₂.nil
  | cons hxy htail ih => exact List.Forall₂.cons hxy ih

theorem forall₂_nil_right {R : Order → Nat × String → Prop}
    {l2 : List (Nat × String)} (h : List.Forall₂ R [] l2) : l2 = [] := by
  cases h
  rfl

theorem colsOf_of_forall₂ {store : List Order} {items : List Order}
    {cells : List (Nat × String)}
    (h : List.Forall₂ (fun a cell =>
      findOrder store a.orderId = some { a with workingQty := cell.1 } ∧
      cell.2 = a.company) items cells) :
    colsOf store (items.map Order.orderId) = cells := by
  induction h with
  | nil => rfl
  | @cons a cell l1 l2 hac htail ih =>
    rw [List.map_cons, colsOf_cons_some _ hac.1, ih]
    congr 1
    dsimp only
    rw [← hac.2]

theorem forall₂_cells_frame {store store' : List Order} {items : List Order}
    {cells : List (Nat × String)}
    (hold : List.Forall₂ (fun a cell =>
      findOrder store a.orderId = some { a with workingQty := cell.1 } ∧
      cell.2 = a.company) items cells)
    (hfr : ∀ a ∈ items, findOrder store' a.orderId = findOrder store a.orderId) :
    List.Forall₂ (fun a cell =>
      findOrder store' a.orderId = some { a with workingQty := cell.1 } ∧
      cell.2 = a.company) items cells := by
  induction hold with
  | nil => exact List.Forall₂.nil
  | @cons a cell l1 l2 hac htail ih =>
    refine List.Forall₂.cons ⟨?_, hac.2⟩ (ih (fun x hx => hfr x (List.mem_cons_of_mem _ hx)))
    rw [hfr a (List.mem_cons_self _ _)]
    exact hac.1

theorem forall₂_cells_update {store store' : List Order} {items : List Order}
    {cells : List (Nat × String)}
    (hold : List.Forall₂ (fun a cell =>
      findOrder store a.orderId = some { a with workingQty := cell.1 } ∧
      cell.2 = a.company) items cells)
    (hrel : ∀ a ∈ items, ∀ x, findOrder store a.orderId = some x →
      ∃ y, findOrder store' a.orderId = some y ∧ onlyConsumed x y) :
    List.Forall₂ (fun a cell =>
      findOrder store' a.orderId = some { a with workingQty := cell.1 } ∧
      cell.2 = a.company) items (colsOf store' (items.map Order.orderId)) := by
  induction hold with
  | nil => exact List.Forall₂.nil
  | @cons a cell l1 l2 hac htail ih =>
    obtain ⟨y, hy, hr⟩ := hrel a (List.mem_cons_self _ _) _ hac.1
    have hyrec : y = { a with workingQty := y.workingQty } := by
      rw [onlyConsumed_record hr]
    have hcomp : y.company = a.company := hr.2.2.2.2.2.1
    rw [List.map_cons, colsOf_cons_some _ hy]
    refine List.Forall₂.cons ⟨?_, hcomp⟩
      (ih (fun x hx => hrel x (List.mem_cons_of_mem _ hx)))
    rw [hy, hyrec]

theorem getMatchedQuantityInCache_nil (c : OrderCache) (h : c.matchedQuantity = [])
    (t : String) : getMatchedQuantityInCache c t = 0 := by
  unfold getMatchedQuantityInCache alGet
  rw [h]
  rfl

/-! ## Interface equations for `addOrder` and `matchOrderInCache` -/

theorem addOrder_lazy_fields (cfg : MatchConfig) (hc : cfg.eagerMatch = false)
    (c : OrderCache) (o : Order) (h : ¬ (c.existsOrder o.orderId = true)) :
    (addOrder cfg c o).orders = o :: c.orders ∧
    (addOrder cfg c o).orderIndex = c.orderIndex ++ [o.orderId] ∧
    (addOrder cfg c o).userOrdersIndex = alSet c.userOrdersIndex o.user
      (keyInsert (alGet c.userOrdersIndex o.user []) o.orderId) ∧
    (addOrder cfg c o).securityOrdersIndex = alSet c.securityOrdersIndex o.securityId
      (keyInsert (alGet c.securityOrdersIndex o.securityId []) o.orderId) ∧
    (isBuySide o = true →
      (addOrder cfg c o).securityLongOrdersIndex = alSet c.securityLongOrdersIndex
        o.securityId (alGet c.securityLongOrdersIndex o.securityId [] ++ [o.orderId]) ∧
      (addOrder cfg c o).securityShortOrdersIndex = c.securityShortOrdersIndex) ∧
    (isBuySide o = false →
      (addOrder cfg c o).securityLongOrdersIndex = c.securityLongOrdersIndex ∧
      (addOrder cfg c o).securityShortOrdersIndex = alSet c.securityShortOrdersIndex
        o.securityId (alGet c.securityShortOrdersIndex o.securityId [] ++ [o.orderId])) ∧
    (addOrder cfg c o).matchedQuantity = c.matchedQuantity := by
  refine ⟨?_, ?_, ?_, ?_, ?_, ?_, ?_⟩
  · unfold addOrder
    rw [if_neg h]
    dsimp only
    rw [if_neg (by rw [hc]; decide : ¬ (cfg.eagerMatch = true))]
  · unfold addOrder
    rw [if_neg h]
    dsimp only
    rw [if_neg (by rw [hc]; decide : ¬ (cfg.eagerMatch = true))]
  · unfold addOrder
    rw [if_neg h]
    dsimp only
    rw [if_neg (by rw [hc]; decide : ¬ (cfg.eagerMatch = true))]
  · unfold addOrder
    rw [if_neg h]
    dsimp only
    rw [if_neg (by rw [hc]; decide : ¬ (cfg.eagerMatch = true))]
  · intro hbuy
    constructor
    · unfold addOrder
      rw [if_neg h]
      dsimp only
      rw [if_neg (by rw [hc]; decide : ¬ (cfg.eagerMatch = true))]
      dsimp only
      rw [if_pos hbuy]
    · unfold addOrder
      rw [if_neg h]
      dsimp only
      rw [if_neg (by rw [hc]; decide : ¬ (cfg.eagerMatch = true))]
      dsimp only
      rw [if_pos hbuy]
  · intro hsell
    constructor
    · unfold addOrder
      rw [if_neg h]
      dsimp only
      rw [if_neg (by rw [hc]; decide : ¬ (cfg.eagerMatch = true))]
      dsimp only
      rw [if_neg (by rw [hsell]; decide : ¬ (isBuySide o = true))]
    · unfold addOrder
      rw [if_neg h]
      dsimp only
      rw [if_neg (by rw [hc]; decide : ¬ (cfg.eagerMatch = true))]
      dsimp only
      rw [if_neg (by rw [hsell]; decide : ¬ (isBuySide o = true))]
  · unfold addOrder
    rw [if_neg h]
    dsimp only
    rw [if_neg (by rw [hc]; decide : ¬ (cfg.eagerMatch = true))]

theorem addOrder_eager_link (c : OrderCache) (o : Order)
    (h : ¬ (c.existsOrder o.orderId = true)) :
    addOrder eagerConfig c o
      = (matchOrderInCache (addOrder (lazyConfig true) c o) o.orderId).2 := by
  unfold addOrder
  rw [if_neg h, if_neg h]
  dsimp only
  rw [if_pos (by decide : eagerConfig.eagerMatch = true),
    if_neg (by decide : ¬ ((lazyConfig true).eagerMatch = true))]

theorem matchOrderInCache_filled_eq (c : OrderCache) (oid : String) (ord : Order)
    (hfo : findOrder c.orders oid = some ord) (hf : ord.isFilled = true) :
    matchOrderInCache c oid = (0, c) := by
  unfold matchOrderInCache
  rw [hfo]
  dsimp only
  rw [if_pos hf]

theorem matchOrderInCache_buy_empty (c : OrderCache) (oid : String) (ord : Order)
    (hfo : findOrder c.orders oid = some ord) (hnf : ¬ (ord.isFilled = true))
    (hbuy : isBuySide ord = true)
    (he : (alGet c.securityShortOrdersIndex ord.securityId []).isEmpty = true) :
    matchOrderInCache c oid
      = (0, { c with securityShortOrdersIndex :=
                alTouch c.securityShortOrdersIndex ord.securityId [] }) := by
  unfold matchOrderInCache
  rw [hfo]
  dsimp only
  rw [if_neg hnf]
  simp only [hbuy, if_true]
  rw [alGet_alTouch_self]
  rw [if_pos he]

theorem matchOrderInCache_sell_empty (c : OrderCache) (oid : String) (ord : Order)
    (hfo : findOrder c.orders oid = some ord) (hnf : ¬ (ord.isFilled = true))
    (hsell : isBuySide ord = false)
    (he : (alGet c.securityLongOrdersIndex ord.securityId []).isEmpty = true) :
    matchOrderInCache c oid
      = (0, { c with securityLongOrdersIndex :=
                alTouch c.securityLongOrdersIndex ord.securityId [] }) := by
  unfold matchOrderInCache
  rw [hfo]
  dsimp only
  rw [if_neg hnf]
  simp only [hsell, Bool.false_eq_true, if_false]
  rw [alGet_alTouch_self]
  rw [if_pos he]

theorem matchOrderInCache_buy_run (c : OrderCache) (oid : String) (ord : Order)
    (hfo : findOrder c.orders oid = some ord) (hnf : ¬ (ord.isFilled = true))
    (hbuy : isBuySide ord = true)
    (he : ¬ ((alGet c.securityShortOrdersIndex ord.securityId []).isEmpty = true)) :
    matchOrderInCache c oid
      = ((matchLoop c.orders ord (alGet c.securityShortOrdersIndex ord.securityId []) 0).1,
         { c with
            orders := updateOrder
              (matchLoop c.orders ord (alGet c.securityShortOrdersIndex ord.securityId []) 0).2.2
              oid (fun _ =>
                (matchLoop c.orders ord (alGet c.securityShortOrdersIndex ord.securityId []) 0).2.1),
            securityShortOrdersIndex := alTouch c.securityShortOrdersIndex ord.securityId [],
            matchedQuantity := alSet c.matchedQuantity ord.securityId
              ((alGet c.matchedQuantity ord.securityId 0
                + (matchLoop c.orders ord
                    (alGet c.securityShortOrdersIndex ord.securityId []) 0).1) % uintSize) }) := by
  unfold matchOrderInCache
  rw [hfo]
  dsimp only
  rw [if_neg hnf]
  simp only [hbuy, if_true]
  rw [alGet_alTouch_self]
  rw [if_neg he]

theorem matchOrderInCache_sell_run (c : OrderCache) (oid : String) (ord : Order)
    (hfo : findOrder c.orders oid = some ord) (hnf : ¬ (ord.isFilled = true))
    (hsell : isBuySide ord = false)
    (he : ¬ ((alGet c.securityLongOrdersIndex ord.securityId []).isEmpty = true)) :
    matchOrderInCache c oid
      = ((matchLoop c.orders ord (alGet c.securityLongOrdersIndex ord.securityId []) 0).1,
         { c with
            orders := updateOrder
              (matchLoop c.orders ord (alGet c.securityLongOrdersIndex ord.securityId []) 0).2.2
              oid (fun _ =>
                (matchLoop c.orders ord (alGet c.securityLongOrdersIndex ord.securityId []) 0).2.1),
            securityLongOrdersIndex := alTouch c.securityLongOrdersIndex ord.securityId [],
            matchedQuantity := alSet c.matchedQuantity ord.securityId
              ((alGet c.matchedQuantity ord.securityId 0
                + (matchLoop c.orders ord
                    (alGet c.securityLongOrdersIndex ord.securityId []) 0).1) % uintSize) }) := by
  unfold matchOrderInCache
  rw [hfo]
  dsimp only
  rw [if_neg hnf]
  simp only [hsell, Bool.false_eq_true, if_false]
  rw [alGet_alTouch_self]
  rw [if_neg he]

/-! ## The raw state built by lazy-mode adds -/

theorem lazy_runAdds_inv (cfg : MatchConfig) (hc : cfg.eagerMatch = false)
    (os : List Order) (hnd : (os.map Order.orderId).Nodup) :
    (runAdds cfg os).orders = os.reverse ∧
    (runAdds cfg os).orderIndex = os.map Order.orderId ∧
    (∀ t, alGet (runAdds cfg os).securityLongOrdersIndex t []
        = (buysOf os t).map Order.orderId) ∧
    (∀ t, alGet (runAdds cfg os).securityShortOrdersIndex t []
        = (sellsOf os t).map Order.orderId) ∧
    (∀ t, alContains (runAdds cfg os).securityOrdersIndex t
        = os.any (fun x => x.securityId == t)) ∧
    (runAdds cfg os).matchedQuantity = [] := by
  induction os using List.reverseRecOn with
  | nil =>
    exact ⟨rfl, rfl, fun t => rfl, fun t => rfl, fun t => rfl, rfl⟩
  | append_singleton os o ih =>
    have hnds : (os.map Order.orderId).Nodup ∧ o.orderId ∉ os.map Order.orderId := by
      rw [List.map_append, List.nodup_append] at hnd
      refine ⟨hnd.1, fun hmem => ?_⟩
      exact hnd.2.2 hmem (by simp)
    obtain ⟨r1, r2, r3, r4, r5, r6⟩ := ih hnds.1
    have hnew : ¬ ((runAdds cfg os).existsOrder o.orderId = true) := by
      unfold OrderCache.existsOrder
      rw [r2]
      simpa using hnds.2
    obtain ⟨f1, f2, f3, f4, f5, f6, f7⟩ :=
      addOrder_lazy_fields cfg hc (runAdds cfg os) o hnew
    rw [runAdds_snoc]
    refine ⟨?_, ?_, ?_, ?_, ?_, ?_⟩
    · rw [f1, r1, List.reverse_append]
      rfl
    · rw [f2, r2]
      simp
    · intro t
      by_cases hbuy : isBuySide o = true
      · by_cases ht : t = o.securityId
        · subst ht
          rw [(f5 hbuy).1, alGet_alSet_self, r3, buysOf_append,
            if_pos (by simp [hbuy] : (o.securityId == o.securityId && isBuySide o) = true),
            List.map_append, List.map_cons, List.map_nil]
        · rw [(f5 hbuy).1, alGet_alSet_ne _ _ _ _ _ ht, r3, buysOf_append,
            if_neg (by simp; intro he; exact absurd he.symm ht), List.append_nil]
      · have hsell : isBuySide o = false := by simpa using hbuy
        rw [(f6 hsell).1, r3, buysOf_append,
          if_neg (by simp [hsell]), List.append_nil]
    · intro t
      by_cases hbuy : isBuySide o = true
      · rw [(f5 hbuy).2, r4, sellsOf_append,
          if_neg (by simp [hbuy]), List.append_nil]
      · have hsell : isBuySide o = false := by simpa using hbuy
        by_cases ht : t = o.securityId
        · subst ht
          rw [(f6 hsell).2, alGet_alSet_self, r4, sellsOf_append,
            if_pos (by simp [hsell] : (o.securityId == o.securityId && !(isBuySide o)) = true),
            List.map_append, List.map_cons, List.map_nil]
        · rw [(f6 hsell).2, alGet_alSet_ne _ _ _ _ _ ht, r4, sellsOf_append,
            if_neg (by simp; intro he; exact absurd he.symm ht), List.append_nil]
    · intro t
      rw [f4, alContains_alSet, r5, List.any_append]
      congr 1
      simp only [List.any_cons, List.any_nil, Bool.or_false]
      exact (beq_comm_str t o.securityId).symm ▸ beq_comm_str t o.securityId
    · rw [f7, r6]

/-! ## The lazy query loop follows the row-major greedy schedule -/

theorem mod_juggle (a b k : Nat) :
    ((a + b % uintSize) % uintSize + k) % uintSize = (a + (b + k)) % uintSize := by
  unfold uintSize
  omega

theorem lazyLoop_greedy (bs : List Order) (c : OrderCache) (acc : Nat) (s : String)
    (sids : List String)
    (hacc : acc < uintSize)
    (hmem : ∀ o ∈ bs, o.securityId = s ∧ isBuySide o = true ∧
      findOrder c.orders o.orderId = some o)
    (hndb : (bs.map Order.orderId).Nodup)
    (hnds : sids.Nodup)
    (hdisj : ∀ o ∈ bs, o.orderId ∉ sids)
    (hsids : alGet c.securityShortOrdersIndex s [] = sids)
    (hcache : getMatchedQuantityInCache c s < uintSize) :
    (lazyMatchLoop c (bs.map Order.orderId) acc).1
      = (acc + (greedyCells (bs.map cellOf) (colsOf c.orders sids)).1) % uintSize ∧
    getMatchedQuantityInCache (lazyMatchLoop c (bs.map Order.orderId) acc).2 s
      = (getMatchedQuantityInCache c s
          + (greedyCells (bs.map cellOf) (colsOf c.orders sids)).1) % uintSize := by
  induction bs generalizing c acc with
  | nil =>
    simp only [List.map_nil, lazyMatchLoop, greedyCells]
    exact ⟨by simp [Nat.mod_eq_of_lt hacc], by simp [Nat.mod_eq_of_lt hcache]⟩
  | cons b rest ih =>
    obtain ⟨hbs, hbbuy, hbfo⟩ := hmem b (List.mem_cons_self _ _)
    have hndb' : (rest.map Order.orderId).Nodup := by
      rw [List.map_cons] at hndb
      exact (List.nodup_cons.mp hndb).2
    have hbrest : b.orderId ∉ rest.map Order.orderId := by
      rw [List.map_cons] at hndb
      exact (List.nodup_cons.mp hndb).1
    simp only [List.map_cons]
    rw [lazyMatchLoop]
    by_cases hf : b.isFilled = true
    · rw [matchOrderInCache_filled_eq c _ b hbfo hf]
      dsimp only
      have hacc' : (acc + 0) % uintSize = acc := by simp [Nat.mod_eq_of_lt hacc]
      rw [hacc']
      have hw0 : b.workingQty = 0 := (isFilled_iff b).mp hf
      obtain ⟨ih1, ih2⟩ := ih c acc hacc
        (fun o ho => hmem o (List.mem_cons_of_mem _ ho)) hndb'
        (fun o ho => hdisj o (List.mem_cons_of_mem _ ho)) hsids hcache
      constructor
      · rw [ih1]
        simp only [cellOf, greedyCells, hw0, scanCells_zero, Nat.zero_add]
      · rw [ih2]
        simp only [cellOf, greedyCells, hw0, scanCells_zero, Nat.zero_add]
    · by_cases hemp : (alGet c.securityShortOrdersIndex b.securityId []).isEmpty = true
      · have hsidnil : sids = [] := by
          rw [hbs, hsids] at hemp
          simpa using hemp
        subst hsidnil
        rw [matchOrderInCache_buy_empty c _ b hbfo hf hbbuy hemp]
        dsimp only
        have hacc' : (acc + 0) % uintSize = acc := by simp [Nat.mod_eq_of_lt hacc]
        rw [hacc']
        obtain ⟨ih1, ih2⟩ := ih
          { c with securityShortOrdersIndex :=
              alTouch c.securityShortOrdersIndex b.securityId [] }
          acc hacc
          (fun o ho => hmem o (List.mem_cons_of_mem _ ho)) hndb'
          (fun o ho => hdisj o (List.mem_cons_of_mem _ ho))
          (by dsimp only
              rw [hbs, alGet_alTouch_self]
              exact hsids)
          hcache
        constructor
        · rw [ih1]
          simp only [cellOf, greedyCells, colsOf_nil, scanCells_nil, Nat.zero_add]
        · rw [ih2]
          simp only [cellOf, greedyCells, colsOf_nil, scanCells_nil, Nat.zero_add]
          rfl
      · rw [matchOrderInCache_buy_run c _ b hbfo hf hbbuy hemp]
        dsimp only
        have hcps : alGet c.securityShortOrdersIndex b.securityId [] = sids := by
          rw [hbs]
          exact hsids
        rw [hcps]
        obtain ⟨b1, b2, b3, b4⟩ := matchLoop_cells sids c.orders b 0 hnds
          (hdisj b (List.mem_cons_self _ _)) uintSize_pos
        have hval : (matchLoop c.orders b sids 0).1
            = (scanCells b.workingQty b.company (colsOf c.orders sids)).1 % uintSize := by
          rw [b1, Nat.zero_add]
        have hsubjid : ∀ x : Order, x.orderId = b.orderId →
            ((fun _ => (matchLoop c.orders b sids 0).2.1) x).orderId = x.orderId := by
          intro x hx
          rw [b2]
          exact hx.symm
        have hfr2 : ∀ o ∈ rest, findOrder
            (updateOrder (matchLoop c.orders b sids 0).2.2 b.orderId
              (fun _ => (matchLoop c.orders b sids 0).2.1)) o.orderId
            = findOrder c.orders o.orderId := by
          intro o ho
          have hne : o.orderId ≠ b.orderId := by
            intro he
            exact hbrest (he ▸ List.mem_map_of_mem Order.orderId ho)
          rw [findOrder_updateOrder_ne _ _ _ _ hsubjid hne]
          exact b3 o.orderId (hdisj o (List.mem_cons_of_mem _ ho))
        have hcols2 : colsOf
            (updateOrder (matchLoop c.orders b sids 0).2.2 b.orderId
              (fun _ => (matchLoop c.orders b sids 0).2.1)) sids
            = (scanCells b.workingQty b.company (colsOf c.orders sids)).2.2 := by
          rw [← b4]
          apply colsOf_congr
          intro i hi
          have hne : i ≠ b.orderId := by
            intro he
            exact hdisj b (List.mem_cons_self _ _) (he ▸ hi)
          exact findOrder_updateOrder_ne _ _ _ _ hsubjid hne
        obtain ⟨ih1, ih2⟩ := ih
          { c with
              orders := updateOrder (matchLoop c.orders b sids 0).2.2 b.orderId
                (fun _ => (matchLoop c.orders b sids 0).2.1),
              securityShortOrdersIndex :=
                alTouch c.securityShortOrdersIndex b.securityId [],
              matchedQuantity := alSet c.matchedQuantity b.securityId
                ((alGet c.matchedQuantity b.securityId 0
                  + (matchLoop c.orders b sids 0).1) % uintSize) }
          ((acc + (matchLoop c.orders b sids 0).1) % uintSize)
          (Nat.mod_lt _ uintSize_pos)
          (fun o ho => ⟨(hmem o (List.mem_cons_of_mem _ ho)).1,
            (hmem o (List.mem_cons_of_mem _ ho)).2.1,
            by dsimp only
               rw [hfr2 o ho]
               exact (hmem o (List.mem_cons_of_mem _ ho)).2.2⟩)
          hndb'
          (fun o ho => hdisj o (List.mem_cons_of_mem _ ho))
          (by dsimp only
              rw [hbs, alGet_alTouch_self]
              exact hsids)
          (by dsimp only [getMatchedQuantityInCache]
              rw [hbs, alGet_alSet_self]
              exact Nat.mod_lt _ uintSize_pos)
        have hcache2 : getMatchedQuantityInCache
            { c with
                orders := updateOrder (matchLoop c.orders b sids 0).2.2 b.orderId
                  (fun _ => (matchLoop c.orders b sids 0).2.1),
                securityShortOrdersIndex :=
                  alTouch c.securityShortOrdersIndex b.securityId [],
                matchedQuantity := alSet c.matchedQuantity b.securityId
                  ((alGet c.matchedQuantity b.securityId 0
                    + (matchLoop c.orders b sids 0).1) % uintSize) } s
            = (getMatchedQuantityInCache c s
                + (matchLoop c.orders b sids 0).1) % uintSize := by
          unfold getMatchedQuantityInCache
          dsimp only
          rw [hbs, alGet_alSet_self]
        constructor
        · rw [ih1]
          rw [hcols2, hval]
          simp only [cellOf, greedyCells]
          exact mod_juggle acc _ _
        · rw [ih2, hcache2, hval]
          rw [hcols2]
          simp only [cellOf, greedyCells]
          exact mod_juggle (getMatchedQuantityInCache c s) _ _

/-! ## Security projections of a snoc-extended sequence -/

theorem buysOf_append_pos (os : List Order) (o : Order) (hbuy : isBuySide o = true) :
    buysOf (os ++ [o]) o.securityId = buysOf os o.securityId ++ [o] := by
  rw [buysOf_append, if_pos (by simp [hbuy])]

theorem buysOf_append_neg (os : List Order) (o : Order) (t : String)
    (h : ¬ ((o.securityId == t && isBuySide o) = true)) :
    buysOf (os ++ [o]) t = buysOf os t := by
  rw [buysOf_append, if_neg h, List.append_nil]

theorem sellsOf_append_pos (os : List Order) (o : Order) (hsell : isBuySide o = false) :
    sellsOf (os ++ [o]) o.securityId = sellsOf os o.securityId ++ [o] := by
  rw [sellsOf_append, if_pos (by simp [hsell])]

theorem sellsOf_append_neg (os : List Order) (o : Order) (t : String)
    (h : ¬ ((o.securityId == t && !(isBuySide o)) = true)) :
    sellsOf (os ++ [o]) t = sellsOf os t := by
  rw [sellsOf_append, if_neg h, List.append_nil]

theorem rowCellsOf_append_pos (os : List Order) (o : Order) (hbuy : isBuySide o = true) :
    rowCellsOf (os ++ [o]) o.securityId = rowCellsOf os o.securityId ++ [cellOf o] := by
  unfold rowCellsOf
  rw [buysOf_append_pos os o hbuy, List.map_append]
  simp

theorem rowCellsOf_append_neg (os : List Order) (o : Order) (t : String)
    (h : ¬ ((o.securityId == t && isBuySide o) = true)) :
    rowCellsOf (os ++ [o]) t = rowCellsOf os t := by
  unfold rowCellsOf
  rw [buysOf_append_neg os o t h]

theorem colCellsOf_append_pos (os : List Order) (o : Order) (hsell : isBuySide o = false) :
    colCellsOf (os ++ [o]) o.securityId = colCellsOf os o.securityId ++ [cellOf o] := by
  unfold colCellsOf
  rw [sellsOf_append_pos os o hsell, List.map_append]
  simp

theorem colCellsOf_append_neg (os : List Order) (o : Order) (t : String)
    (h : ¬ ((o.securityId == t && !(isBuySide o)) = true)) :
    colCellsOf (os ++ [o]) t = colCellsOf os t := by
  unfold colCellsOf
  rw [sellsOf_append_neg os o t h]

theorem fresh_ne {os : List Order} {o : Order}
    (hfr : o.orderId ∉ os.map Order.orderId) {a : Order} (ha : a ∈ os) :
    a.orderId ≠ o.orderId :=
  fun he => hfr (he ▸ List.mem_map_of_mem _ ha)

theorem cross_ids {os : List Order} (hnd : (os.map Order.orderId).Nodup)
    {a : Order} (ha : a ∈ os) {p : Order → Bool} (hpa : p a = false) :
    a.orderId ∉ (os.filter p).map Order.orderId := by
  intro hm
  obtain ⟨b, hb, hbid⟩ := List.mem_map.mp hm
  have hbos : b ∈ os := (List.mem_filter.mp hb).1
  have hpb : p b = true := (List.mem_filter.mp hb).2
  have hab : a = b := ids_disjoint hnd ha hbos hbid.symm
  rw [← hab, hpa] at hpb
  simp at hpb

/-! ## The eager add step preserves the greedy-schedule invariant -/

theorem mod_add_collapse (a b : Nat) :
    (a % uintSize + b % uintSize) % uintSize = (a + b) % uintSize := by
  unfold uintSize
  omega

theorem eager_step_buy (os : List Order) (o : Order) (E : OrderCache)
    (hnd : ((os ++ [o]).map Order.orderId).Nodup)
    (inv : EagerInv os E) (hbuy : isBuySide o = true) :
    EagerInv (os ++ [o]) (addOrder eagerConfig E o) := by
  obtain ⟨i0, i1, i2, i3, i4, i5, i6, i7⟩ := inv
  have hndos : (os.map Order.orderId).Nodup ∧ o.orderId ∉ os.map Order.orderId := by
    rw [List.map_append, List.nodup_append] at hnd
    exact ⟨hnd.1, fun hmem => hnd.2.2 hmem (by simp)⟩
  have hnew : ¬ (E.existsOrder o.orderId = true) := by
    unfold OrderCache.existsOrder
    rw [i1]
    simpa using hndos.2
  obtain ⟨f1, f2, f3, f4, f5, f6, f7⟩ :=
    addOrder_lazy_fields (lazyConfig true) rfl E o hnew
  rw [addOrder_eager_link E o hnew]
  have hfoL : findOrder (addOrder (lazyConfig true) E o).orders o.orderId = some o := by
    rw [f1]
    exact findOrder_cons_self o E.orders
  have hLids : (addOrder (lazyConfig true) E o).orders.map Order.orderId
      = ((os ++ [o]).map Order.orderId).reverse := by
    rw [f1, List.map_cons, i0, List.map_append]
    simp
  have hLndup : ((addOrder (lazyConfig true) E o).orders.map Order.orderId).Nodup := by
    rw [hLids]
    exact List.nodup_reverse.mpr hnd
  have hfrE : ∀ {a : Order}, a ∈ os →
      findOrder (addOrder (lazyConfig true) E o).orders a.orderId
        = findOrder E.orders a.orderId := by
    intro a ha
    rw [f1]
    exact findOrder_cons_ne o E.orders a.orderId (fresh_ne hndos.2 ha)
  have hcps : alGet (addOrder (lazyConfig true) E o).securityShortOrdersIndex
      o.securityId [] = (sellsOf os o.securityId).map Order.orderId := by
    rw [(f5 hbuy).2]
    exact i3 o.securityId
  have hrowS := rowCellsOf_append_pos os o hbuy
  have hbuysS := buysOf_append_pos os o hbuy
  have hcolS : colCellsOf (os ++ [o]) o.securityId = colCellsOf os o.securityId :=
    colCellsOf_append_neg os o o.securityId (by simp [hbuy])
  have hsellsS : sellsOf (os ++ [o]) o.securityId = sellsOf os o.securityId :=
    sellsOf_append_neg os o o.securityId (by simp [hbuy])
  have honotsell : o.orderId ∉ (sellsOf os o.securityId).map Order.orderId := by
    intro hm
    obtain ⟨b, hb, hbid⟩ := List.mem_map.mp hm
    exact hndos.2 (hbid ▸ List.mem_map_of_mem _ (sellsOf_mem hb).1)
  have hi1' : (addOrder (lazyConfig true) E o).orderIndex
      = (os ++ [o]).map Order.orderId := by
    rw [f2, i1]
    simp
  have hlong' : ∀ t, alGet (addOrder (lazyConfig true) E o).securityLongOrdersIndex t []
      = (buysOf (os ++ [o]) t).map Order.orderId := by
    intro t
    by_cases ht : t = o.securityId
    · subst ht
      rw [(f5 hbuy).1, alGet_alSet_self, i2, buysOf_append_pos os o hbuy,
        List.map_append]
      simp
    · rw [(f5 hbuy).1, alGet_alSet_ne _ _ _ _ _ ht, i2,
        buysOf_append_neg os o t (by simp; intro he; exact absurd he.symm ht)]
  have hshort' : ∀ t, alGet (addOrder (lazyConfig true) E o).securityShortOrdersIndex t []
      = (sellsOf (os ++ [o]) t).map Order.orderId := by
    intro t
    rw [(f5 hbuy).2, i3, sellsOf_append_neg os o t (by simp [hbuy])]
  have hshortT : ∀ t, alGet (alTouch
        (addOrder (lazyConfig true) E o).securityShortOrdersIndex o.securityId []) t []
      = (sellsOf (os ++ [o]) t).map Order.orderId := by
    intro t
    by_cases ht : t = o.securityId
    · subst ht
      rw [alGet_alTouch_self]
      exact hshort' o.securityId
    · rw [alGet_alTouch_ne _ _ _ _ _ ht]
      exact hshort' t
  have hsec' : ∀ t, alContains (addOrder (lazyConfig true) E o).securityOrdersIndex t
      = (os ++ [o]).any (fun x => x.securityId == t) := by
    intro t
    rw [f4, alContains_alSet, i4, List.any_append]
    congr 1
    simp only [List.any_cons, List.any_nil, Bool.or_false]
    exact beq_comm_str t o.securityId
  by_cases hfil : o.isFilled = true
  · -- the added order has no working lots: no matching runs
    rw [matchOrderInCache_filled_eq _ _ o hfoL hfil]
    dsimp only
    have hw0 : o.workingQty = 0 := (isFilled_iff o).mp hfil
    refine ⟨hLids, hi1', hlong', hshort', hsec', ?_, ?_, ?_⟩
    · intro t
      by_cases ht : t = o.securityId
      · subst ht
        rw [hbuysS, hrowS, hcolS]
        simp only [cellOf]
        rw [greedyCells_snoc_row, hw0, scanCells_zero]
        refine forall₂_append_single ?_ ⟨?_, rfl⟩
        · refine forall₂_cells_frame (i5 o.securityId) ?_
          intro a ha
          exact hfrE (buysOf_mem ha).1
        · rw [order_eta o _ (by rw [hw0]), f1]
          exact findOrder_cons_self o E.orders
      · rw [buysOf_append_neg os o t (by simp; intro he; exact absurd he.symm ht),
          rowCellsOf_append_neg os o t (by simp; intro he; exact absurd he.symm ht),
          colCellsOf_append_neg os o t (by simp [hbuy])]
        refine forall₂_cells_frame (i5 t) ?_
        intro a ha
        exact hfrE (buysOf_mem ha).1
    · intro t
      by_cases ht : t = o.securityId
      · subst ht
        rw [hsellsS, hrowS, hcolS]
        simp only [cellOf]
        rw [greedyCells_snoc_row, hw0, scanCells_zero]
        refine forall₂_cells_frame (i6 o.securityId) ?_
        intro a ha
        exact hfrE (sellsOf_mem ha).1
      · rw [sellsOf_append_neg os o t (by simp [hbuy]),
          rowCellsOf_append_neg os o t (by simp; intro he; exact absurd he.symm ht),
          colCellsOf_append_neg os o t (by simp [hbuy])]
        refine forall₂_cells_frame (i6 t) ?_
        intro a ha
        exact hfrE (sellsOf_mem ha).1
    · intro t
      have hgmL : getMatchedQuantityInCache (addOrder (lazyConfig true) E o) t
          = getMatchedQuantityInCache E t := by
        unfold getMatchedQuantityInCache
        rw [f7]
      rw [hgmL, i7 t]
      by_cases ht : t = o.securityId
      · subst ht
        rw [hrowS, hcolS]
        simp only [cellOf]
        rw [greedyCells_snoc_row, hw0, scanCells_zero]
        simp
      · rw [rowCellsOf_append_neg os o t (by simp; intro he; exact absurd he.symm ht),
          colCellsOf_append_neg os o t (by simp [hbuy])]
  · by_cases hemp : (alGet (addOrder (lazyConfig true) E o).securityShortOrdersIndex
        o.securityId []).isEmpty = true
    · -- no sell orders for the security yet
      have hsnil : sellsOf os o.securityId = [] := by
        rw [hcps] at hemp
        have := List.isEmpty_iff.mp hemp
        exact List.map_eq_nil_iff.mp this
      have hcolnil : (greedyCells (rowCellsOf os o.securityId)
          (colCellsOf os o.securityId)).2.2 = [] := by
        have h := i6 o.securityId
        rw [hsnil] at h
        exact forall₂_nil_right h
      rw [matchOrderInCache_buy_empty _ _ o hfoL hfil hbuy hemp]
      dsimp only
      refine ⟨hLids, hi1', hlong', hshortT, hsec', ?_, ?_, ?_⟩
      · intro t
        by_cases ht : t = o.securityId
        · subst ht
          rw [hbuysS, hrowS, hcolS]
          simp only [cellOf]
          rw [greedyCells_snoc_row, hcolnil, scanCells_nil]
          refine forall₂_append_single ?_ ⟨?_, rfl⟩
          · refine forall₂_cells_frame (i5 o.securityId) ?_
            intro a ha
            exact hfrE (buysOf_mem ha).1
          · rw [order_eta o _ rfl, f1]
            exact findOrder_cons_self o E.orders
        · rw [buysOf_append_neg os o t (by simp; intro he; exact absurd he.symm ht),
            rowCellsOf_append_neg os o t (by simp; intro he; exact absurd he.symm ht),
            colCellsOf_append_neg os o t (by simp [hbuy])]
          refine forall₂_cells_frame (i5 t) ?_
          intro a ha
          exact hfrE (buysOf_mem ha).1
      · intro t
        by_cases ht : t = o.securityId
        · subst ht
          rw [hsellsS, hrowS, hcolS]
          simp only [cellOf]
          rw [greedyCells_snoc_row, hcolnil, scanCells_nil]
          rw [hsnil]
          exact List.Forall₂.nil
        · rw [sellsOf_append_neg os o t (by simp [hbuy]),
            rowCellsOf_append_neg os o t (by simp; intro he; exact absurd he.symm ht),
            colCellsOf_append_neg os o t (by simp [hbuy])]
          refine forall₂_cells_frame (i6 t) ?_
          intro a ha
          exact hfrE (sellsOf_mem ha).1
      · intro t
        unfold getMatchedQuantityInCache
        dsimp only
        rw [f7]
        have h := i7 t
        unfold getMatchedQuantityInCache at h
        rw [h]
        by_cases ht : t = o.securityId
        · subst ht
          rw [hrowS, hcolS]
          simp only [cellOf]
          rw [greedyCells_snoc_row, hcolnil, scanCells_nil]
          simp
        · rw [rowCellsOf_append_neg os o t (by simp; intro he; exact absurd he.symm ht),
            colCellsOf_append_neg os o t (by simp [hbuy])]
    · -- the matcher scans the sells of the security
      rw [matchOrderInCache_buy_run _ _ o hfoL hfil hbuy hemp]
      dsimp only
      rw [hcps]
      have hcolsL : colsOf (addOrder (lazyConfig true) E o).orders
          ((sellsOf os o.securityId).map Order.orderId)
          = (greedyCells (rowCellsOf os o.securityId)
              (colCellsOf os o.securityId)).2.2 := by
        rw [colsOf_congr _ (fun i hi => ?_), colsOf_of_forall₂ (i6 o.securityId)]
        obtain ⟨b, hb, hbid⟩ := List.mem_map.mp hi
        rw [← hbid]
        exact hfrE (sellsOf_mem hb).1
      have hsnds : ((sellsOf os o.securityId).map Order.orderId).Nodup :=
        ids_nodup_filter hndos.1 _
      obtain ⟨b1, b2, b3, b4⟩ := matchLoop_cells
        ((sellsOf os o.securityId).map Order.orderId)
        (addOrder (lazyConfig true) E o).orders o 0 hsnds honotsell uintSize_pos
      rw [hcolsL] at b1 b2 b4
      have hsubjid : ∀ x : Order, x.orderId = o.orderId →
          ((fun _ => (matchLoop (addOrder (lazyConfig true) E o).orders o
            ((sellsOf os o.securityId).map Order.orderId) 0).2.1) x).orderId
              = x.orderId := by
        intro x hx
        rw [b2]
        exact hx.symm
      have hAfrO : findOrder (updateOrder
          (matchLoop (addOrder (lazyConfig true) E o).orders o
            ((sellsOf os o.securityId).map Order.orderId) 0).2.2 o.orderId
          (fun _ => (matchLoop (addOrder (lazyConfig true) E o).orders o
            ((sellsOf os o.securityId).map Order.orderId) 0).2.1)) o.orderId
          = some { o with workingQty :=
              (scanCells o.workingQty o.company
                (greedyCells (rowCellsOf os o.securityId)
                  (colCellsOf os o.securityId)).2.2).2.1 } := by
        rw [findOrder_updateOrder_self _ _ _ hsubjid, b3 o.orderId honotsell, hfoL]
        simp only [Option.map_some']
        rw [b2]
      have hAfr : ∀ {a : Order}, a ∈ os →
          a.orderId ∉ (sellsOf os o.securityId).map Order.orderId →
          findOrder (updateOrder
            (matchLoop (addOrder (lazyConfig true) E o).orders o
              ((sellsOf os o.securityId).map Order.orderId) 0).2.2 o.orderId
            (fun _ => (matchLoop (addOrder (lazyConfig true) E o).orders o
              ((sellsOf os o.securityId).map Order.orderId) 0).2.1)) a.orderId
            = findOrder E.orders a.orderId := by
        intro a ha hnotin
        rw [findOrder_updateOrder_ne _ _ _ _ hsubjid (fresh_ne hndos.2 ha),
          b3 a.orderId hnotin]
        exact hfrE ha
      refine ⟨?_, hi1', hlong', hshortT, hsec', ?_, ?_, ?_⟩
      · rw [updateOrder_map_orderId _ _ _ hsubjid, matchLoop_store_ids, hLids]
      · intro t
        by_cases ht : t = o.securityId
        · subst ht
          rw [hbuysS, hrowS, hcolS]
          simp only [cellOf]
          rw [greedyCells_snoc_row]
          refine forall₂_append_single ?_ ⟨hAfrO, rfl⟩
          refine forall₂_cells_frame (i5 o.securityId) ?_
          intro a ha
          have hamem := buysOf_mem ha
          refine hAfr hamem.1 ?_
          unfold sellsOf
          exact cross_ids hndos.1 hamem.1 (by simp [hamem.2.2])
        · rw [buysOf_append_neg os o t (by simp; intro he; exact absurd he.symm ht),
            rowCellsOf_append_neg os o t (by simp; intro he; exact absurd he.symm ht),
            colCellsOf_append_neg os o t (by simp [hbuy])]
          refine forall₂_cells_frame (i5 t) ?_
          intro a ha
          have hamem := buysOf_mem ha
          refine hAfr hamem.1 ?_
          unfold sellsOf
          exact cross_ids hndos.1 hamem.1 (by simp [hamem.2.2])
      · intro t
        by_cases ht : t = o.securityId
        · subst ht
          rw [hsellsS, hrowS, hcolS]
          simp only [cellOf]
          rw [greedyCells_snoc_row]
          have hwc := writeback_consumed (addOrder (lazyConfig true) E o).orders o
            ((sellsOf os o.securityId).map Order.orderId) o.orderId hLndup hfoL
          have hrel : ∀ a ∈ sellsOf os o.securityId, ∀ x,
              findOrder E.orders a.orderId = some x →
              ∃ y, findOrder (updateOrder
                (matchLoop (addOrder (lazyConfig true) E o).orders o
                  ((sellsOf os o.securityId).map Order.orderId) 0).2.2 o.orderId
                (fun _ => (matchLoop (addOrder (lazyConfig true) E o).orders o
                  ((sellsOf os o.securityId).map Order.orderId) 0).2.1)) a.orderId
                = some y ∧ onlyConsumed x y := by
            intro a ha x hx
            have hxL : findOrder (addOrder (lazyConfig true) E o).orders a.orderId
                = some x := by
              rw [hfrE (sellsOf_mem ha).1]
              exact hx
            rcases findOrder_rel hwc a.orderId with ⟨h1, _⟩ | ⟨p, q, hp, hq, hpq⟩
            · rw [h1] at hxL
              cases hxL
            · have hpx : p = x := by
                rw [hp] at hxL
                exact Option.some.inj hxL
              exact ⟨q, hq, hpx ▸ hpq⟩
          have h := forall₂_cells_update (i6 o.securityId) hrel
          have hAcols : colsOf (updateOrder
              (matchLoop (addOrder (lazyConfig true) E o).orders o
                ((sellsOf os o.securityId).map Order.orderId) 0).2.2 o.orderId
              (fun _ => (matchLoop (addOrder (lazyConfig true) E o).orders o
                ((sellsOf os o.securityId).map Order.orderId) 0).2.1))
              ((sellsOf os o.securityId).map Order.orderId)
              = (scanCells o.workingQty o.company
                  (greedyCells (rowCellsOf os o.securityId)
                    (colCellsOf os o.securityId)).2.2).2.2 := by
            rw [← b4]
            apply colsOf_congr
            intro i hi
            exact findOrder_updateOrder_ne _ _ _ _ hsubjid
              (fun he => honotsell (he ▸ hi))
          rw [hAcols] at h
          exact h
        · rw [sellsOf_append_neg os o t (by simp [hbuy]),
            rowCellsOf_append_neg os o t (by simp; intro he; exact absurd he.symm ht),
            colCellsOf_append_neg os o t (by simp [hbuy])]
          refine forall₂_cells_frame (i6 t) ?_
          intro a ha
          have hamem := sellsOf_mem ha
          refine hAfr hamem.1 ?_
          unfold sellsOf
          exact cross_ids hndos.1 hamem.1
            (by simp; intro he; exact absurd (hamem.2.1.symm.trans he) ht)
      · intro t
        have hval : (matchLoop (addOrder (lazyConfig true) E o).orders o
            ((sellsOf os o.securityId).map Order.orderId) 0).1
            = (scanCells o.workingQty o.company
                (greedyCells (rowCellsOf os o.securityId)
                  (colCellsOf os o.securityId)).2.2).1 % uintSize := by
          rw [b1, Nat.zero_add]
        have hv : alGet (addOrder (lazyConfig true) E o).matchedQuantity o.securityId 0
            = (greedyCells (rowCellsOf os o.securityId)
                (colCellsOf os o.securityId)).1 % uintSize := by
          rw [f7]
          have h := i7 o.securityId
          unfold getMatchedQuantityInCache at h
          exact h
        unfold getMatchedQuantityInCache
        dsimp only
        by_cases ht : t = o.securityId
        · subst ht
          rw [alGet_alSet_self, hv, hval, hrowS, hcolS]
          simp only [cellOf]
          rw [greedyCells_snoc_row]
          exact mod_add_collapse _ _
        · rw [alGet_alSet_ne _ _ _ _ _ ht, f7]
          have h := i7 t
          unfold getMatchedQuantityInCache at h
          rw [h, rowCellsOf_append_neg os o t (by simp; intro he; exact absurd he.symm ht),
            colCellsOf_append_neg os o t (by simp [hbuy])]

theorem eager_step_sell (os : List Order) (o : Order) (E : OrderCache)
    (hnd : ((os ++ [o]).map Order.orderId).Nodup)
    (inv : EagerInv os E) (hsell : isBuySide o = false) :
    EagerInv (os ++ [o]) (addOrder eagerConfig E o) := by
  obtain ⟨i0, i1, i2, i3, i4, i5, i6, i7⟩ := inv
  have hndos : (os.map Order.orderId).Nodup ∧ o.orderId ∉ os.map Order.orderId := by
    rw [List.map_append, List.nodup_append] at hnd
    exact ⟨hnd.1, fun hmem => hnd.2.2 hmem (by simp)⟩
  have hnew : ¬ (E.existsOrder o.orderId = true) := by
    unfold OrderCache.existsOrder
    rw [i1]
    simpa using hndos.2
  obtain ⟨f1, f2, f3, f4, f5, f6, f7⟩ :=
    addOrder_lazy_fields (lazyConfig true) rfl E o hnew
  rw [addOrder_eager_link E o hnew]
  have hfoL : findOrder (addOrder (lazyConfig true) E o).orders o.orderId = some o := by
    rw [f1]
    exact findOrder_cons_self o E.orders
  have hLids : (addOrder (lazyConfig true) E o).orders.map Order.orderId
      = ((os ++ [o]).map Order.orderId).reverse := by
    rw [f1, List.map_cons, i0, List.map_append]
    simp
  have hLndup : ((addOrder (lazyConfig true) E o).orders.map Order.orderId).Nodup := by
    rw [hLids]
    exact List.nodup_reverse.mpr hnd
  have hfrE : ∀ {a : Order}, a ∈ os →
      findOrder (addOrder (lazyConfig true) E o).orders a.orderId
        = findOrder E.orders a.orderId := by
    intro a ha
    rw [f1]
    exact findOrder_cons_ne o E.orders a.orderId (fresh_ne hndos.2 ha)
  have hcps : alGet (addOrder (lazyConfig true) E o).securityLongOrdersIndex
      o.securityId [] = (buysOf os o.securityId).map Order.orderId := by
    rw [(f6 hsell).1]
    exact i2 o.securityId
  have hcolSp := colCellsOf_append_pos os o hsell
  have hsellsSp := sellsOf_append_pos os o hsell
  have hrowS : rowCellsOf (os ++ [o]) o.securityId = rowCellsOf os o.securityId :=
    rowCellsOf_append_neg os o o.securityId (by simp [hsell])
  have hbuysS : buysOf (os ++ [o]) o.securityId = buysOf os o.securityId :=
    buysOf_append_neg os o o.securityId (by simp [hsell])
  have honotbuy : o.orderId ∉ (buysOf os o.securityId).map Order.orderId := by
    intro hm
    obtain ⟨b, hb, hbid⟩ := List.mem_map.mp hm
    exact hndos.2 (hbid ▸ List.mem_map_of_mem _ (buysOf_mem hb).1)
  have hi1' : (addOrder (lazyConfig true) E o).orderIndex
      = (os ++ [o]).map Order.orderId := by
    rw [f2, i1]
    simp
  have hshort' : ∀ t, alGet (addOrder (lazyConfig true) E o).securityShortOrdersIndex t []
      = (sellsOf (os ++ [o]) t).map Order.orderId := by
    intro t
    by_cases ht : t = o.securityId
    · subst ht
      rw [(f6 hsell).2, alGet_alSet_self, i3, sellsOf_append_pos os o hsell,
        List.map_append]
      simp
    · rw [(f6 hsell).2, alGet_alSet_ne _ _ _ _ _ ht, i3,
        sellsOf_append_neg os o t (by simp; intro he; exact absurd he.symm ht)]
  have hlong' : ∀ t, alGet (addOrder (lazyConfig true) E o).securityLongOrdersIndex t []
      = (buysOf (os ++ [o]) t).map Order.orderId := by
    intro t
    rw [(f6 hsell).1, i2, buysOf_append_neg os o t (by simp [hsell])]
  have hlongT : ∀ t, alGet (alTouch
        (addOrder (lazyConfig true) E o).securityLongOrdersIndex o.securityId []) t []
      = (buysOf (os ++ [o]) t).map Order.orderId := by
    intro t
    by_cases ht : t = o.securityId
    · subst ht
      rw [alGet_alTouch_self]
      exact hlong' o.securityId
    · rw [alGet_alTouch_ne _ _ _ _ _ ht]
      exact hlong' t
  have hsec' : ∀ t, alContains (addOrder (lazyConfig true) E o).securityOrdersIndex t
      = (os ++ [o]).any (fun x => x.securityId == t) := by
    intro t
    rw [f4, alContains_alSet, i4, List.any_append]
    congr 1
    simp only [List.any_cons, List.any_nil, Bool.or_false]
    exact beq_comm_str t o.securityId
  by_cases hfil : o.isFilled = true
  · -- the added order has no working lots: no matching runs
    rw [matchOrderInCache_filled_eq _ _ o hfoL hfil]
    dsimp only
    have hw0 : o.workingQty = 0 := (isFilled_iff o).mp hfil
    refine ⟨hLids, hi1', hlong', hshort', hsec', ?_, ?_, ?_⟩
    · intro t
      by_cases ht : t = o.securityId
      · subst ht
        rw [hbuysS, hrowS, hcolSp]
        simp only [cellOf]
        rw [greedyCells_snoc_col, hw0, scanCells_zero]
        refine forall₂_cells_frame (i5 o.securityId) ?_
        intro a ha
        exact hfrE (buysOf_mem ha).1
      · rw [buysOf_append_neg os o t (by simp [hsell]),
          rowCellsOf_append_neg os o t (by simp [hsell]),
          colCellsOf_append_neg os o t (by simp; intro he; exact absurd he.symm ht)]
        refine forall₂_cells_frame (i5 t) ?_
        intro a ha
        exact hfrE (buysOf_mem ha).1
    · intro t
      by_cases ht : t = o.securityId
      · subst ht
        rw [hsellsSp, hrowS, hcolSp]
        simp only [cellOf]
        rw [greedyCells_snoc_col, hw0, scanCells_zero]
        refine forall₂_append_single ?_ ⟨?_, rfl⟩
        · refine forall₂_cells_frame (i6 o.securityId) ?_
          intro a ha
          exact hfrE (sellsOf_mem ha).1
        · rw [order_eta o _ (by rw [hw0]), f1]
          exact findOrder_cons_self o E.orders
      · rw [sellsOf_append_neg os o t (by simp; intro he; exact absurd he.symm ht),
          rowCellsOf_append_neg os o t (by simp [hsell]),
          colCellsOf_append_neg os o t (by simp; intro he; exact absurd he.symm ht)]
        refine forall₂_cells_frame (i6 t) ?_
        intro a ha
        exact hfrE (sellsOf_mem ha).1
    · intro t
      have hgmL : getMatchedQuantityInCache (addOrder (lazyConfig true) E o) t
          = getMatchedQuantityInCache E t := by
        unfold getMatchedQuantityInCache
        rw [f7]
      rw [hgmL, i7 t]
      by_cases ht : t = o.securityId
      · subst ht
        rw [hrowS, hcolSp]
        simp only [cellOf]
        rw [greedyCells_snoc_col, hw0, scanCells_zero]
        simp
      · rw [rowCellsOf_append_neg os o t (by simp [hsell]),
          colCellsOf_append_neg os o t (by simp; intro he; exact absurd he.symm ht)]
  · by_cases hemp : (alGet (addOrder (lazyConfig true) E o).securityLongOrdersIndex
        o.securityId []).isEmpty = true
    · -- no buy orders for the security yet
      have hbnil : buysOf os o.securityId = [] := by
        rw [hcps] at hemp
        have := List.isEmpty_iff.mp hemp
        exact List.map_eq_nil_iff.mp this
      have hrownil : (greedyCells (rowCellsOf os o.securityId)
          (colCellsOf os o.securityId)).2.1 = [] := by
        have h := i5 o.securityId
        rw [hbnil] at h
        exact forall₂_nil_right h
      rw [matchOrderInCache_sell_empty _ _ o hfoL hfil hsell hemp]
      dsimp only
      refine ⟨hLids, hi1', hlongT, hshort', hsec', ?_, ?_, ?_⟩
      · intro t
        by_cases ht : t = o.securityId
        · subst ht
          rw [hbuysS, hrowS, hcolSp]
          simp only [cellOf]
          rw [greedyCells_snoc_col, hrownil, scanCells_nil]
          rw [hbnil]
          exact List.Forall₂.nil
        · rw [buysOf_append_neg os o t (by simp [hsell]),
            rowCellsOf_append_neg os o t (by simp [hsell]),
            colCellsOf_append_neg os o t (by simp; intro he; exact absurd he.symm ht)]
          refine forall₂_cells_frame (i5 t) ?_
          intro a ha
          exact hfrE (buysOf_mem ha).1
      · intro t
        by_cases ht : t = o.securityId
        · subst ht
          rw [hsellsSp, hrowS, hcolSp]
          simp only [cellOf]
          rw [greedyCells_snoc_col, hrownil, scanCells_nil]
          refine forall₂_append_single ?_ ⟨?_, rfl⟩
          · refine forall₂_cells_frame (i6 o.securityId) ?_
            intro a ha
            exact hfrE (sellsOf_mem ha).1
          · rw [order_eta o _ rfl, f1]
            exact findOrder_cons_self o E.orders
        · rw [sellsOf_append_neg os o t (by simp; intro he; exact absurd he.symm ht),
            rowCellsOf_append_neg os o t (by simp [hsell]),
            colCellsOf_append_neg os o t (by simp; intro he; exact absurd he.symm ht)]
          refine forall₂_cells_frame (i6 t) ?_
          intro a ha
          exact hfrE (sellsOf_mem ha).1
      · intro t
        unfold getMatchedQuantityInCache
        dsimp only
        rw [f7]
        have h := i7 t
        unfold getMatchedQuantityInCache at h
        rw [h]
        by_cases ht : t = o.securityId
        · subst ht
          rw [hrowS, hcolSp]
          simp only [cellOf]
          rw [greedyCells_snoc_col, hrownil, scanCells_nil]
          simp
        · rw [rowCellsOf_append_neg os o t (by simp [hsell]),
            colCellsOf_append_neg os o t (by simp; intro he; exact absurd he.symm ht)]
    · -- the matcher scans the buys of the security
      rw [matchOrderInCache_sell_run _ _ o hfoL hfil hsell hemp]
      dsimp only
      rw [hcps]
      have hrowsL : colsOf (addOrder (lazyConfig true) E o).orders
          ((buysOf os o.securityId).map Order.orderId)
          = (greedyCells (rowCellsOf os o.securityId)
              (colCellsOf os o.securityId)).2.1 := by
        rw [colsOf_congr _ (fun i hi => ?_), colsOf_of_forall₂ (i5 o.securityId)]
        obtain ⟨b, hb, hbid⟩ := List.mem_map.mp hi
        rw [← hbid]
        exact hfrE (buysOf_mem hb).1
      have hbnds : ((buysOf os o.securityId).map Order.orderId).Nodup :=
        ids_nodup_filter hndos.1 _
      obtain ⟨b1, b2, b3, b4⟩ := matchLoop_cells
        ((buysOf os o.securityId).map Order.orderId)
        (addOrder (lazyConfig true) E o).orders o 0 hbnds honotbuy uintSize_pos
      rw [hrowsL] at b1 b2 b4
      have hsubjid : ∀ x : Order, x.orderId = o.orderId →
          ((fun _ => (matchLoop (addOrder (lazyConfig true) E o).orders o
            ((buysOf os o.securityId).map Order.orderId) 0).2.1) x).orderId
              = x.orderId := by
        intro x hx
        rw [b2]
        exact hx.symm
      have hAfrO : findOrder (updateOrder
          (matchLoop (addOrder (lazyConfig true) E o).orders o
            ((buysOf os o.securityId).map Order.orderId) 0).2.2 o.orderId
          (fun _ => (matchLoop (addOrder (lazyConfig true) E o).orders o
            ((buysOf os o.securityId).map Order.orderId) 0).2.1)) o.orderId
          = some { o with workingQty :=
              (scanCells o.workingQty o.company
                (greedyCells (rowCellsOf os o.securityId)
                  (colCellsOf os o.securityId)).2.1).2.1 } := by
        rw [findOrder_updateOrder_self _ _ _ hsubjid, b3 o.orderId honotbuy, hfoL]
        simp only [Option.map_some']
        rw [b2]
      have hAfr : ∀ {a : Order}, a ∈ os →
          a.orderId ∉ (buysOf os o.securityId).map Order.orderId →
          findOrder (updateOrder
            (matchLoop (addOrder (lazyConfig true) E o).orders o
              ((buysOf os o.securityId).map Order.orderId) 0).2.2 o.orderId
            (fun _ => (matchLoop (addOrder (lazyConfig true) E o).orders o
              ((buysOf os o.securityId).map Order.orderId) 0).2.1)) a.orderId
            = findOrder E.orders a.orderId := by
        intro a ha hnotin
        rw [findOrder_updateOrder_ne _ _ _ _ hsubjid (fresh_ne hndos.2 ha),
          b3 a.orderId hnotin]
        exact hfrE ha
      refine ⟨?_, hi1', hlongT, hshort', hsec', ?_, ?_, ?_⟩
      · rw [updateOrder_map_orderId _ _ _ hsubjid, matchLoop_store_ids, hLids]
      · intro t
        by_cases ht : t = o.securityId
        · subst ht
          rw [hbuysS, hrowS, hcolSp]
          simp only [cellOf]
          rw [greedyCells_snoc_col]
          have hwc := writeback_consumed (addOrder (lazyConfig true) E o).orders o
            ((buysOf os o.securityId).map Order.orderId) o.orderId hLndup hfoL
          have hrel : ∀ a ∈ buysOf os o.securityId, ∀ x,
              findOrder E.orders a.orderId = some x →
              ∃ y, findOrder (updateOrder
                (matchLoop (addOrder (lazyConfig true) E o).orders o
                  ((buysOf os o.securityId).map Order.orderId) 0).2.2 o.orderId
                (fun _ => (matchLoop (addOrder (lazyConfig true) E o).orders o
                  ((buysOf os o.securityId).map Order.orderId) 0).2.1)) a.orderId
                = some y ∧ onlyConsumed x y := by
            intro a ha x hx
            have hxL : findOrder (addOrder (lazyConfig true) E o).orders a.orderId
                = some x := by
              rw [hfrE (buysOf_mem ha).1]
              exact hx
            rcases findOrder_rel hwc a.orderId with ⟨h1, _⟩ | ⟨p, q, hp, hq, hpq⟩
            · rw [h1] at hxL
              cases hxL
            · have hpx : p = x := by
                rw [hp] at hxL
                exact Option.some.inj hxL
              exact ⟨q, hq, hpx ▸ hpq⟩
          have h := forall₂_cells_update (i5 o.securityId) hrel
          have hArows : colsOf (updateOrder
              (matchLoop (addOrder (lazyConfig true) E o).orders o
                ((buysOf os o.securityId).map Order.orderId) 0).2.2 o.orderId
              (fun _ => (matchLoop (addOrder (lazyConfig true) E o).orders o
                ((buysOf os o.securityId).map Order.orderId) 0).2.1))
              ((buysOf os o.securityId).map Order.orderId)
              = (scanCells o.workingQty o.company
                  (greedyCells (rowCellsOf os o.securityId)
                    (colCellsOf os o.securityId)).2.1).2.2 := by
            rw [← b4]
            apply colsOf_congr
            intro i hi
            exact findOrder_updateOrder_ne _ _ _ _ hsubjid
              (fun he => honotbuy (he ▸ hi))
          rw [hArows] at h
          exact h
        · rw [buysOf_append_neg os o t (by simp [hsell]),
            rowCellsOf_append_neg os o t (by simp [hsell]),
            colCellsOf_append_neg os o t (by simp; intro he; exact absurd he.symm ht)]
          refine forall₂_cells_frame (i5 t) ?_
          intro a ha
          have hamem := buysOf_mem ha
          refine hAfr hamem.1 ?_
          unfold buysOf
          exact cross_ids hndos.1 hamem.1
            (by simp; intro he; exact absurd (hamem.2.1.symm.trans he) ht)
      · intro t
        by_cases ht : t = o.securityId
        · subst ht
          rw [hsellsSp, hrowS, hcolSp]
          simp only [cellOf]
          rw [greedyCells_snoc_col]
          refine forall₂_append_single ?_ ⟨hAfrO, rfl⟩
          refine forall₂_cells_frame (i6 o.securityId) ?_
          intro a ha
          have hamem := sellsOf_mem ha
          refine hAfr hamem.1 ?_
          unfold buysOf
          exact cross_ids hndos.1 hamem.1 (by simp [hamem.2.2])
        · rw [sellsOf_append_neg os o t (by simp; intro he; exact absurd he.symm ht),
            rowCellsOf_append_neg os o t (by simp [hsell]),
            colCellsOf_append_neg os o t (by simp; intro he; exact absurd he.symm ht)]
          refine forall₂_cells_frame (i6 t) ?_
          intro a ha
          have hamem := sellsOf_mem ha
          refine hAfr hamem.1 ?_
          unfold buysOf
          exact cross_ids hndos.1 hamem.1 (by simp [hamem.2.2])
      · intro t
        have hval : (matchLoop (addOrder (lazyConfig true) E o).orders o
            ((buysOf os o.securityId).map Order.orderId) 0).1
            = (scanCells o.workingQty o.company
                (greedyCells (rowCellsOf os o.securityId)
                  (colCellsOf os o.securityId)).2.1).1 % uintSize := by
          rw [b1, Nat.zero_add]
        have hv : alGet (addOrder (lazyConfig true) E o).matchedQuantity o.securityId 0
            = (greedyCells (rowCellsOf os o.securityId)
                (colCellsOf os o.securityId)).1 % uintSize := by
          rw [f7]
          have h := i7 o.securityId
          unfold getMatchedQuantityInCache at h
          exact h
        unfold getMatchedQuantityInCache
        dsimp only
        by_cases ht : t = o.securityId
        · subst ht
          rw [alGet_alSet_self, hv, hval, hrowS, hcolSp]
          simp only [cellOf]
          rw [greedyCells_snoc_col]
          exact mod_add_collapse _ _
        · rw [alGet_alSet_ne _ _ _ _ _ ht, f7]
          have h := i7 t
          unfold getMatchedQuantityInCache at h
          rw [h, rowCellsOf_append_neg os o t (by simp [hsell]),
            colCellsOf_append_neg os o t (by simp; intro he; exact absurd he.symm ht)]

theorem eager_invariant (os : List Order) (hnd : (os.map Order.orderId).Nodup) :
    EagerInv os (runAdds eagerConfig os) := by
  induction os using List.reverseRecOn with
  | nil =>
    exact ⟨rfl, rfl, fun t => rfl, fun t => rfl, fun t => rfl,
      fun t => List.Forall₂.nil, fun t => List.Forall₂.nil, fun t => rfl⟩
  | append_singleton os o ih =>
    have hnd1 : (os.map Order.orderId).Nodup := by
      rw [List.map_append, List.nodup_append] at hnd
      exact hnd.1
    rw [runAdds_snoc]
    by_cases hside : isBuySide o = true
    · exact eager_step_buy os o _ hnd (ih hnd1) hside
    · exact eager_step_sell os o _ hnd (ih hnd1) (Bool.eq_false_iff.mpr hside)

theorem forall₂_cells_self {st : List Order} {items : List Order}
    (h : ∀ a ∈ items, findOrder st a.orderId = some a) :
    List.Forall₂ (fun a cell =>
      findOrder st a.orderId = some { a with workingQty := cell.1 } ∧
      cell.2 = a.company) items (items.map cellOf) := by
  induction items with
  | nil => exact List.Forall₂.nil
  | cons a rest ih =>
    rw [List.map_cons]
    refine List.Forall₂.cons ⟨?_, rfl⟩ (ih fun b hb => h b (List.mem_cons_of_mem _ hb))
    rw [order_eta a (cellOf a).1 rfl]
    exact h a (List.mem_cons_self _ _)

theorem lazy_query_val (cfg : MatchConfig) (hc : cfg.eagerMatch = false)
    (c : OrderCache) (s : String) (os : List Order)
    (hnd : (os.map Order.orderId).Nodup)
    (h1 : c.orders = os.reverse)
    (h3 : ∀ t, alGet c.securityLongOrdersIndex t [] = (buysOf os t).map Order.orderId)
    (h4 : ∀ t, alGet c.securityShortOrdersIndex t [] = (sellsOf os t).map Order.orderId)
    (h5 : alContains c.securityOrdersIndex s = true)
    (h6 : c.matchedQuantity = []) :
    (getMatchingSizeForSecurity cfg c s).1
      = (greedyCells (rowCellsOf os s) (colCellsOf os s)).1 % uintSize := by
  have hfind : ∀ a ∈ os, findOrder c.orders a.orderId = some a := by
    intro a ha
    rw [h1]
    exact findOrder_eq_of_mem_nodup
      (by rw [List.map_reverse]; exact List.nodup_reverse.mpr hnd)
      (List.mem_reverse.mpr ha)
  have hcolsOf : colsOf c.orders ((sellsOf os s).map Order.orderId)
      = colCellsOf os s := by
    rw [colsOf_of_forall₂ (forall₂_cells_self (fun a ha => hfind a (sellsOf_mem ha).1))]
    rfl
  have hz : getMatchedQuantityInCache
      { c with securityLongOrdersIndex := alTouch c.securityLongOrdersIndex s [] } s
      = 0 := getMatchedQuantityInCache_nil _ h6 s
  have key := lazyLoop_greedy (buysOf os s)
    { c with securityLongOrdersIndex := alTouch c.securityLongOrdersIndex s [] }
    0 s ((sellsOf os s).map Order.orderId) uintSize_pos
    (fun o ho => ⟨(buysOf_mem ho).2.1, (buysOf_mem ho).2.2,
      hfind o (buysOf_mem ho).1⟩)
    (ids_nodup_filter hnd _) (ids_nodup_filter hnd _)
    (fun o ho => by
      unfold sellsOf
      exact cross_ids hnd (buysOf_mem ho).1 (by simp [(buysOf_mem ho).2.2]))
    (h4 s)
    (by rw [hz]; exact uintSize_pos)
  dsimp only at key
  rw [hcolsOf, hz] at key
  simp only [Nat.zero_add] at key
  have hrow : (buysOf os s).map cellOf = rowCellsOf os s := rfl
  rw [hrow] at key
  unfold getMatchingSizeForSecurity
  rw [if_neg (by rw [h5]; decide : ¬ ((!alContains c.securityOrdersIndex s) = true)),
    if_neg (by rw [hc]; decide : ¬ (cfg.eagerMatch = true))]
  dsimp only
  rw [alGet_alTouch_self, h3 s]
  split
  · exact key.1
  · exact key.2

/-- C3 (amended): eager and lazy mode agree on the value returned by
`getMatchingSizeForSecurity` after any add-only operation sequence with
pairwise-distinct order ids — for every security and for either threading
variant of the lazy mode, both return the greedy matched total of that
security modulo 2^32. The original claim over sequences that also contain
cancels (and repeated queries) is refuted by the counterexample below. -/
theorem c3_eager_lazy_agree (os : List Order) (s : String) (mt : Bool)
    (hnd : (os.map Order.orderId).Nodup) :
    (getMatchingSizeForSecurity eagerConfig (runAdds eagerConfig os) s).1
      = (getMatchingSizeForSecurity (lazyConfig mt) (runAdds (lazyConfig mt) os) s).1 := by
  obtain ⟨i0, i1, i2, i3, i4, i5, i6, i7⟩ := eager_invariant os hnd
  obtain ⟨r1, r2, r3, r4, r5, r6⟩ := lazy_runAdds_inv (lazyConfig mt) rfl os hnd
  by_cases hq : os.any (fun x => x.securityId == s) = true
  · rw [getMatchingSize_eager_val, if_pos (by rw [i4]; exact hq), i7 s,
      lazy_query_val (lazyConfig mt) rfl _ s os hnd r1 r3 r4 (by rw [r5]; exact hq) r6]
  · have hq2 : os.any (fun x => x.securityId == s) = false := by simpa using hq
    rw [getMatchingSize_eager_val,
      if_neg (by rw [i4, hq2]; decide : ¬ (alContains (runAdds eagerConfig os).securityOrdersIndex s = true))]
    unfold getMatchingSizeForSecurity
    rw [if_pos (by rw [r5, hq2]; decide :
      (!(alContains (runAdds (lazyConfig mt) os).securityOrdersIndex s)) = true)]

/-- C3, counterexample to the full claim: add a matching buy/sell pair
(B1 buys 10, S1 sells 10, different companies, same security), cancel both,
then query the security. Eager mode returns the memoized 10; lazy mode (in
either threading variant) recomputes from the now-empty book and returns 0. -/
theorem c3_cancel_divergence_counterexample :
    (runOps eagerConfig emptyOrderCache c3CounterOps).2 = [10] ∧
    (runOps (lazyConfig true) emptyOrderCache c3CounterOps).2 = [0] ∧
    (runOps (lazyConfig false) emptyOrderCache c3CounterOps).2 = [0] := by
  decide

/-- C3, witness: the amended equivalence evaluated on README example 1 with
the thread-pool lazy variant. -/
theorem c3_eager_lazy_agree_witness :
    (exampleOneOrders.map Order.orderId).Nodup ∧
    (getMatchingSizeForSecurity eagerConfig
        (runAdds eagerConfig exampleOneOrders) "SecId2").1
      = (getMatchingSizeForSecurity (lazyConfig true)
          (runAdds (lazyConfig true) exampleOneOrders) "SecId2").1 :=
  ⟨by decide, c3_eager_lazy_agree exampleOneOrders "SecId2" true (by decide)⟩
